import Mathlib

/-!
Verification of the BFS file-reorganization engine (`bfs_v2.py` with shared data
types from `classify_v2.py`).

The Python source is shallowly embedded as executable Lean definitions:

* Python `dict`s become insertion-ordered association lists (`dictInsert`
  replaces in place on an existing key and appends a fresh key, exactly like
  Python dict assignment).
* The folder tree is a mutual inductive (`FolderNode` / `Children`), the
  children list playing the role of the Python `Dict[str, FolderNode]`.
* Confidences are embedded as rationals: the engine never performs arithmetic
  on a confidence, it only compares it with a threshold (`>=`), so the order
  structure is all that matters.
* `while` loops and the queue-based BFS are embedded with an explicit fuel
  argument (structural recursion on `Nat`); the fuel supplied by the wrappers
  is a weight measure that strictly dominates the number of iterations.
* The LLM classifier and the SQLite-backed store are external collaborators;
  they are embedded as function records (`Classifier`, `CourseDBModel`).  The
  database bulk update may fail (`Except`), mirroring a raised exception.
* The engine state carries ghost instrumentation (`folder_calls`,
  `file_calls`, `propagation_calls`): append-only logs of the oracle and
  propagation invocations, used to state call-counting properties.  They are
  written exactly where the Python code performs the corresponding call and
  never influence control flow.
-/

/- ================= Python string primitives ================= -/

/-- Replace every occurrence of character `a` by `b` (embeds Python
`str.replace` for a single-character pattern). -/
def pyReplaceChar (a b : Char) (s : String) : String :=
  ⟨s.data.map (fun c => if c = a then b else c)⟩

/-- Python `str.strip()`: remove leading and trailing whitespace. -/
def pyStrip (s : String) : String :=
  ⟨((s.data.dropWhile Char.isWhitespace).reverse.dropWhile Char.isWhitespace).reverse⟩

/-- Python `str.lower()` (character-wise). -/
def pyLower (s : String) : String := ⟨s.data.map Char.toLower⟩

/-- Python slicing `s[:n]` (by characters). -/
def pyTake (s : String) (n : Nat) : String := ⟨s.data.take n⟩

/-- Python slicing `s[n:]` (by characters). -/
def pyDrop (s : String) (n : Nat) : String := ⟨s.data.drop n⟩

/-- Python `str.lstrip("/")`. -/
def pyLstripSlash (s : String) : String := ⟨s.data.dropWhile (fun c => c = '/')⟩

/-- Index of the last occurrence of `c` in `l` (Python `str.rfind`, as an
`Option` instead of `-1`). -/
def rfindIdx (c : Char) : List Char → Option Nat
  | [] => none
  | x :: rest =>
    match rfindIdx c rest with
    | some i => some (i + 1)
    | none => if x = c then some 0 else none

/-- Python `"/".join parts`. -/
def joinSlash : List String → String
  | [] => ""
  | [s] => s
  | s :: rest => s ++ "/" ++ joinSlash rest

/-- Python `l.split("/")` on a character list; never returns `[]`. -/
def splitSlash : List Char → List (List Char)
  | [] => [[]]
  | c :: rest =>
    match splitSlash rest with
    | [] => [[]]
    | g :: gs => if c = '/' then [] :: g :: gs else (c :: g) :: gs

/-- Python `s.split("/")`. -/
def splitSlashStr (s : String) : List String := (splitSlash s.data).map (fun l => ⟨l⟩)

/-- Python `os.path.basename` (posix). -/
def pyBasename (p : String) : String :=
  match rfindIdx '/' p.data with
  | some j => ⟨p.data.drop (j + 1)⟩
  | none => p

/-- Python `os.path.dirname` (posix): the part before the last `/`, with
trailing slashes stripped unless the head is all slashes. -/
def pyDirname (p : String) : String :=
  match rfindIdx '/' p.data with
  | none => ""
  | some j =>
    let head := p.data.take (j + 1)
    if head ≠ [] ∧ ¬ head.all (fun c => c = '/') then
      ⟨(head.reverse.dropWhile (fun c => c = '/')).reverse⟩
    else ⟨head⟩

/-- Python `os.path.splitext` (posix): split off the extension at the last
dot, provided some non-dot character precedes it after the last separator. -/
def splitext (p : String) : String × String :=
  let l := p.data
  match rfindIdx '.' l with
  | none => (p, "")
  | some di =>
    let si : Nat := match rfindIdx '/' l with | some j => j + 1 | none => 0
    if si ≤ di ∧ ((l.drop si).take (di - si)).any (fun ch => ch ≠ '.') then
      (⟨l.take di⟩, ⟨l.drop di⟩)
    else (p, "")

/- ================= Association lists (Python dicts) ================= -/

/-- First-match lookup in an association list (Python `d.get(k)`). -/
def alookup {α : Type} (l : List (String × α)) (k : String) : Option α :=
  match l with
  | [] => none
  | (k', v) :: rest => if k' = k then some v else alookup rest k

/-- Python `d[k] = v`: replace in place if the key exists, else append. -/
def dictInsert {α : Type} (k : String) (v : α) : List (String × α) → List (String × α)
  | [] => [(k, v)]
  | (k', v') :: rest => if k' = k then (k', v) :: rest else (k', v') :: dictInsert k v rest

/-- Key list of an association list (Python `d.keys()`). -/
def keysOf {α : Type} (l : List (String × α)) : List String := l.map Prod.fst

/-- Python `d[k] = d.get(k, 0) + 1` for a counting dict. -/
def bump (k : String) : List (String × Nat) → List (String × Nat)
  | [] => [(k, 1)]
  | (k', v) :: rest => if k' = k then (k', v + 1) :: rest else (k', v) :: bump k rest

/- ================= Shared data structures (classify_v2.py) ================= -/

/-- The four canonical buckets (`Category` in `classify_v2.py`). -/
inductive Category where
  | study
  | practice
  | support
  | skip
deriving DecidableEq, Repr

/-- `Category.value` of the Python `str`-valued enum. -/
def Category.value : Category → String
  | .study => "study"
  | .practice => "practice"
  | .support => "support"
  | .skip => "skip"

/-- `FileMeta`: metadata for a single file. -/
structure FileMeta where
  source_path : String
  folder_path : String
  file_name : String
  description : Option String
deriving DecidableEq, Repr

/-- `FileIndexEntry`: one row from the DB `file` table. -/
structure FileIndexEntry where
  uuid : String
  file_name : String
  description : String
  original_path : Option String
  relative_path : Option String
  extra_info : Option String
deriving DecidableEq, Repr

/-- The DB file index keyed by file name (`load_file_index`). -/
def FileIndex : Type := List (String × FileIndexEntry)

/-- `FolderStats`: structural statistics for a folder. -/
structure FolderStats where
  total_file_count : Nat
  immediate_file_count : Nat
  subfolder_count : Nat
  subfolder_names : List String
  extension_counts : List (String × Nat)
  is_homogeneous : Bool
  primary_extensions : List String
deriving DecidableEq, Repr

/-- `DEFAULT_CONFIDENCE_THRESHOLD = 0.75`. -/
def DEFAULT_CONFIDENCE_THRESHOLD : ℚ := mkRat 3 4

/-- `MAX_CONCAT_DESC_CHARS = 6000`. -/
def MAX_CONCAT_DESC_CHARS : Nat := 6000

/-- `MAX_ANCESTOR_DEPTH = 10`. -/
def MAX_ANCESTOR_DEPTH : Nat := 10

/-- `ClassificationResult`: result of classifying a folder or file. -/
structure ClassificationResult where
  category : Category
  confidence : ℚ
  reason : String
  is_mixed : Bool
  folder_description : String
deriving DecidableEq, Repr

/-- `ClassificationResult.is_confident`:
`self.confidence >= threshold and not self.is_mixed`. -/
def ClassificationResult.is_confident (r : ClassificationResult) (threshold : ℚ) : Bool :=
  decide (threshold ≤ r.confidence) && !r.is_mixed

/- `FolderNode` / its children dict, as a mutual inductive.  `Children`
plays the role of the insertion-ordered Python `Dict[str, FolderNode]`. -/
mutual
inductive FolderNode where
  | mk (path name : String) (files : List FileMeta) (children : Children)
inductive Children where
  | nil
  | cons (name : String) (node : FolderNode) (rest : Children)
end

def FolderNode.path : FolderNode → String
  | .mk p _ _ _ => p

def FolderNode.name : FolderNode → String
  | .mk _ n _ _ => n

def FolderNode.files : FolderNode → List FileMeta
  | .mk _ _ fs _ => fs

def FolderNode.children : FolderNode → Children
  | .mk _ _ _ cs => cs

def FolderNode.withFiles : FolderNode → List FileMeta → FolderNode
  | .mk p n _ cs, fs => .mk p n fs cs

def FolderNode.withChildren : FolderNode → Children → FolderNode
  | .mk p n fs _, cs => .mk p n fs cs

/-- `k in node.children` / `node.children[k]` (dict get, keys are unique in
every tree the code builds). -/
def Children.lookup (k : String) : Children → Option FolderNode
  | .nil => none
  | .cons k' v rest => if k' = k then some v else Children.lookup k rest

/-- `node.children[k] = v`: replace in place if present, else append
(Python dict assignment). -/
def Children.setd (k : String) (v : FolderNode) : Children → Children
  | .nil => .cons k v .nil
  | .cons k' v' rest => if k' = k then .cons k' v rest else .cons k' v' (Children.setd k v rest)

/-- `node.children.keys()` in insertion order. -/
def Children.names : Children → List String
  | .nil => []
  | .cons k _ rest => k :: Children.names rest

/-- `node.children.values()` in insertion order. -/
def Children.nodes : Children → List FolderNode
  | .nil => []
  | .cons _ v rest => v :: Children.nodes rest

/-- The children dict as a plain association list (for stating lemmas). -/
def Children.toList : Children → List (String × FolderNode)
  | .nil => []
  | .cons k v rest => (k, v) :: Children.toList rest

def Children.length : Children → Nat
  | .nil => 0
  | .cons _ _ rest => 1 + Children.length rest

/- Weight measure used as fuel: strictly dominates the number of queue
iterations any BFS over the subtree can take. -/
mutual
def FolderNode.weight : FolderNode → Nat
  | .mk _ _ fs cs => 1 + fs.length + Children.weight cs
def Children.weight : Children → Nat
  | .nil => 0
  | .cons _ n rest => FolderNode.weight n + Children.weight rest
end

/- All nodes of a subtree, root first (specification-side helper). -/
mutual
def FolderNode.subNodes : FolderNode → List FolderNode
  | .mk p nm fs cs => .mk p nm fs cs :: Children.subNodes cs
def Children.subNodes : Children → List FolderNode
  | .nil => []
  | .cons _ n rest => FolderNode.subNodes n ++ Children.subNodes rest
end

/- All files of a subtree in depth-first order (specification-side helper;
the engine itself uses the BFS-ordered `collect_all_files` below). -/
mutual
def FolderNode.subFiles : FolderNode → List FileMeta
  | .mk _ _ fs cs => fs ++ Children.subFiles cs
def Children.subFiles : Children → List FileMeta
  | .nil => []
  | .cons _ n rest => FolderNode.subFiles n ++ Children.subFiles rest
end

/-- `collect_all_files` from `classify_v2.py`: queue-based BFS gathering all
files under a node.  `fuel` bounds the iterations; `collect_all_files`
supplies the node weight, which strictly dominates the node count. -/
def collectAuxF : Nat → List FolderNode → List FileMeta
  | 0, _ => []
  | _ + 1, [] => []
  | fuel + 1, n :: rest => n.files ++ collectAuxF fuel (rest ++ n.children.nodes)

/-- `collect_all_files(node)`: BFS gather of every `FileMeta` in the subtree. -/
def collect_all_files (node : FolderNode) : List FileMeta :=
  collectAuxF node.weight [node]

/- ================= Folder statistics (compute_folder_stats) ================= -/

/-- `os.path.splitext(f.file_name)[1].lower() or "(no ext)"`. -/
def extOf (file_name : String) : String :=
  let e := pyLower (splitext file_name).2
  if e = "" then "(no ext)" else e

/-- The extension-counting loop of `compute_folder_stats`. -/
def countExts : List FileMeta → List (String × Nat) → List (String × Nat)
  | [], acc => acc
  | f :: rest, acc => countExts rest (bump (extOf f.file_name) acc)

/-- Stable insert for a descending sort by count (Python
`sorted(key=lambda x: -x[1])` is a stable sort). -/
def insDesc (x : String × Nat) : List (String × Nat) → List (String × Nat)
  | [] => [x]
  | y :: rest => if y.2 ≤ x.2 then x :: y :: rest else y :: insDesc x rest

/-- Stable descending sort by count. -/
def sortDesc : List (String × Nat) → List (String × Nat)
  | [] => []
  | x :: rest => insDesc x (sortDesc rest)

/-- Lexicographic string order by code points (Python `str` comparison). -/
def strLeChars : List Char → List Char → Bool
  | [], _ => true
  | _ :: _, [] => false
  | a :: as, b :: bs =>
    if a = b then strLeChars as bs else decide (a.toNat < b.toNat)

/-- Stable insert for an ascending lexicographic sort of strings. -/
def insAsc (x : String) : List String → List String
  | [] => [x]
  | y :: rest => if strLeChars x.data y.data then x :: y :: rest else y :: insAsc x rest

/-- Python `sorted` on strings. -/
def sortAsc : List String → List String
  | [] => []
  | x :: rest => insAsc x (sortAsc rest)

/-- `metadata_exts` in `compute_folder_stats`. -/
def metadata_exts : List String := [".yaml", ".yml", ".json", ".md", ".txt", ".toml", ".ini"]

/-- `compute_folder_stats(node)` from `bfs_v2.py`.  The Python
`len({e for e in ext_counts if e not in metadata_exts})` is embedded as the
length of the filtered key list, which equals the set size because counting
dict keys are distinct. -/
def compute_folder_stats (node : FolderNode) : FolderStats :=
  let all_files := collect_all_files node
  let ext_counts := countExts all_files []
  let sorted_exts := sortDesc ext_counts
  let primary := (sorted_exts.take 3).map Prod.fst
  let content_exts := (ext_counts.map Prod.fst).filter (fun e => ¬ metadata_exts.contains e)
  let is_homogeneous := content_exts.length ≤ 1
  { total_file_count := all_files.length
    immediate_file_count := node.files.length
    subfolder_count := node.children.length
    subfolder_names := sortAsc node.children.names
    extension_counts := ext_counts
    is_homogeneous := is_homogeneous
    primary_extensions := primary }

/- ================= build_concat_desc ================= -/

/-- Description chosen for a file in `build_concat_desc`: the DB entry's
description if nonempty, else the file's own, newline-flattened and
stripped; empty when absent. -/
def concatDescOf (file_index : FileIndex) (f : FileMeta) : String :=
  let fromMeta :=
    match f.description with
    | some d => if d ≠ "" then pyStrip (pyReplaceChar '\n' ' ' d) else ""
    | none => ""
  match alookup file_index f.file_name with
  | some e => if e.description ≠ "" then pyStrip (pyReplaceChar '\n' ' ' e.description) else fromMeta
  | none => fromMeta

/-- The accumulation loop of `build_concat_desc` (`nfiles` is `len(files)`,
`total` and `parts` the running Python locals). -/
def concatLoop (file_index : FileIndex) (max_chars nfiles : Nat) :
    List FileMeta → Nat → List String → List String
  | [], _, parts => parts
  | f :: rest, total, parts =>
    let desc := concatDescOf file_index f
    if desc = "" then concatLoop file_index max_chars nfiles rest total parts
    else
      let line := f.file_name ++ ": " ++ desc
      if max_chars < total + line.length then
        let remaining := max_chars - total
        let parts1 := if 20 < remaining then parts ++ [pyTake line remaining ++ "..."] else parts
        parts1 ++ ["[truncated — " ++ toString (nfiles - parts1.length) ++ " more files]"]
      else concatLoop file_index max_chars nfiles rest (total + line.length + 1) (parts ++ [line])

/-- `build_concat_desc(files, file_index, max_chars)` from `bfs_v2.py`. -/
def build_concat_desc (files : List FileMeta) (file_index : FileIndex) (max_chars : Nat) : String :=
  String.intercalate "\n" (concatLoop file_index max_chars files.length files 0 [])

/- ================= Destination-path rules ================= -/

/-- `top_level_folder(source_path)` from `bfs_v2.py` (FIX #5):
`parts[0] if len(parts) > 1 else ""`. -/
def top_level_folder (source_path : String) : String :=
  let parts := splitSlashStr (pyReplaceChar '\\' '/' source_path)
  match parts with
  | p :: _ :: _ => p
  | _ => ""

/-- `_join_rel(*parts)` from `bfs_v2.py`: strip each part, drop falsy ones,
join with `/`. -/
def join_rel (parts : List String) : String :=
  joinSlash ((parts.filter (fun p => p ≠ "" ∧ pyStrip p ≠ "")).map
    (fun p => pyReplaceChar '\\' '/' (pyStrip p)))

/-- `build_dest_rel(category, top_folder, tail)` from `bfs_v2.py`. -/
def build_dest_rel (category top_folder tail : String) : String :=
  if category = "practice" then join_rel ["practice", top_folder, tail]
  else if category = "support" then join_rel ["support", top_folder, tail]
  else if category = "study" then
    if top_folder = "lecture" then join_rel ["study", "lecture", tail]
    else join_rel ["study", "lecture", top_folder, tail]
  else join_rel [top_folder, tail]

/-- The destination computation common to `_process_folder` and
`_process_file` (`top = top_level_folder(...)`, tail stripping, then
`build_dest_rel`): a function of the final category and the original path
only. -/
def destForSource (category source_path : String) : String :=
  let top := top_level_folder source_path
  let tail := if top ≠ "" then pyLstripSlash (pyDrop source_path top.length) else source_path
  build_dest_rel category top tail

/- ================= Tree building (build_tree) ================= -/

/-- The inner walk of `build_tree`'s per-file loop: follow `parts`, creating
missing children with `path = "/".join(agg)`, and append the file at the
deepest folder.  `consumed` is Python's `agg` list. -/
def insertIntoTree (node : FolderNode) (consumed parts : List String) (fm : FileMeta) :
    FolderNode :=
  match parts with
  | [] => node.withFiles (node.files ++ [fm])
  | p :: rest =>
    let consumed' := consumed ++ [p]
    let ppath := joinSlash consumed'
    let child :=
      match node.children.lookup p with
      | some c => c
      | none => FolderNode.mk ppath p [] .nil
    let child' := insertIntoTree child consumed' rest fm
    node.withChildren (node.children.setd p child')

/-- The fold of `build_tree` over `files_on_disk`. -/
def buildFold (file_index : FileIndex) : List String → FolderNode → FolderNode
  | [], root => root
  | rel_path :: rest, root =>
    let folder0 := pyReplaceChar '\\' '/' (pyDirname rel_path)
    let folder := if folder0 = "" then "." else folder0
    let fname := pyBasename rel_path
    let parts := if folder = "." then [] else splitSlashStr folder
    let desc := (alookup file_index fname).map FileIndexEntry.description
    let fm : FileMeta :=
      { source_path := rel_path, folder_path := folder, file_name := fname, description := desc }
    buildFold file_index rest (insertIntoTree root [] parts fm)

/-- `build_tree(root_dir, files_on_disk, file_index)` from `bfs_v2.py`
(the `root_dir` argument is unused by the source as well). -/
def build_tree (root_dir : String) (files_on_disk : List String) (file_index : FileIndex) :
    FolderNode :=
  let _ := root_dir
  buildFold file_index files_on_disk (FolderNode.mk "." "root" [] .nil)

/- ================= Engine data model (bfs_v2.py) ================= -/

/-- `Classification`: final classification record. -/
structure Classification where
  path : String
  category : Category
  confidence : ℚ
  reason : String
  classified_at_level : String
  parent_folder : Option String
  ancestor_descriptions : List String
deriving DecidableEq, Repr

/-- `FileMapping`: planned move for one file. -/
structure FileMapping where
  source_rel : String
  dest_rel : String
  top_folder : String
  category : String
  reason : String
deriving DecidableEq, Repr

/-- The classification oracle (`LLMClassifier`), embedded as a record of the
two operations the engine invokes.  Arguments mirror the call sites:
`classify_folder(node, file_index, folder_stats, concat_desc,
ancestor_descriptions)` and `classify_file(file_meta, file_index,
ancestor_descriptions, sibling_names)`. -/
structure Classifier where
  classify_folder : FolderNode → FileIndex → FolderStats → String → List String →
    ClassificationResult
  classify_file : FileMeta → FileIndex → List String → Option (List String) →
    ClassificationResult

/-- The persistence collaborator (`CourseDB`), embedded at its interface:
the bulk description update may fail, modelling a raised exception. -/
structure CourseDBModel where
  get_uuids_for_files : List String → List String
  update_folder_description_bulk : List String → String → Except String Nat

/-- Queue element: `Union[FolderNode, FileMeta]`. -/
inductive QItem where
  | folder (n : FolderNode)
  | file (f : FileMeta)

/-- `item.source_path if isinstance(item, FileMeta) else item.path`. -/
def QItem.key : QItem → String
  | .folder n => n.path
  | .file f => f.source_path

/-- Weight of a queue item, for the loop fuel. -/
def QItem.wt : QItem → Nat
  | .folder n => n.weight
  | .file _ => 1

/-- Total weight of a queue. -/
def qWeight (l : List QItem) : Nat := (l.map QItem.wt).sum

/-- The mutable state of `_bfs_classify`, plus ghost call logs. -/
structure EngState where
  classifications : List (String × Classification)
  folder_decisions : List (String × ClassificationResult)
  skipped_folders : List String
  mappings : List (String × FileMapping)
  seen : List String
  ancestor_desc_map : List (String × List String)
  task_queue : List QItem
  folder_calls : List String
  file_calls : List (String × ClassificationResult)
  propagation_calls : List (String × List String × String)

/-- The empty engine state. -/
def emptyEng : EngState :=
  { classifications := [], folder_decisions := [], skipped_folders := [], mappings := []
    seen := [], ancestor_desc_map := [], task_queue := []
    folder_calls := [], file_calls := [], propagation_calls := [] }

/-- `TraversalResult`: complete output of the BFS pipeline. -/
structure TraversalResult where
  classifications : List (String × Classification)
  folder_decisions : List (String × ClassificationResult)
  skipped_folders : List String
  mappings : List (String × FileMapping)
  files_classified_individually : Nat
  files_classified_via_folder : Nat

/- ================= The BFS engine ================= -/

/-- `ancestor_desc_map[child.path] = child_ancestors` for each child, in
dict iteration order. -/
def ancFold (anc : List String) : List FolderNode → List (String × List String) →
    List (String × List String)
  | [], m => m
  | c :: rest, m => ancFold anc rest (dictInsert c.path anc m)

/-- The per-file loop of the confident-assignment branch of
`_process_folder`: record an inherited terminal classification and a
`FileMapping` for every file of the subtree. -/
def assignFold (result : ClassificationResult) (itemPath : String)
    (child_ancestors : List String) : List FileMeta → EngState → EngState
  | [], st => st
  | f :: rest, st =>
    let top := top_level_folder f.source_path
    let tail := if top ≠ "" then pyLstripSlash (pyDrop f.source_path top.length)
                else f.source_path
    let dest_rel := build_dest_rel result.category.value top tail
    let cls : Classification :=
      { path := f.source_path, category := result.category, confidence := result.confidence
        reason := "Inherited from folder '" ++ itemPath ++ "': " ++ result.reason
        classified_at_level := "folder", parent_folder := some itemPath
        ancestor_descriptions := child_ancestors }
    let mp : FileMapping :=
      { source_rel := f.source_path, dest_rel := dest_rel, top_folder := top
        category := result.category.value, reason := result.reason }
    let st' :=
      { st with classifications := dictInsert f.source_path cls st.classifications
                mappings := dictInsert f.source_path mp st.mappings }
    assignFold result itemPath child_ancestors rest st'

/-- `BFSTraverser._process_folder`.  The returned state has the new queue
items appended; an `Except.error` models the uncaught exception raised by
`update_folder_description_bulk`. -/
def processFolder (classifier : Classifier) (db : CourseDBModel) (threshold : ℚ)
    (file_index : FileIndex) (item : FolderNode) (st : EngState) : Except String EngState :=
  let my_ancestors := (alookup st.ancestor_desc_map item.path).getD []
  let folder_files := collect_all_files item
  let folder_stats := compute_folder_stats item
  let concat_desc := build_concat_desc folder_files file_index MAX_CONCAT_DESC_CHARS
  let result := classifier.classify_folder item file_index folder_stats concat_desc my_ancestors
  let st1 :=
    { st with folder_decisions := dictInsert item.path result st.folder_decisions
              folder_calls := st.folder_calls ++ [item.path] }
  let child_ancestors :=
    if result.folder_description ≠ "" ∧ my_ancestors.length < MAX_ANCESTOR_DEPTH
    then my_ancestors ++ [result.folder_description] else my_ancestors
  -- FIX #1: Confident skip -> prune subtree
  if result.category = Category.skip ∧ threshold ≤ result.confidence then
    let cls : Classification :=
      { path := item.path, category := Category.skip, confidence := result.confidence
        reason := result.reason, classified_at_level := "folder", parent_folder := none
        ancestor_descriptions := my_ancestors }
    .ok { st1 with
      skipped_folders := st1.skipped_folders ++ [item.path]
      classifications := dictInsert item.path cls st1.classifications }
  else
    let sd0 := !(result.is_confident threshold) || result.is_mixed
    let st2 := if result.category = Category.skip
               then { st1 with skipped_folders := st1.skipped_folders ++ [item.path] }
               else st1
    let should_descend := if result.category = Category.skip then true else sd0
    let descent_note := if should_descend then " [descended]" else ""
    let cls : Classification :=
      { path := item.path, category := result.category, confidence := result.confidence
        reason := result.reason ++ descent_note, classified_at_level := "folder"
        parent_folder := none, ancestor_descriptions := my_ancestors }
    let st3 := { st2 with classifications := dictInsert item.path cls st2.classifications }
    if should_descend then
      let adm := ancFold child_ancestors item.children.nodes st3.ancestor_desc_map
      let adm := dictInsert item.path child_ancestors adm
      .ok { st3 with
        ancestor_desc_map := adm
        task_queue := st3.task_queue ++ item.children.nodes.map QItem.folder
                      ++ item.files.map QItem.file }
    else
      -- FIX #2: Write to DB only on confident assignment
      if result.folder_description ≠ "" then
        let file_names := folder_files.map FileMeta.file_name
        let uuids := db.get_uuids_for_files file_names
        if uuids ≠ [] then
          let st4 := { st3 with propagation_calls :=
            st3.propagation_calls ++ [(item.path, uuids, result.folder_description)] }
          match db.update_folder_description_bulk uuids result.folder_description with
          | .error e => .error e
          | .ok _ => .ok (assignFold result item.path child_ancestors folder_files st4)
        else .ok (assignFold result item.path child_ancestors folder_files st3)
      else .ok (assignFold result item.path child_ancestors folder_files st3)

/-- `BFSTraverser._process_file`. -/
def processFile (classifier : Classifier) (file_index : FileIndex) (item : FileMeta)
    (st : EngState) : EngState :=
  let file_ancestors := (alookup st.ancestor_desc_map item.folder_path).getD []
  let result := classifier.classify_file item file_index file_ancestors none
  let st1 := { st with file_calls := st.file_calls ++ [(item.source_path, result)] }
  if result.category = Category.skip then st1
  else
    let top := top_level_folder item.source_path
    let tail := if top ≠ "" then pyLstripSlash (pyDrop item.source_path top.length)
                else item.source_path
    let dest_rel := build_dest_rel result.category.value top tail
    let cls : Classification :=
      { path := item.source_path, category := result.category
        confidence := result.confidence, reason := result.reason
        classified_at_level := "file", parent_folder := none
        ancestor_descriptions := file_ancestors }
    let mp : FileMapping :=
      { source_rel := item.source_path, dest_rel := dest_rel, top_folder := top
        category := result.category.value, reason := result.reason }
    { st1 with
      classifications := dictInsert item.source_path cls st1.classifications
      mappings := dictInsert item.source_path mp st1.mappings }

/-- The `while task_queue:` loop of `_bfs_classify`, with explicit fuel.
A dequeued key already in `seen` is silently skipped (FIX #4). -/
def bfsLoop (classifier : Classifier) (db : CourseDBModel) (threshold : ℚ)
    (file_index : FileIndex) : Nat → EngState → Except String EngState
  | 0, _ => .error "OUT_OF_FUEL"
  | fuel + 1, st =>
    match st.task_queue with
    | [] => .ok st
    | item :: rest =>
      if item.key ∈ st.seen then
        bfsLoop classifier db threshold file_index fuel { st with task_queue := rest }
      else
        let st1 := { st with task_queue := rest, seen := st.seen ++ [item.key] }
        match item with
        | .folder n =>
          match processFolder classifier db threshold file_index n st1 with
          | .error e => .error e
          | .ok st2 => bfsLoop classifier db threshold file_index fuel st2
        | .file f =>
          bfsLoop classifier db threshold file_index fuel (processFile classifier file_index f st1)

/-- `_bfs_classify(root, file_index)` up to the final count assembly: seed
the queue with the root's child folders and immediate files, then run the
loop.  The supplied fuel strictly dominates the number of iterations. -/
def bfs_run (classifier : Classifier) (db : CourseDBModel) (threshold : ℚ)
    (root : FolderNode) (file_index : FileIndex) : Except String EngState :=
  let q0 := root.children.nodes.map QItem.folder ++ root.files.map QItem.file
  let st0 : EngState :=
    { classifications := [], folder_decisions := [], skipped_folders := [], mappings := []
      seen := [], ancestor_desc_map := ancFold [] root.children.nodes []
      task_queue := q0
      folder_calls := [], file_calls := [], propagation_calls := [] }
  bfsLoop classifier db threshold file_index (qWeight q0 + 1) st0

/-- The final tallies and record assembly of `_bfs_classify`. -/
def toTraversalResult (st : EngState) : TraversalResult :=
  { classifications := st.classifications
    folder_decisions := st.folder_decisions
    skipped_folders := st.skipped_folders
    mappings := st.mappings
    files_classified_individually :=
      (st.classifications.filter (fun pr => pr.2.classified_at_level = "file")).length
    files_classified_via_folder :=
      (st.classifications.filter
        (fun pr => pr.2.classified_at_level = "folder" ∧ pr.2.parent_folder ≠ none)).length }

/-- `_bfs_classify` end to end. -/
def bfs_classify (classifier : Classifier) (db : CourseDBModel) (threshold : ℚ)
    (root : FolderNode) (file_index : FileIndex) : Except String TraversalResult :=
  (bfs_run classifier db threshold root file_index).map toTraversalResult

/- ================= Paths, scopes and well-formed trees ================= -/

/-- `p` is a prefix of `k` (character lists). -/
def chPre (p k : List Char) : Prop := ∃ t, p ++ t = k

/-- `k` lies strictly below the folder path `p` (`p ++ "/"` is a prefix). -/
def pathUnder (p k : String) : Prop := chPre (p.data ++ ['/']) k.data

/-- `k` is `p` itself or lies strictly below it. -/
def inScope (p k : String) : Prop := k = p ∨ pathUnder p k

/-- The set of keys a queue item may ever produce. -/
def itemScope : QItem → String → Prop
  | .folder n, k => inScope n.path k
  | .file f, k => k = f.source_path

/-- The canonical path of a child named `name` under `parent` (as `build_tree`
computes it: the root is `"."` and contributes no segment). -/
def childPath (parent name : String) : String :=
  if parent = "." then name else parent ++ "/" ++ name

/-- A well-formed path segment: nonempty, not `"."`, free of separators. -/
def SegOk (s : String) : Prop := s ≠ "" ∧ s ≠ "." ∧ '/' ∉ s.data

/-- Well-formed folder trees: the shape `build_tree` produces.  Children are
keyed by their name, every node's path extends its parent's, names are
well-formed segments and distinct, and no file shares its name with a child
folder. -/
inductive WFnode : FolderNode → Prop where
  | mk (n : FolderNode)
      (hfile : ∀ fm ∈ n.files, fm.folder_path = n.path ∧
        fm.source_path = childPath n.path fm.file_name ∧ SegOk fm.file_name)
      (hfnodup : (n.files.map FileMeta.file_name).Nodup)
      (hcnodup : n.children.names.Nodup)
      (hchild : ∀ pr ∈ n.children.toList,
        pr.2.name = pr.1 ∧ pr.2.path = childPath n.path pr.1 ∧ SegOk pr.1)
      (hfc : ∀ fm ∈ n.files, ∀ nm ∈ n.children.names, fm.file_name ≠ nm)
      (hrec : ∀ c ∈ n.children.nodes, WFnode c) : WFnode n

/- All keys (folder paths and file source paths) of a subtree. -/
mutual
def FolderNode.allKeys : FolderNode → List String
  | .mk p _ fs cs => p :: (fs.map FileMeta.source_path ++ Children.allKeys cs)
def Children.allKeys : Children → List String
  | .nil => []
  | .cons _ n rest => FolderNode.allKeys n ++ Children.allKeys rest
end

/-- Total weight of a list of folder nodes (fuel measure for `collectAuxF`). -/
def lWeight (l : List FolderNode) : Nat := (l.map FolderNode.weight).sum

/-- All keys the run has committed to its outputs or visited set. -/
def writtenKeys (st : EngState) : List String :=
  keysOf st.classifications ++ keysOf st.folder_decisions ++ keysOf st.mappings ++ st.seen

/-- Keys of the queued items. -/
def qKeys (st : EngState) : List String := st.task_queue.map QItem.key

/-- The decision makes the engine descend rather than prune or assign:
mixed or not confident, and not a confident skip. -/
def DescendDecision (threshold : ℚ) (r : ClassificationResult) : Prop :=
  r.is_mixed = true ∧ ¬ (r.category = Category.skip ∧ threshold ≤ r.confidence)

/-- The master invariant of the BFS loop, over a fixed tree `root`.
`J`-style structural fields about the queue come first, then the per-claim
bookkeeping. -/
structure EngInv (threshold : ℚ) (root : FolderNode) (st : EngState) : Prop where
  wfQ : ∀ n, QItem.folder n ∈ st.task_queue → WFnode n ∧ n.path ≠ "."
  treeQ : ∀ n, QItem.folder n ∈ st.task_queue → n ∈ root.subNodes
  fileQ : ∀ f, QItem.file f ∈ st.task_queue →
    f.source_path ∈ root.subFiles.map FileMeta.source_path
  disjQ : st.task_queue.Pairwise (fun i j => ∀ k, itemScope i k → itemScope j k → False)
  freshQ : ∀ i ∈ st.task_queue, ∀ k, k ∈ writtenKeys st → ¬ itemScope i k
  ndCls : (keysOf st.classifications).Nodup
  ndDec : (keysOf st.folder_decisions).Nodup
  ndMap : (keysOf st.mappings).Nodup
  ndSeen : st.seen.Nodup
  callsSeen : ∀ k ∈ st.folder_calls ++ st.file_calls.map Prod.fst, k ∈ st.seen
  callsNodup : (st.folder_calls ++ st.file_calls.map Prod.fst).Nodup
  decCalls : st.folder_calls = keysOf st.folder_decisions
  propSeen : ∀ c ∈ st.propagation_calls, c.1 ∈ st.seen
  decSeen : ∀ k ∈ keysOf st.folder_decisions, k ∈ st.seen
  clsSeen : ∀ k ∈ keysOf st.classifications, k ∈ st.seen ∨
    k ∈ root.subFiles.map FileMeta.source_path
  confSkip : ∀ p r, alookup st.folder_decisions p = some r → r.category = Category.skip →
    threshold ≤ r.confidence →
    (∃ anc, alookup st.classifications p = some
      { path := p, category := Category.skip, confidence := r.confidence, reason := r.reason
        classified_at_level := "folder", parent_folder := none
        ancestor_descriptions := anc }) ∧
    (∀ k, pathUnder p k → k ∉ writtenKeys st ∧ ∀ i ∈ st.task_queue, ¬ itemScope i k) ∧
    (∀ c ∈ st.propagation_calls, c.1 ≠ p)
  noMixedParent : ∀ p r, alookup st.folder_decisions p = some r → r.is_mixed = true →
    ∀ k c, alookup st.classifications k = some c → c.parent_folder ≠ some p
  descMark : ∀ p r, alookup st.folder_decisions p = some r → DescendDecision threshold r →
    ∃ anc, alookup st.classifications p = some
      { path := p, category := r.category, confidence := r.confidence
        reason := r.reason ++ " [descended]", classified_at_level := "folder"
        parent_folder := none, ancestor_descriptions := anc }
  descChildren : ∀ m ∈ root.subNodes, ∀ r, alookup st.folder_decisions m.path = some r →
    DescendDecision threshold r →
    (∀ c ∈ m.children.nodes, c.path ∈ st.seen ∨ c.path ∈ qKeys st) ∧
    (∀ fm ∈ m.files, fm.source_path ∈ st.seen ∨ fm.source_path ∈ qKeys st)
  skipFiles : ∀ pr ∈ st.file_calls, pr.2.category = Category.skip →
    pr.1 ∉ keysOf st.classifications ∧ pr.1 ∉ keysOf st.mappings
  mapsOk : ∀ pr ∈ st.mappings,
    pr.2.source_rel = pr.1 ∧
    pr.1 ∈ root.subFiles.map FileMeta.source_path ∧
    pr.2.dest_rel = destForSource pr.2.category pr.1 ∧
    pr.2.top_folder = top_level_folder pr.1 ∧
    (∃ c, alookup st.classifications pr.1 = some c ∧ c.category ≠ Category.skip ∧
      c.category.value = pr.2.category ∧
      (c.classified_at_level = "file" ∨ c.parent_folder ≠ none))
  parentSeen : ∀ pr ∈ st.classifications, ∀ q, pr.2.parent_folder = some q → q ∈ st.seen

/- ================= build_tree specification helpers ================= -/

/-- Follow a segment list down the children dicts. -/
def findNode : FolderNode → List String → Option FolderNode
  | n, [] => some n
  | n, s :: rest =>
    match n.children.lookup s with
    | some c => findNode c rest
    | none => none

/-- The folder segments `build_tree` walks for a given relative path
(mirrors the `folder`/`parts` computation of its loop body). -/
def dirParts (rel_path : String) : List String :=
  let folder0 := pyReplaceChar '\\' '/' (pyDirname rel_path)
  let folder := if folder0 = "" then "." else folder0
  if folder = "." then [] else splitSlashStr folder

/-- A well-formed scanned path: a nonempty `/`-join of well-formed segments
with no backslash (what `scan_directory` emits on a POSIX filesystem). -/
def CleanPath (p : String) : Prop :=
  ∃ segs : List String, segs ≠ [] ∧ (∀ s ∈ segs, SegOk s ∧ '\\' ∉ s.data) ∧ p = joinSlash segs

/-- A well-formed scanned input list: clean distinct paths, none lying in a
directory spelled by another (files and directories have distinct names on a
filesystem). -/
def CleanInput (files : List String) : Prop :=
  files.Nodup ∧ (∀ p ∈ files, CleanPath p) ∧
  files.Pairwise (fun p q => ¬ chPre (p.data ++ ['/']) q.data ∧ ¬ chPre (q.data ++ ['/']) p.data)

/- ================= Specification-side models (for comparison) ================= -/

/-- Deduplicate keeping first occurrences. -/
def dedupFirstAux (acc : List String) : List String → List String
  | [] => []
  | x :: rest =>
    if acc.contains x then dedupFirstAux acc rest
    else x :: dedupFirstAux (acc ++ [x]) rest

/-- Deduplicate keeping first occurrences. -/
def dedupFirst (l : List String) : List String := dedupFirstAux [] l

/-- Modelled from the spec: the homogeneity test as §4.2/§3 word it —
metadata extensions "are excluded from the homogeneity test unless they are
the only content present", i.e. when the folder holds nothing but metadata
files the metadata extensions themselves are tested. -/
def spec_is_homogeneous (files : List FileMeta) : Bool :=
  let exts := dedupFirst (files.map (fun f => extOf f.file_name))
  let content := exts.filter (fun e => ¬ metadata_exts.contains e)
  if content.isEmpty then exts.length ≤ 1 else content.length ≤ 1

/-- Modelled from the spec: "the first path segment of a file's relative
path" (glossary definition of top-level folder). -/
def spec_first_segment (p : String) : String :=
  match splitSlashStr p with
  | s :: _ => s
  | [] => ""

/-- A string that `_join_rel` passes through unchanged: nonempty, no
surrounding whitespace, no backslash. -/
def PlainSeg (s : String) : Prop :=
  s ≠ "" ∧ pyStrip s = s ∧ pyReplaceChar '\\' '/' s = s

/- ================= Concrete instances used by witnesses ================= -/

/-- A database model that knows no files: propagation is never attempted. -/
def dbNoop : CourseDBModel :=
  { get_uuids_for_files := fun _ => []
    update_folder_description_bulk := fun _ _ => .ok 0 }

/-- A database model whose bulk update always fails. -/
def dbFail : CourseDBModel :=
  { get_uuids_for_files := fun names => names
    update_folder_description_bulk := fun _ _ => .error "db down" }

/-- Witness tree: `hw/` (files `hw/a.pdf`, `hw/b.pdf`), `lecture/`
(file `lecture/l1.pdf`), nested `hw/sub/` (file `hw/sub/c.pdf`), and a root
file `notes.txt`. -/
def nodeSub : FolderNode := .mk "hw/sub" "sub" [⟨"hw/sub/c.pdf", "hw/sub", "c.pdf", none⟩] .nil

def nodeHw : FolderNode :=
  .mk "hw" "hw" [⟨"hw/a.pdf", "hw", "a.pdf", none⟩, ⟨"hw/b.pdf", "hw", "b.pdf", none⟩]
    (.cons "sub" nodeSub .nil)

def nodeLecture : FolderNode :=
  .mk "lecture" "lecture" [⟨"lecture/l1.pdf", "lecture", "l1.pdf", none⟩] .nil

def rootW : FolderNode :=
  .mk "." "root" [⟨"notes.txt", ".", "notes.txt", none⟩]
    (.cons "hw" nodeHw (.cons "lecture" nodeLecture .nil))

/-- Witness classifier: `hw` is a confident skip, `lecture` descends as a
mixed study folder, files are classified `study`, `notes.txt` is skipped. -/
def clW1 : Classifier :=
  { classify_folder := fun n _ _ _ _ =>
      if n.path = "hw" then ⟨Category.skip, mkRat 9 10, "junk", false, ""⟩
      else ⟨Category.study, mkRat 8 10, "lect", true, "lecture material"⟩
    classify_file := fun f _ _ _ =>
      if f.source_path = "notes.txt" then ⟨Category.skip, mkRat 9 10, "scratch", false, ""⟩
      else ⟨Category.study, mkRat 8 10, "slide", false, ""⟩ }

/-- The final state of the witness run (`clW1` over `rootW`). -/
def resW1 : EngState :=
  ((bfs_run clW1 dbNoop (mkRat 3 4) rootW []).toOption).getD emptyEng

/-- Witness classifier for the confident-assignment path: every folder is
confidently `practice`, every file `study`. -/
def clW2 : Classifier :=
  { classify_folder := fun _ _ _ _ _ => ⟨Category.practice, mkRat 9 10, "hwf", false, "desc"⟩
    classify_file := fun _ _ _ _ => ⟨Category.study, mkRat 8 10, "fr", false, ""⟩ }

/-- The final state of the confident-assignment witness run. -/
def resW2 : EngState :=
  ((bfs_run clW2 dbNoop (mkRat 3 4) rootW []).toOption).getD emptyEng

/-- A classifier returning a confident *and mixed* skip for `hw` (exercises
the priority of the confident-skip branch over the mixed check). -/
def clW3 : Classifier :=
  { classify_folder := fun n _ _ _ _ =>
      if n.path = "hw" then ⟨Category.skip, mkRat 9 10, "junk", true, ""⟩
      else ⟨Category.study, mkRat 1 2, "lect", true, "lecture material"⟩
    classify_file := fun _ _ _ _ => ⟨Category.study, mkRat 8 10, "slide", false, ""⟩ }

/-- The final state of the mixed-confident-skip run. -/
def resW3 : EngState :=
  ((bfs_run clW3 dbNoop (mkRat 3 4) rootW []).toOption).getD emptyEng

/-- Scanned input list for the `build_tree` claims. -/
def filesW : List String := ["hw/a.pdf", "hw/b.pdf", "hw/sub/c.pdf", "lecture/l1.pdf", "notes.txt"]

/-- The tree built from `filesW` (it equals `rootW`). -/
def builtW : FolderNode := build_tree "course" filesW []

/-- The final state of the run over the built tree (for the round-trip
claim). -/
def resW4 : EngState :=
  ((bfs_run clW2 dbNoop (mkRat 3 4) builtW []).toOption).getD emptyEng

/-- The terminal classification `_process_folder`'s confident-assignment
branch writes for a subtree file with source path `k`. -/
def inheritedCls (result : ClassificationResult) (itemPath : String) (canc : List String)
    (k : String) : Classification :=
  { path := k, category := result.category, confidence := result.confidence
    reason := "Inherited from folder '" ++ itemPath ++ "': " ++ result.reason
    classified_at_level := "folder", parent_folder := some itemPath
    ancestor_descriptions := canc }

/-- The mapping the confident-assignment branch writes for source path `k`. -/
def inheritedMap (result : ClassificationResult) (k : String) : FileMapping :=
  { source_rel := k, dest_rel := destForSource result.category.value k
    top_folder := top_level_folder k, category := result.category.value
    reason := result.reason }

/-- One iteration of the confident-assignment loop, as a state transformer
(used to phrase lemmas about `assignFold`). -/
def stepAssign (result : ClassificationResult) (itemPath : String) (canc : List String)
    (f : FileMeta) (st : EngState) : EngState :=
  { st with
    classifications := dictInsert f.source_path
      (inheritedCls result itemPath canc f.source_path) st.classifications
    mappings := dictInsert f.source_path (inheritedMap result f.source_path) st.mappings }

/-- The ancestor context `_process_folder` reads for `item`. -/
def pfAnc (n : FolderNode) (st : EngState) : List String :=
  (alookup st.ancestor_desc_map n.path).getD []

/-- The oracle decision `_process_folder` obtains for `item`. -/
def pfR (cl : Classifier) (fi : FileIndex) (n : FolderNode) (st : EngState) :
    ClassificationResult :=
  cl.classify_folder n fi (compute_folder_stats n)
    (build_concat_desc (collect_all_files n) fi MAX_CONCAT_DESC_CHARS) (pfAnc n st)

/-- The extended ancestor list passed to children. -/
def pfCanc (cl : Classifier) (fi : FileIndex) (n : FolderNode) (st : EngState) : List String :=
  if (pfR cl fi n st).folder_description ≠ "" ∧ (pfAnc n st).length < MAX_ANCESTOR_DEPTH
  then pfAnc n st ++ [(pfR cl fi n st).folder_description] else pfAnc n st

/-- The `should_descend` flag after the skip adjustment. -/
def pfSd (cl : Classifier) (fi : FileIndex) (t : ℚ) (n : FolderNode) (st : EngState) : Bool :=
  if (pfR cl fi n st).category = Category.skip then true
  else (!((pfR cl fi n st).is_confident t) || (pfR cl fi n st).is_mixed)

/-- The terminal record of the confident-skip branch. -/
def skipCls (p : String) (r : ClassificationResult) (anc : List String) : Classification :=
  { path := p, category := Category.skip, confidence := r.confidence, reason := r.reason
    classified_at_level := "folder", parent_folder := none, ancestor_descriptions := anc }

/-- The folder record of the descend / confident-assignment branches. -/
def folderCls (p : String) (r : ClassificationResult) (descended : Bool) (anc : List String) :
    Classification :=
  { path := p, category := r.category, confidence := r.confidence
    reason := r.reason ++ (if descended then " [descended]" else "")
    classified_at_level := "folder", parent_folder := none, ancestor_descriptions := anc }

/-- The terminal record `_process_file` writes. -/
def fileCls (r : ClassificationResult) (anc : List String) (sp : String) : Classification :=
  { path := sp, category := r.category, confidence := r.confidence, reason := r.reason
    classified_at_level := "file", parent_folder := none, ancestor_descriptions := anc }

/-- The mapping `_process_file` writes. -/
def fileMap (r : ClassificationResult) (sp : String) : FileMapping :=
  { source_rel := sp, dest_rel := destForSource r.category.value sp
    top_folder := top_level_folder sp, category := r.category.value, reason := r.reason }

/-- The items the descend branch appends to the queue. -/
def pushedItems (n : FolderNode) : List QItem :=
  n.children.nodes.map QItem.folder ++ n.files.map QItem.file

/-- The oracle decision `_process_file` obtains. -/
def pfFR (cl : Classifier) (fi : FileIndex) (f : FileMeta) (st : EngState) :
    ClassificationResult :=
  cl.classify_file f fi ((alookup st.ancestor_desc_map f.folder_path).getD []) none

/-- The UUID list the confident-assignment branch queries. -/
def pfUuids (db : CourseDBModel) (n : FolderNode) : List String :=
  db.get_uuids_for_files ((collect_all_files n).map FileMeta.file_name)

/-- The state after the decision bookkeeping of a non-descending, non-skip
folder step, before the assignment loop. -/
def pfCore (cl : Classifier) (fi : FileIndex) (n : FolderNode) (st : EngState) : EngState :=
  { st with
    folder_decisions := dictInsert n.path (pfR cl fi n st) st.folder_decisions
    folder_calls := st.folder_calls ++ [n.path]
    classifications := dictInsert n.path
      (folderCls n.path (pfR cl fi n st) false (pfAnc n st)) st.classifications }

/-- The path spelled by a consumed segment list during `build_tree`'s walk
(`"."` at the root, else the `/`-join). -/
def pathOf (l : List String) : String := if l = [] then "." else joinSlash l

instance {p k : List Char} : Decidable (chPre p k) :=
  inferInstanceAs (Decidable (List.IsPrefix p k))

instance {p k : String} : Decidable (pathUnder p k) :=
  inferInstanceAs (Decidable (chPre (p.data ++ ['/']) k.data))

/-- The normalized folder string computed by `build_tree`'s loop body. -/
def bfFolder (rel_path : String) : String :=
  if pyReplaceChar '\\' '/' (pyDirname rel_path) = "" then "."
  else pyReplaceChar '\\' '/' (pyDirname rel_path)

/-- The folder segments `build_tree` walks for one scanned path. -/
def bfParts (rel_path : String) : List String :=
  if bfFolder rel_path = "." then [] else splitSlashStr (bfFolder rel_path)

/-- The `FileMeta` record `build_tree` creates for one scanned path. -/
def bfMeta (file_index : FileIndex) (rel_path : String) : FileMeta :=
  { source_path := rel_path, folder_path := bfFolder rel_path
    file_name := pyBasename rel_path
    description := (alookup file_index (pyBasename rel_path)).map FileIndexEntry.description }

instance {s : String} : Decidable (SegOk s) :=
  inferInstanceAs (Decidable (s ≠ "" ∧ s ≠ "." ∧ '/' ∉ s.data))

instance {s : String} : Decidable (PlainSeg s) :=
  inferInstanceAs (Decidable (s ≠ "" ∧ pyStrip s = s ∧ pyReplaceChar '\\' '/' s = s))

/-- A folder holding only metadata files (used to compare the homogeneity
rules). -/
def mdW : FolderNode :=
  .mk "m" "m" [⟨"m/a.md", "m", "a.md", none⟩, ⟨"m/b.json", "m", "b.json", none⟩] .nil

/- ================= Theorems ================= -/


/- ----------------- association-list lemmas ----------------- -/

theorem dictInsert_cons {α : Type} (k x : String) (v y : α) (rest : List (String × α)) :
    dictInsert k v ((x, y) :: rest) =
      if x = k then (x, v) :: rest else (x, y) :: dictInsert k v rest := rfl

theorem alookup_cons {α : Type} (x k : String) (y : α) (rest : List (String × α)) :
    alookup ((x, y) :: rest) k = if x = k then some y else alookup rest k := rfl

theorem bump_cons (k x : String) (y : Nat) (rest : List (String × Nat)) :
    bump k ((x, y) :: rest) =
      if x = k then (x, y + 1) :: rest else (x, y) :: bump k rest := rfl

theorem alookup_dictInsert_self {α : Type} (k : String) (v : α) (l : List (String × α)) :
    alookup (dictInsert k v l) k = some v := by
  induction l with
  | nil => simp [dictInsert, alookup]
  | cons pr rest ih =>
    obtain ⟨x, y⟩ := pr
    rw [dictInsert_cons]
    by_cases h : x = k
    · rw [if_pos h, alookup_cons, if_pos h]
    · rw [if_neg h, alookup_cons, if_neg h]
      exact ih

theorem alookup_dictInsert_ne {α : Type} {k k' : String} (v : α) (l : List (String × α))
    (h : k' ≠ k) : alookup (dictInsert k v l) k' = alookup l k' := by
  induction l with
  | nil =>
    rw [show dictInsert k v ([] : List (String × α)) = [(k, v)] from rfl, alookup_cons,
      if_neg (fun he => h he.symm)]
  | cons pr rest ih =>
    obtain ⟨x, y⟩ := pr
    rw [dictInsert_cons]
    by_cases hx : x = k
    · subst hx
      rw [if_pos rfl, alookup_cons, alookup_cons, if_neg (fun he => h he.symm),
        if_neg (fun he => h he.symm)]
    · rw [if_neg hx, alookup_cons, alookup_cons]
      by_cases hk : x = k'
      · rw [if_pos hk, if_pos hk]
      · rw [if_neg hk, if_neg hk, ih]

theorem mem_keysOf_dictInsert {α : Type} {a k : String} {v : α} {l : List (String × α)} :
    a ∈ keysOf (dictInsert k v l) ↔ a = k ∨ a ∈ keysOf l := by
  induction l with
  | nil => simp [dictInsert, keysOf]
  | cons pr rest ih =>
    obtain ⟨x, y⟩ := pr
    rw [dictInsert_cons]
    by_cases h : x = k
    · subst h
      rw [if_pos rfl]
      simp only [keysOf, List.map_cons, List.mem_cons]
      tauto
    · rw [if_neg h]
      simp only [keysOf, List.map_cons, List.mem_cons] at *
      tauto

theorem nodup_keysOf_dictInsert {α : Type} {k : String} {v : α} {l : List (String × α)}
    (h : (keysOf l).Nodup) : (keysOf (dictInsert k v l)).Nodup := by
  induction l with
  | nil => simp [dictInsert, keysOf]
  | cons pr rest ih =>
    obtain ⟨x, y⟩ := pr
    simp only [keysOf, List.map_cons, List.nodup_cons] at h
    rw [dictInsert_cons]
    by_cases hx : x = k
    · subst hx
      rw [if_pos rfl]
      simp only [keysOf, List.map_cons, List.nodup_cons]
      exact ⟨h.1, h.2⟩
    · rw [if_neg hx]
      simp only [keysOf, List.map_cons, List.nodup_cons]
      refine ⟨?_, ih h.2⟩
      intro hc
      rcases (mem_keysOf_dictInsert).1 hc with hc | hc
      · exact hx hc
      · exact h.1 hc

theorem mem_dictInsert_elim {α : Type} {pr : String × α} {k : String} {v : α}
    {l : List (String × α)} (h : pr ∈ dictInsert k v l) : pr = (k, v) ∨ pr ∈ l := by
  induction l with
  | nil => simp [dictInsert] at h; simp [h]
  | cons q rest ih =>
    obtain ⟨x, y⟩ := q
    rw [dictInsert_cons] at h
    by_cases hx : x = k
    · subst hx
      rw [if_pos rfl] at h
      rcases List.mem_cons.1 h with h | h
      · subst h; left; rfl
      · right; exact List.mem_cons_of_mem _ h
    · rw [if_neg hx] at h
      rcases List.mem_cons.1 h with h | h
      · subst h; right; exact List.mem_cons_self _ _
      · rcases ih h with h | h
        · left; exact h
        · right; exact List.mem_cons_of_mem _ h

theorem mem_dictInsert_of_mem_ne {α : Type} {pr : String × α} {k : String} {v : α}
    {l : List (String × α)} (h : pr ∈ l) (hne : pr.1 ≠ k) : pr ∈ dictInsert k v l := by
  induction l with
  | nil => cases h
  | cons q rest ih =>
    obtain ⟨x, y⟩ := q
    rw [dictInsert_cons]
    by_cases hx : x = k
    · subst hx
      rw [if_pos rfl]
      rcases List.mem_cons.1 h with h | h
      · exfalso; apply hne; rw [h]
      · exact List.mem_cons_of_mem _ h
    · rw [if_neg hx]
      rcases List.mem_cons.1 h with h | h
      · exact h ▸ List.mem_cons_self _ _
      · exact List.mem_cons_of_mem _ (ih h)

theorem mem_dictInsert_self {α : Type} (k : String) (v : α) (l : List (String × α)) :
    (k, v) ∈ dictInsert k v l := by
  induction l with
  | nil => simp [dictInsert]
  | cons q rest ih =>
    obtain ⟨x, y⟩ := q
    rw [dictInsert_cons]
    by_cases hx : x = k
    · subst hx
      rw [if_pos rfl]
      exact List.mem_cons_self _ _
    · rw [if_neg hx]; exact List.mem_cons_of_mem _ ih

theorem alookup_eq_none {α : Type} {l : List (String × α)} {k : String}
    (h : k ∉ keysOf l) : alookup l k = none := by
  induction l with
  | nil => rfl
  | cons q rest ih =>
    obtain ⟨x, y⟩ := q
    simp only [keysOf, List.map_cons, List.mem_cons] at h
    push_neg at h
    rw [alookup_cons, if_neg (fun he => h.1 he.symm)]
    exact ih h.2

theorem alookup_mem {α : Type} {l : List (String × α)} {k : String} {v : α}
    (h : alookup l k = some v) : (k, v) ∈ l := by
  induction l with
  | nil => simp [alookup] at h
  | cons q rest ih =>
    obtain ⟨x, y⟩ := q
    rw [alookup_cons] at h
    by_cases hx : x = k
    · rw [if_pos hx] at h
      subst hx
      cases h
      exact List.mem_cons_self _ _
    · rw [if_neg hx] at h
      exact List.mem_cons_of_mem _ (ih h)

theorem alookup_mem_keys {α : Type} {l : List (String × α)} {k : String} {v : α}
    (h : alookup l k = some v) : k ∈ keysOf l := by
  have := alookup_mem h
  exact List.mem_map.2 ⟨(k, v), this, rfl⟩

theorem alookup_of_mem_nodup {α : Type} {l : List (String × α)} {k : String} {v : α}
    (hnd : (keysOf l).Nodup) (h : (k, v) ∈ l) : alookup l k = some v := by
  induction l with
  | nil => cases h
  | cons q rest ih =>
    obtain ⟨x, y⟩ := q
    simp only [keysOf, List.map_cons, List.nodup_cons] at hnd
    rcases List.mem_cons.1 h with h | h
    · cases h
      rw [alookup_cons, if_pos rfl]
    · rw [alookup_cons]
      by_cases hx : x = k
      · subst hx
        exfalso
        exact hnd.1 (List.mem_map.2 ⟨(x, v), h, rfl⟩)
      · rw [if_neg hx]
        exact ih hnd.2 h

theorem dictInsert_not_mem {α : Type} {k : String} (v : α) {l : List (String × α)}
    (h : k ∉ keysOf l) : dictInsert k v l = l ++ [(k, v)] := by
  induction l with
  | nil => rfl
  | cons q rest ih =>
    obtain ⟨x, y⟩ := q
    simp only [keysOf, List.map_cons, List.mem_cons] at h
    push_neg at h
    rw [dictInsert_cons, if_neg (fun he => h.1 he.symm), List.cons_append, ih h.2]

/- ----------------- prefix and scope lemmas ----------------- -/

theorem strData_append (a b : String) : (a ++ b).data = a.data ++ b.data := rfl

theorem strEq_of_data {a b : String} (h : a.data = b.data) : a = b := by
  cases a
  cases b
  exact congrArg String.mk h

theorem chPre_trans {a b c : List Char} (h1 : chPre a b) (h2 : chPre b c) : chPre a c := by
  obtain ⟨t1, rfl⟩ := h1
  obtain ⟨t2, rfl⟩ := h2
  exact ⟨t1 ++ t2, (List.append_assoc _ _ _).symm⟩

theorem chPre_length {a b : List Char} (h : chPre a b) : a.length ≤ b.length := by
  obtain ⟨t, rfl⟩ := h
  simp

theorem chPre_cancel {x a b : List Char} (h : chPre (x ++ a) (x ++ b)) : chPre a b := by
  obtain ⟨t, ht⟩ := h
  have ht' : x ++ (a ++ t) = x ++ b := by
    rw [← List.append_assoc]
    exact ht
  exact ⟨t, List.append_cancel_left ht'⟩

theorem chPre_comparable {a b k : List Char} (h1 : chPre a k) (h2 : chPre b k) :
    chPre a b ∨ chPre b a :=
  List.prefix_or_prefix_of_prefix h1 h2

theorem chPre_mem {a s : List Char} {c : Char} (h : chPre (a ++ [c]) s) : c ∈ s := by
  obtain ⟨t, rfl⟩ := h
  simp

/-- Two slash-free segments followed by a slash: if one (with its slash) is a
prefix of the other's continuation, the segments coincide. -/
theorem seg_pre_eq : ∀ {a b t : List Char}, '/' ∉ a → '/' ∉ b →
    chPre (a ++ ['/']) (b ++ '/' :: t) → a = b := by
  intro a
  induction a with
  | nil =>
    intro b t _ hb h
    cases b with
    | nil => rfl
    | cons y bs =>
      obtain ⟨u, hu⟩ := h
      simp only [List.nil_append, List.cons_append, List.cons.injEq] at hu
      obtain ⟨h1, _⟩ := hu
      subst h1
      exact absurd (List.mem_cons_self _ _) hb
  | cons x as ih =>
    intro b t ha hb h
    cases b with
    | nil =>
      obtain ⟨u, hu⟩ := h
      simp only [List.cons_append, List.nil_append, List.cons.injEq] at hu
      obtain ⟨h1, _⟩ := hu
      subst h1
      exact absurd (List.mem_cons_self _ _) ha
    | cons y bs =>
      obtain ⟨u, hu⟩ := h
      simp only [List.cons_append, List.cons.injEq] at hu
      have has : as = bs :=
        ih (fun hc => ha (List.mem_cons_of_mem _ hc)) (fun hc => hb (List.mem_cons_of_mem _ hc))
          ⟨u, hu.2⟩
      rw [hu.1, has]

theorem segOk_data_ne_nil {s : String} (h : SegOk s) : s.data ≠ [] := by
  intro hc
  exact h.1 (strEq_of_data (by simp [hc]))

theorem inScope_self (p : String) : inScope p p := Or.inl rfl

theorem pathUnder_data_length {p k : String} (h : pathUnder p k) :
    p.data.length + 1 ≤ k.data.length := by
  have := chPre_length h
  simpa using this

theorem not_pathUnder_self (p : String) : ¬ pathUnder p p := by
  intro h
  have := pathUnder_data_length h
  omega

theorem pathUnder_trans_inScope {p q k : String} (h1 : pathUnder p q) (h2 : inScope q k) :
    pathUnder p k := by
  rcases h2 with rfl | h2
  · exact h1
  · exact chPre_trans h1 (chPre_trans ⟨['/'], rfl⟩ h2)

theorem childPath_data {P nm : String} (hP : P ≠ ".") :
    (childPath P nm).data = (P.data ++ ['/']) ++ nm.data := by
  rw [childPath, if_neg hP]
  show (P ++ "/" ++ nm).data = _
  rw [strData_append, strData_append]

theorem pathUnder_childPath {P nm : String} (hP : P ≠ ".") :
    pathUnder P (childPath P nm) := by
  rw [pathUnder, childPath_data hP]
  exact ⟨nm.data, rfl⟩

theorem inScope_childPath_elim {P nm k : String} (hP : P ≠ ".")
    (h : inScope (childPath P nm) k) : pathUnder P k :=
  pathUnder_trans_inScope (pathUnder_childPath hP) h

/-- Core disjointness: distinct slash-free segments have disjoint scopes
inside the same parent. -/
theorem seg_scope_core {a b k : List Char} (ha : '/' ∉ a) (hb : '/' ∉ b) (hne : a ≠ b)
    (h1 : k = a ∨ chPre (a ++ ['/']) k) (h2 : k = b ∨ chPre (b ++ ['/']) k) : False := by
  rcases h1 with rfl | h1
  · rcases h2 with h2 | h2
    · exact hne h2
    · exact ha (chPre_mem h2)
  · rcases h2 with rfl | h2
    · exact hb (chPre_mem h1)
    · rcases chPre_comparable h1 h2 with h | h
      · exact hne (seg_pre_eq ha hb h)
      · exact hne (seg_pre_eq hb ha h).symm

theorem childPath_dot (nm : String) : childPath "." nm = nm := rfl

theorem inScope_childPath_iff {P nm k : String} (hP : P ≠ ".") :
    inScope (childPath P nm) k ↔
      ∃ k', k.data = (P.data ++ ['/']) ++ k' ∧ (k' = nm.data ∨ chPre (nm.data ++ ['/']) k') := by
  constructor
  · rintro (rfl | h)
    · exact ⟨nm.data, childPath_data hP, Or.inl rfl⟩
    · rw [pathUnder, childPath_data hP] at h
      obtain ⟨t, ht⟩ := h
      refine ⟨nm.data ++ '/' :: t, ?_, Or.inr ⟨t, by simp⟩⟩
      rw [← ht]
      simp
  · rintro ⟨k', hk, h | h⟩
    · left
      apply strEq_of_data
      rw [hk, childPath_data hP, h]
    · right
      rw [pathUnder, childPath_data hP, hk]
      obtain ⟨t, ht⟩ := h
      refine ⟨t, ?_⟩
      rw [← ht]
      simp

theorem childScope_disjoint {P a b k : String} (ha : SegOk a) (hb : SegOk b) (hne : a ≠ b)
    (h1 : inScope (childPath P a) k) (h2 : inScope (childPath P b) k) : False := by
  have hdne : a.data ≠ b.data := fun hc => hne (strEq_of_data hc)
  by_cases hP : P = "."
  · subst hP
    rw [childPath_dot] at h1 h2
    rcases h1 with rfl | h1
    · rcases h2 with h2 | h2
      · exact hne h2
      · exact ha.2.2 (chPre_mem h2)
    · rcases h2 with rfl | h2
      · exact hb.2.2 (chPre_mem h1)
      · rcases chPre_comparable h1 h2 with h | h
        · exact hdne (seg_pre_eq ha.2.2 hb.2.2 h)
        · exact hdne (seg_pre_eq hb.2.2 ha.2.2 h).symm
  · obtain ⟨k1, hk1, hc1⟩ := (inScope_childPath_iff hP).1 h1
    obtain ⟨k2, hk2, hc2⟩ := (inScope_childPath_iff hP).1 h2
    have hkk : k1 = k2 := List.append_cancel_left (hk1 ▸ hk2)
    subst hkk
    exact seg_scope_core ha.2.2 hb.2.2 hdne hc1 hc2

theorem childPath_ne_parent {P nm : String} (hnm : SegOk nm) : childPath P nm ≠ P := by
  by_cases hP : P = "."
  · subst hP
    rw [childPath_dot]
    exact hnm.2.1
  · intro hc
    have hd := congrArg String.data hc
    rw [childPath_data hP] at hd
    have hlen := congrArg List.length hd
    simp only [List.length_append, List.length_cons, List.length_nil] at hlen
    omega

theorem not_inScope_childPath_parent {P nm : String} (hnm : SegOk nm) :
    ¬ inScope (childPath P nm) P := by
  rintro (h | h)
  · exact childPath_ne_parent hnm h.symm
  · by_cases hP : P = "."
    · subst hP
      rw [childPath_dot] at h
      have h1 := pathUnder_data_length h
      have hn : 1 ≤ nm.data.length := List.length_pos.2 (segOk_data_ne_nil hnm)
      have hdot : ("." : String).data.length = 1 := rfl
      omega
    · rw [pathUnder, childPath_data hP] at h
      have h1 := chPre_length h
      simp only [List.length_append, List.length_cons, List.length_nil] at h1
      omega

/- ----------------- tree lemmas ----------------- -/

@[simp] theorem folderNode_path_mk (p nm : String) (fs : List FileMeta) (cs : Children) :
    (FolderNode.mk p nm fs cs).path = p := rfl

@[simp] theorem folderNode_name_mk (p nm : String) (fs : List FileMeta) (cs : Children) :
    (FolderNode.mk p nm fs cs).name = nm := rfl

@[simp] theorem folderNode_files_mk (p nm : String) (fs : List FileMeta) (cs : Children) :
    (FolderNode.mk p nm fs cs).files = fs := rfl

@[simp] theorem folderNode_children_mk (p nm : String) (fs : List FileMeta) (cs : Children) :
    (FolderNode.mk p nm fs cs).children = cs := rfl

theorem children_nodes_toList : ∀ (cs : Children), cs.nodes = cs.toList.map Prod.snd
  | .nil => rfl
  | .cons nm c rest => by
    simp [Children.nodes, Children.toList, children_nodes_toList rest]

theorem children_names_toList : ∀ (cs : Children), cs.names = cs.toList.map Prod.fst
  | .nil => rfl
  | .cons nm c rest => by
    simp [Children.names, Children.toList, children_names_toList rest]

theorem mem_nodes_iff_toList : ∀ {cs : Children} {c : FolderNode},
    c ∈ cs.nodes ↔ ∃ nm, (nm, c) ∈ cs.toList := by
  intro cs
  rw [children_nodes_toList cs]
  intro c
  constructor
  · intro h
    obtain ⟨⟨nm, c'⟩, hm, rfl⟩ := List.mem_map.1 h
    exact ⟨nm, hm⟩
  · rintro ⟨nm, h⟩
    exact List.mem_map.2 ⟨(nm, c), h, rfl⟩

theorem weight_pos (n : FolderNode) : 1 ≤ n.weight := by
  cases n with
  | mk p nm fs cs =>
    show 1 ≤ 1 + fs.length + Children.weight cs
    omega

theorem children_weight_mem : ∀ (cs : Children) (c : FolderNode), c ∈ cs.nodes →
    c.weight ≤ Children.weight cs
  | .nil, c, h => by cases h
  | .cons nm x rest, c, h => by
    rcases List.mem_cons.1 h with rfl | h
    · show c.weight ≤ c.weight + Children.weight rest
      omega
    · have := children_weight_mem rest c h
      show c.weight ≤ x.weight + Children.weight rest
      omega

theorem child_weight_lt {n c : FolderNode} (h : c ∈ n.children.nodes) : c.weight < n.weight := by
  cases n with
  | mk p nm fs cs =>
    rw [folderNode_children_mk] at h
    have := children_weight_mem cs c h
    show c.weight < 1 + fs.length + Children.weight cs
    omega

theorem children_subNodes_iff : ∀ (cs : Children) (m : FolderNode),
    m ∈ Children.subNodes cs ↔ ∃ c ∈ cs.nodes, m ∈ c.subNodes
  | .nil, m => by simp [Children.subNodes, Children.nodes]
  | .cons nm c rest, m => by
    simp only [Children.subNodes, List.mem_append, Children.nodes, List.mem_cons]
    constructor
    · rintro (h | h)
      · exact ⟨c, Or.inl rfl, h⟩
      · obtain ⟨x, hx, hm⟩ := (children_subNodes_iff rest m).1 h
        exact ⟨x, Or.inr hx, hm⟩
    · rintro ⟨x, rfl | hx, hm⟩
      · exact Or.inl hm
      · exact Or.inr ((children_subNodes_iff rest m).2 ⟨x, hx, hm⟩)

theorem subNodes_decomp {n m : FolderNode} :
    m ∈ n.subNodes ↔ m = n ∨ ∃ c ∈ n.children.nodes, m ∈ c.subNodes := by
  cases n with
  | mk p nm fs cs =>
    show m ∈ FolderNode.mk p nm fs cs :: Children.subNodes cs ↔ _
    rw [List.mem_cons, children_subNodes_iff cs m]
    rfl

theorem children_subFiles_iff : ∀ (cs : Children) (fm : FileMeta),
    fm ∈ Children.subFiles cs ↔ ∃ c ∈ cs.nodes, fm ∈ c.subFiles
  | .nil, fm => by simp [Children.subFiles, Children.nodes]
  | .cons nm c rest, fm => by
    simp only [Children.subFiles, List.mem_append, Children.nodes, List.mem_cons]
    constructor
    · rintro (h | h)
      · exact ⟨c, Or.inl rfl, h⟩
      · obtain ⟨x, hx, hm⟩ := (children_subFiles_iff rest fm).1 h
        exact ⟨x, Or.inr hx, hm⟩
    · rintro ⟨x, rfl | hx, hm⟩
      · exact Or.inl hm
      · exact Or.inr ((children_subFiles_iff rest fm).2 ⟨x, hx, hm⟩)

theorem subFiles_decomp {n : FolderNode} {fm : FileMeta} :
    fm ∈ n.subFiles ↔ fm ∈ n.files ∨ ∃ c ∈ n.children.nodes, fm ∈ c.subFiles := by
  cases n with
  | mk p nm fs cs =>
    show fm ∈ fs ++ Children.subFiles cs ↔ _
    rw [List.mem_append, children_subFiles_iff cs fm]
    rfl

theorem self_mem_subNodes (n : FolderNode) : n ∈ n.subNodes :=
  subNodes_decomp.2 (Or.inl rfl)

theorem child_mem_subNodes {n c : FolderNode} (h : c ∈ n.children.nodes) : c ∈ n.subNodes :=
  subNodes_decomp.2 (Or.inr ⟨c, h, self_mem_subNodes c⟩)

theorem files_mem_subFiles {n : FolderNode} {fm : FileMeta} (h : fm ∈ n.files) :
    fm ∈ n.subFiles :=
  subFiles_decomp.2 (Or.inl h)

theorem subNodes_trans_bounded : ∀ (w : Nat) (n : FolderNode), n.weight ≤ w →
    ∀ m x, m ∈ n.subNodes → x ∈ m.subNodes → x ∈ n.subNodes := by
  intro w
  induction w with
  | zero =>
    intro n hw
    have := weight_pos n
    omega
  | succ w ih =>
    intro n hw m x h1 h2
    rcases subNodes_decomp.1 h1 with rfl | ⟨c, hc, hm⟩
    · exact h2
    · have hcw : c.weight ≤ w := by
        have := child_weight_lt hc
        omega
      exact subNodes_decomp.2 (Or.inr ⟨c, hc, ih c hcw m x hm h2⟩)

theorem subNodes_trans {n m x : FolderNode} (h1 : m ∈ n.subNodes) (h2 : x ∈ m.subNodes) :
    x ∈ n.subNodes :=
  subNodes_trans_bounded n.weight n le_rfl m x h1 h2

theorem subFiles_mono_bounded : ∀ (w : Nat) (n : FolderNode), n.weight ≤ w →
    ∀ m fm, m ∈ n.subNodes → fm ∈ m.subFiles → fm ∈ n.subFiles := by
  intro w
  induction w with
  | zero =>
    intro n hw
    have := weight_pos n
    omega
  | succ w ih =>
    intro n hw m fm h1 h2
    rcases subNodes_decomp.1 h1 with rfl | ⟨c, hc, hm⟩
    · exact h2
    · have hcw : c.weight ≤ w := by
        have := child_weight_lt hc
        omega
      exact subFiles_decomp.2 (Or.inr ⟨c, hc, ih c hcw m fm hm h2⟩)

theorem subFiles_mono {n m : FolderNode} {fm : FileMeta} (h1 : m ∈ n.subNodes)
    (h2 : fm ∈ m.subFiles) : fm ∈ n.subFiles :=
  subFiles_mono_bounded n.weight n le_rfl m fm h1 h2

/- ----------------- collect_all_files lemmas ----------------- -/

theorem collectAuxF_nil (fuel : Nat) : collectAuxF fuel [] = [] := by
  cases fuel <;> rfl

theorem lWeight_cons (n : FolderNode) (l : List FolderNode) :
    lWeight (n :: l) = n.weight + lWeight l := by
  simp [lWeight]

theorem lWeight_append (a b : List FolderNode) : lWeight (a ++ b) = lWeight a + lWeight b := by
  simp [lWeight]

theorem children_weight_nodes : ∀ (cs : Children), Children.weight cs = lWeight cs.nodes
  | .nil => rfl
  | .cons nm c rest => by
    show c.weight + Children.weight rest = _
    rw [children_weight_nodes rest]
    simp [Children.nodes, lWeight_cons]

theorem lWeight_step {n : FolderNode} {rest : List FolderNode} :
    lWeight (rest ++ n.children.nodes) + 1 ≤ lWeight (n :: rest) := by
  rw [lWeight_append, lWeight_cons]
  have hcw : lWeight n.children.nodes + 1 ≤ n.weight := by
    cases n with
    | mk p nm fs cs =>
      rw [folderNode_children_mk]
      show lWeight (Children.nodes cs) + 1 ≤ 1 + fs.length + Children.weight cs
      rw [← children_weight_nodes cs]
      omega
  omega

theorem collectAuxF_mem {fm : FileMeta} : ∀ (fuel : Nat) (l : List FolderNode),
    lWeight l ≤ fuel → (fm ∈ collectAuxF fuel l ↔ ∃ n ∈ l, fm ∈ n.subFiles) := by
  intro fuel
  induction fuel with
  | zero =>
    intro l hl
    cases l with
    | nil => simp [collectAuxF]
    | cons n rest =>
      rw [lWeight_cons] at hl
      have := weight_pos n
      omega
  | succ fuel ih =>
    intro l hl
    cases l with
    | nil => simp [collectAuxF]
    | cons n rest =>
      cases n with
      | mk p nm fs cs =>
        show fm ∈ fs ++ collectAuxF fuel (rest ++ Children.nodes cs) ↔ _
        rw [List.mem_append]
        have hw : lWeight (rest ++ (FolderNode.mk p nm fs cs).children.nodes) ≤ fuel := by
          have h1 := @lWeight_step (FolderNode.mk p nm fs cs) rest
          omega
        rw [folderNode_children_mk] at hw
        rw [ih _ hw]
        constructor
        · rintro (h | ⟨m, hm, hf⟩)
          · exact ⟨FolderNode.mk p nm fs cs, List.mem_cons_self _ _, files_mem_subFiles h⟩
          · rcases List.mem_append.1 hm with hm | hm
            · exact ⟨m, List.mem_cons_of_mem _ hm, hf⟩
            · refine ⟨FolderNode.mk p nm fs cs, List.mem_cons_self _ _, ?_⟩
              exact subFiles_decomp.2 (Or.inr ⟨m, by rw [folderNode_children_mk]; exact hm, hf⟩)
        · rintro ⟨m, hm, hf⟩
          rcases List.mem_cons.1 hm with rfl | hm
          · rcases subFiles_decomp.1 hf with h | ⟨c, hc, hcf⟩
            · exact Or.inl h
            · rw [folderNode_children_mk] at hc
              exact Or.inr ⟨c, List.mem_append.2 (Or.inr hc), hcf⟩
          · exact Or.inr ⟨m, List.mem_append.2 (Or.inl hm), hf⟩

theorem collect_mem {n : FolderNode} {fm : FileMeta} :
    fm ∈ collect_all_files n ↔ fm ∈ n.subFiles := by
  rw [collect_all_files, collectAuxF_mem n.weight [n] (by simp [lWeight])]
  simp

/- ----------------- well-formedness lemmas ----------------- -/

theorem childPath_ne_dot {P : String} (nm : String) (hP : P ≠ ".") : childPath P nm ≠ "." := by
  intro hc
  have hd := congrArg String.data hc
  rw [childPath_data hP] at hd
  have : '/' ∈ (("." : String).data) := by
    rw [← hd]
    simp
  simp [show ("." : String).data = ['.'] from rfl] at this

theorem childPath_inj {P a b : String} (h : childPath P a = childPath P b) : a = b := by
  by_cases hP : P = "."
  · subst hP
    rwa [childPath_dot, childPath_dot] at h
  · have hd := congrArg String.data h
    rw [childPath_data hP, childPath_data hP] at hd
    exact strEq_of_data (List.append_cancel_left hd)

theorem wf_child_facts {n c : FolderNode} (h : WFnode n) (hc : c ∈ n.children.nodes) :
    ∃ nm, c.name = nm ∧ c.path = childPath n.path nm ∧ SegOk nm ∧ WFnode c := by
  cases h with
  | mk n hfile hfnodup hcnodup hchild hfc hrec =>
    obtain ⟨nm, hm⟩ := mem_nodes_iff_toList.1 hc
    obtain ⟨h1, h2, h3⟩ := hchild (nm, c) hm
    exact ⟨nm, h1, h2, h3, hrec c hc⟩

theorem wf_file_facts {n : FolderNode} {fm : FileMeta} (h : WFnode n) (hf : fm ∈ n.files) :
    fm.folder_path = n.path ∧ fm.source_path = childPath n.path fm.file_name ∧
      SegOk fm.file_name := by
  cases h with
  | mk n hfile hfnodup hcnodup hchild hfc hrec => exact hfile fm hf

theorem wf_children_distinct {n : FolderNode} (h : WFnode n) {c1 c2 : FolderNode}
    {nm1 nm2 : String} (h1 : (nm1, c1) ∈ n.children.toList) (h2 : (nm2, c2) ∈ n.children.toList)
    (hne : nm1 = nm2) : c1 = c2 := by
  cases h with
  | mk n hfile hfnodup hcnodup hchild hfc hrec =>
    subst hne
    have hnd : (keysOf n.children.toList).Nodup := by
      rw [keysOf, ← children_names_toList]
      exact hcnodup
    have e1 := alookup_of_mem_nodup hnd h1
    have e2 := alookup_of_mem_nodup hnd h2
    rw [e1] at e2
    cases e2
    rfl

theorem subFiles_inScope_bounded : ∀ (w : Nat) (n : FolderNode), n.weight ≤ w → WFnode n →
    n.path ≠ "." → ∀ fm ∈ n.subFiles, inScope n.path fm.source_path := by
  intro w
  induction w with
  | zero =>
    intro n hw
    have := weight_pos n
    omega
  | succ w ih =>
    intro n hw hwf hP fm hfm
    rcases subFiles_decomp.1 hfm with h | ⟨c, hc, hcf⟩
    · obtain ⟨_, hsp, _⟩ := wf_file_facts hwf h
      rw [hsp]
      exact Or.inr (pathUnder_childPath hP)
    · obtain ⟨nm, _, hcp, hseg, hcwf⟩ := wf_child_facts hwf hc
      have hcP : c.path ≠ "." := by
        rw [hcp]
        exact childPath_ne_dot nm hP
      have hcw : c.weight ≤ w := by
        have := child_weight_lt hc
        omega
      have := ih c hcw hcwf hcP fm hcf
      rw [hcp] at this
      exact Or.inr (inScope_childPath_elim hP this)

theorem subFiles_inScope {n : FolderNode} (hwf : WFnode n) (hP : n.path ≠ ".")
    {fm : FileMeta} (hfm : fm ∈ n.subFiles) : inScope n.path fm.source_path :=
  subFiles_inScope_bounded n.weight n le_rfl hwf hP fm hfm

theorem subNodes_inScope_bounded : ∀ (w : Nat) (n : FolderNode), n.weight ≤ w → WFnode n →
    n.path ≠ "." → ∀ m ∈ n.subNodes, inScope n.path m.path := by
  intro w
  induction w with
  | zero =>
    intro n hw
    have := weight_pos n
    omega
  | succ w ih =>
    intro n hw hwf hP m hm
    rcases subNodes_decomp.1 hm with rfl | ⟨c, hc, hcm⟩
    · exact inScope_self _
    · obtain ⟨nm, _, hcp, hseg, hcwf⟩ := wf_child_facts hwf hc
      have hcP : c.path ≠ "." := by
        rw [hcp]
        exact childPath_ne_dot nm hP
      have hcw : c.weight ≤ w := by
        have := child_weight_lt hc
        omega
      have := ih c hcw hcwf hcP m hcm
      rw [hcp] at this
      exact Or.inr (inScope_childPath_elim hP this)

theorem subNodes_inScope {n m : FolderNode} (hwf : WFnode n) (hP : n.path ≠ ".")
    (hm : m ∈ n.subNodes) : inScope n.path m.path :=
  subNodes_inScope_bounded n.weight n le_rfl hwf hP m hm

theorem wf_subNodes_bounded : ∀ (w : Nat) (n : FolderNode), n.weight ≤ w → WFnode n →
    ∀ m ∈ n.subNodes, WFnode m := by
  intro w
  induction w with
  | zero =>
    intro n hw
    have := weight_pos n
    omega
  | succ w ih =>
    intro n hw hwf m hm
    rcases subNodes_decomp.1 hm with rfl | ⟨c, hc, hcm⟩
    · exact hwf
    · obtain ⟨nm, _, _, _, hcwf⟩ := wf_child_facts hwf hc
      have hcw : c.weight ≤ w := by
        have := child_weight_lt hc
        omega
      exact ih c hcw hcwf m hcm

theorem wf_subNodes {n m : FolderNode} (hwf : WFnode n) (hm : m ∈ n.subNodes) : WFnode m :=
  wf_subNodes_bounded n.weight n le_rfl hwf m hm

theorem subNodes_path_inj_bounded : ∀ (w : Nat) (n : FolderNode), n.weight ≤ w → WFnode n →
    n.path ≠ "." → ∀ x ∈ n.subNodes, ∀ y ∈ n.subNodes, x.path = y.path → x = y := by
  intro w
  induction w with
  | zero =>
    intro n hw
    have := weight_pos n
    omega
  | succ w ih =>
    intro n hw hwf hP x hx y hy hxy
    rcases subNodes_decomp.1 hx with rfl | ⟨c1, hc1, hm1⟩
    · rcases subNodes_decomp.1 hy with rfl | ⟨c2, hc2, hm2⟩
      · rfl
      · exfalso
        obtain ⟨nm2, _, hcp2, hseg2, hcwf2⟩ := wf_child_facts hwf hc2
        have hcP2 : c2.path ≠ "." := hcp2 ▸ childPath_ne_dot nm2 hP
        have hsc := subNodes_inScope hcwf2 hcP2 hm2
        rw [← hxy, hcp2] at hsc
        exact not_inScope_childPath_parent hseg2 hsc
    · rcases subNodes_decomp.1 hy with rfl | ⟨c2, hc2, hm2⟩
      · exfalso
        obtain ⟨nm1, _, hcp1, hseg1, hcwf1⟩ := wf_child_facts hwf hc1
        have hcP1 : c1.path ≠ "." := hcp1 ▸ childPath_ne_dot nm1 hP
        have hsc := subNodes_inScope hcwf1 hcP1 hm1
        rw [hxy, hcp1] at hsc
        exact not_inScope_childPath_parent hseg1 hsc
      · obtain ⟨nm1, hn1, hcp1, hseg1, hcwf1⟩ := wf_child_facts hwf hc1
        obtain ⟨nm2, hn2, hcp2, hseg2, hcwf2⟩ := wf_child_facts hwf hc2
        obtain ⟨nm1', hm1'⟩ := mem_nodes_iff_toList.1 hc1
        obtain ⟨nm2', hm2'⟩ := mem_nodes_iff_toList.1 hc2
        have hpn1 : nm1' = c1.name := by
          cases hwf with
          | mk n hfile hfnodup hcnodup hchild hfc hrec => exact (hchild _ hm1').1.symm
        have hpn2 : nm2' = c2.name := by
          cases hwf with
          | mk n hfile hfnodup hcnodup hchild hfc hrec => exact (hchild _ hm2').1.symm
        by_cases hnm : c1.name = c2.name
        · have : c1 = c2 := by
            apply wf_children_distinct hwf hm1' hm2'
            rw [hpn1, hpn2, hnm]
          subst this
          have hcP1 : c1.path ≠ "." := hcp1 ▸ childPath_ne_dot nm1 hP
          have hcw : c1.weight ≤ w := by
            have := child_weight_lt hc1
            omega
          exact ih c1 hcw hcwf1 hcP1 x hm1 y hm2 hxy
        · exfalso
          have hcP1 : c1.path ≠ "." := hcp1 ▸ childPath_ne_dot nm1 hP
          have hcP2 : c2.path ≠ "." := hcp2 ▸ childPath_ne_dot nm2 hP
          have hs1 := subNodes_inScope hcwf1 hcP1 hm1
          have hs2 := subNodes_inScope hcwf2 hcP2 hm2
          rw [hcp1] at hs1
          rw [hcp2] at hs2
          rw [hxy] at hs1
          refine childScope_disjoint hseg1 hseg2 ?_ hs1 hs2
          intro hc
          apply hnm
          rw [hn1, hn2]
          exact hc

theorem root_path_inj {root : FolderNode} (hwf : WFnode root) (hrp : root.path = ".") :
    ∀ x ∈ root.subNodes, ∀ y ∈ root.subNodes, x.path = y.path → x = y := by
  intro x hx y hy hxy
  rcases subNodes_decomp.1 hx with rfl | ⟨c1, hc1, hm1⟩
  · rcases subNodes_decomp.1 hy with rfl | ⟨c2, hc2, hm2⟩
    · rfl
    · exfalso
      obtain ⟨nm2, _, hcp2, hseg2, hcwf2⟩ := wf_child_facts hwf hc2
      rw [hrp] at hcp2
      have hcP2 : c2.path ≠ "." := by
        rw [hcp2, childPath_dot]
        exact hseg2.2.1
      have hsc := subNodes_inScope hcwf2 hcP2 hm2
      rw [← hxy, hrp] at hsc
      rcases hsc with h | h
      · exact hcP2 h.symm
      · have h1 := pathUnder_data_length h
        have hd : ("." : String).data.length = 1 := rfl
        have h2 : 1 ≤ c2.path.data.length :=
          List.length_pos.2 (by
            rw [hcp2, childPath_dot]
            exact segOk_data_ne_nil hseg2)
        omega
  · rcases subNodes_decomp.1 hy with rfl | ⟨c2, hc2, hm2⟩
    · exfalso
      obtain ⟨nm1, _, hcp1, hseg1, hcwf1⟩ := wf_child_facts hwf hc1
      rw [hrp] at hcp1
      have hcP1 : c1.path ≠ "." := by
        rw [hcp1, childPath_dot]
        exact hseg1.2.1
      have hsc := subNodes_inScope hcwf1 hcP1 hm1
      rw [hxy, hrp] at hsc
      rcases hsc with h | h
      · exact hcP1 h.symm
      · have h1 := pathUnder_data_length h
        have hd : ("." : String).data.length = 1 := rfl
        have h2 : 1 ≤ c1.path.data.length :=
          List.length_pos.2 (by
            rw [hcp1, childPath_dot]
            exact segOk_data_ne_nil hseg1)
        omega
    · obtain ⟨nm1, hn1, hcp1, hseg1, hcwf1⟩ := wf_child_facts hwf hc1
      obtain ⟨nm2, hn2, hcp2, hseg2, hcwf2⟩ := wf_child_facts hwf hc2
      rw [hrp] at hcp1 hcp2
      obtain ⟨nm1', hm1'⟩ := mem_nodes_iff_toList.1 hc1
      obtain ⟨nm2', hm2'⟩ := mem_nodes_iff_toList.1 hc2
      have hpn1 : nm1' = c1.name := by
        cases hwf with
        | mk n hfile hfnodup hcnodup hchild hfc hrec => exact (hchild _ hm1').1.symm
      have hpn2 : nm2' = c2.name := by
        cases hwf with
        | mk n hfile hfnodup hcnodup hchild hfc hrec => exact (hchild _ hm2').1.symm
      by_cases hnm : c1.name = c2.name
      · have : c1 = c2 := by
          apply wf_children_distinct hwf hm1' hm2'
          rw [hpn1, hpn2, hnm]
        subst this
        have hcP1 : c1.path ≠ "." := by
          rw [hcp1, childPath_dot]
          exact hseg1.2.1
        exact subNodes_path_inj_bounded c1.weight c1 le_rfl hcwf1 hcP1 x hm1 y hm2 hxy
      · exfalso
        have hcP1 : c1.path ≠ "." := by
          rw [hcp1, childPath_dot]
          exact hseg1.2.1
        have hcP2 : c2.path ≠ "." := by
          rw [hcp2, childPath_dot]
          exact hseg2.2.1
        have hs1 := subNodes_inScope hcwf1 hcP1 hm1
        have hs2 := subNodes_inScope hcwf2 hcP2 hm2
        rw [hcp1] at hs1
        rw [hcp2] at hs2
        rw [hxy] at hs1
        refine childScope_disjoint hseg1 hseg2 ?_ hs1 hs2
        intro hc
        apply hnm
        rw [hn1, hn2]
        exact hc

/- ----------------- queue-item and enqueue lemmas ----------------- -/

theorem itemScope_key : ∀ (i : QItem), itemScope i i.key
  | .folder n => inScope_self n.path
  | .file f => rfl

theorem child_path_ne_dot {n c : FolderNode} (h : WFnode n) (hc : c ∈ n.children.nodes) :
    c.path ≠ "." := by
  obtain ⟨nm, _, hcp, hseg, _⟩ := wf_child_facts h hc
  rw [hcp]
  by_cases hP : n.path = "."
  · rw [hP, childPath_dot]
    exact hseg.2.1
  · exact childPath_ne_dot nm hP

theorem nodup_append_singleton {α : Type} {l : List α} {a : α} (h : l.Nodup) (ha : a ∉ l) :
    (l ++ [a]).Nodup := by
  rw [List.nodup_append]
  exact ⟨h, List.nodup_singleton a, by simpa using ha⟩

theorem mem_writtenKeys {st : EngState} {k : String} :
    k ∈ writtenKeys st ↔ k ∈ keysOf st.classifications ∨ k ∈ keysOf st.folder_decisions ∨
      k ∈ keysOf st.mappings ∨ k ∈ st.seen := by
  simp [writtenKeys, List.mem_append, or_assoc]

/-- The items `_process_folder` enqueues when descending into `item`. -/
theorem enq_pairwise {n : FolderNode} (h : WFnode n) :
    (n.children.nodes.map QItem.folder ++ n.files.map QItem.file).Pairwise
      (fun i j => ∀ k, itemScope i k → itemScope j k → False) := by
  rw [List.pairwise_append]
  refine ⟨?_, ?_, ?_⟩
  · rw [children_nodes_toList, List.map_map, List.pairwise_map]
    have hnd : n.children.toList.Pairwise (fun a b => a.1 ≠ b.1) := by
      cases h with
      | mk n hfile hfnodup hcnodup hchild hfc hrec =>
        rw [children_names_toList] at hcnodup
        exact (List.pairwise_map).1 hcnodup
    refine hnd.imp_of_mem ?_
    intro a b ha hb hne k h1 h2
    cases h with
    | mk n hfile hfnodup hcnodup hchild hfc hrec =>
      obtain ⟨_, hpa, hsa⟩ := hchild a ha
      obtain ⟨_, hpb, hsb⟩ := hchild b hb
      simp only [Function.comp, itemScope] at h1 h2
      rw [hpa] at h1
      rw [hpb] at h2
      exact childScope_disjoint hsa hsb hne h1 h2
  · rw [List.pairwise_map]
    have hnd : n.files.Pairwise (fun a b => a.file_name ≠ b.file_name) := by
      cases h with
      | mk n hfile hfnodup hcnodup hchild hfc hrec =>
        exact (List.pairwise_map).1 hfnodup
    refine hnd.imp_of_mem ?_
    intro a b ha hb hne k h1 h2
    cases h with
    | mk n hfile hfnodup hcnodup hchild hfc hrec =>
      obtain ⟨_, hpa, _⟩ := hfile a ha
      obtain ⟨_, hpb, _⟩ := hfile b hb
      simp only [itemScope] at h1 h2
      apply hne
      apply @childPath_inj n.path
      rw [← hpa, ← hpb, ← h1, ← h2]
  · intro i hi j hj k h1 h2
    obtain ⟨⟨nm, c⟩, hct, rfl⟩ : ∃ pr ∈ n.children.toList, QItem.folder pr.2 = i := by
      rw [children_nodes_toList, List.map_map] at hi
      obtain ⟨pr, hpr, he⟩ := List.mem_map.1 hi
      exact ⟨pr, hpr, he⟩
    obtain ⟨fmm, hfmm, rfl⟩ := List.mem_map.1 hj
    cases h with
    | mk n hfile hfnodup hcnodup hchild hfc hrec =>
      obtain ⟨_, hpc, hsc⟩ := hchild (nm, c) hct
      obtain ⟨_, hpf, hsf⟩ := hfile fmm hfmm
      simp only [itemScope] at h1 h2
      rw [hpc] at h1
      refine childScope_disjoint hsc hsf ?_ h1 ?_
      · intro he
        exact hfc fmm hfmm nm (by rw [children_names_toList]; exact List.mem_map.2 ⟨(nm, c), hct, rfl⟩) he.symm
      · rw [h2, hpf]
        exact inScope_self _

theorem enq_scope_sub {n : FolderNode} (h : WFnode n) (hP : n.path ≠ ".") :
    ∀ i ∈ n.children.nodes.map QItem.folder ++ n.files.map QItem.file,
      ∀ k, itemScope i k → inScope n.path k := by
  intro i hi k hk
  rcases List.mem_append.1 hi with hi | hi
  · obtain ⟨c, hc, rfl⟩ := List.mem_map.1 hi
    obtain ⟨nm, _, hcp, hseg, _⟩ := wf_child_facts h hc
    simp only [itemScope] at hk
    rw [hcp] at hk
    exact Or.inr (inScope_childPath_elim hP hk)
  · obtain ⟨fmm, hfm, rfl⟩ := List.mem_map.1 hi
    obtain ⟨_, hpf, _⟩ := wf_file_facts h hfm
    simp only [itemScope] at hk
    rw [hk, hpf]
    exact Or.inr (pathUnder_childPath hP)

/- ----------------- assignFold characterization ----------------- -/

theorem assignFold_cons (result : ClassificationResult) (itemPath : String)
    (canc : List String) (f : FileMeta) (rest : List FileMeta) (st : EngState) :
    assignFold result itemPath canc (f :: rest) st =
      assignFold result itemPath canc rest (stepAssign result itemPath canc f st) := rfl

theorem assignFold_fields (result : ClassificationResult) (itemPath : String)
    (canc : List String) : ∀ (files : List FileMeta) (st : EngState),
    (assignFold result itemPath canc files st).folder_decisions = st.folder_decisions ∧
    (assignFold result itemPath canc files st).skipped_folders = st.skipped_folders ∧
    (assignFold result itemPath canc files st).seen = st.seen ∧
    (assignFold result itemPath canc files st).ancestor_desc_map = st.ancestor_desc_map ∧
    (assignFold result itemPath canc files st).task_queue = st.task_queue ∧
    (assignFold result itemPath canc files st).folder_calls = st.folder_calls ∧
    (assignFold result itemPath canc files st).file_calls = st.file_calls ∧
    (assignFold result itemPath canc files st).propagation_calls = st.propagation_calls
  | [], st => by exact ⟨rfl, rfl, rfl, rfl, rfl, rfl, rfl, rfl⟩
  | f :: rest, st => by
    rw [assignFold_cons]
    exact assignFold_fields result itemPath canc rest (stepAssign result itemPath canc f st)

theorem assignFold_cls_mem (result : ClassificationResult) (itemPath : String)
    (canc : List String) : ∀ (files : List FileMeta) (st : EngState) (pr : String × Classification),
    pr ∈ (assignFold result itemPath canc files st).classifications →
    pr ∈ st.classifications ∨
      ∃ fmm ∈ files, pr = (fmm.source_path, inheritedCls result itemPath canc fmm.source_path)
  | [], st, pr, h => Or.inl h
  | f :: rest, st, pr, h => by
    rw [assignFold_cons] at h
    rcases assignFold_cls_mem result itemPath canc rest _ pr h with h' | ⟨fmm, hf, he⟩
    · rcases mem_dictInsert_elim h' with he | hm
      · exact Or.inr ⟨f, List.mem_cons_self _ _, he⟩
      · exact Or.inl hm
    · exact Or.inr ⟨fmm, List.mem_cons_of_mem _ hf, he⟩

theorem assignFold_map_mem (result : ClassificationResult) (itemPath : String)
    (canc : List String) : ∀ (files : List FileMeta) (st : EngState) (pr : String × FileMapping),
    pr ∈ (assignFold result itemPath canc files st).mappings →
    pr ∈ st.mappings ∨ ∃ fmm ∈ files, pr = (fmm.source_path, inheritedMap result fmm.source_path)
  | [], st, pr, h => Or.inl h
  | f :: rest, st, pr, h => by
    rw [assignFold_cons] at h
    rcases assignFold_map_mem result itemPath canc rest _ pr h with h' | ⟨fmm, hf, he⟩
    · rcases mem_dictInsert_elim h' with he | hm
      · exact Or.inr ⟨f, List.mem_cons_self _ _, he⟩
      · exact Or.inl hm
    · exact Or.inr ⟨fmm, List.mem_cons_of_mem _ hf, he⟩

theorem assignFold_cls_lookup_not_mem (result : ClassificationResult) (itemPath : String)
    (canc : List String) : ∀ (files : List FileMeta) (st : EngState) (k : String),
    k ∉ files.map FileMeta.source_path →
    alookup (assignFold result itemPath canc files st).classifications k =
      alookup st.classifications k
  | [], _, _, _ => rfl
  | f :: rest, st, k, h => by
    simp only [List.map_cons, List.mem_cons] at h
    push_neg at h
    rw [assignFold_cons,
      assignFold_cls_lookup_not_mem result itemPath canc rest
        (stepAssign result itemPath canc f st) k h.2]
    exact alookup_dictInsert_ne _ _ h.1

theorem assignFold_map_lookup_not_mem (result : ClassificationResult) (itemPath : String)
    (canc : List String) : ∀ (files : List FileMeta) (st : EngState) (k : String),
    k ∉ files.map FileMeta.source_path →
    alookup (assignFold result itemPath canc files st).mappings k = alookup st.mappings k
  | [], _, _, _ => rfl
  | f :: rest, st, k, h => by
    simp only [List.map_cons, List.mem_cons] at h
    push_neg at h
    rw [assignFold_cons,
      assignFold_map_lookup_not_mem result itemPath canc rest
        (stepAssign result itemPath canc f st) k h.2]
    exact alookup_dictInsert_ne _ _ h.1

theorem assignFold_cls_lookup_mem (result : ClassificationResult) (itemPath : String)
    (canc : List String) : ∀ (files : List FileMeta) (st : EngState) (k : String),
    k ∈ files.map FileMeta.source_path →
    alookup (assignFold result itemPath canc files st).classifications k =
      some (inheritedCls result itemPath canc k)
  | [], _, k, h => by cases h
  | f :: rest, st, k, h => by
    rw [assignFold_cons]
    by_cases hr : k ∈ rest.map FileMeta.source_path
    · exact assignFold_cls_lookup_mem result itemPath canc rest _ k hr
    · have hk : k = f.source_path := by
        simp only [List.map_cons, List.mem_cons] at h
        tauto
      subst hk
      rw [assignFold_cls_lookup_not_mem result itemPath canc rest
        (stepAssign result itemPath canc f st) f.source_path hr]
      exact alookup_dictInsert_self _ _ _

theorem assignFold_map_lookup_mem (result : ClassificationResult) (itemPath : String)
    (canc : List String) : ∀ (files : List FileMeta) (st : EngState) (k : String),
    k ∈ files.map FileMeta.source_path →
    alookup (assignFold result itemPath canc files st).mappings k =
      some (inheritedMap result k)
  | [], _, k, h => by cases h
  | f :: rest, st, k, h => by
    rw [assignFold_cons]
    by_cases hr : k ∈ rest.map FileMeta.source_path
    · exact assignFold_map_lookup_mem result itemPath canc rest _ k hr
    · have hk : k = f.source_path := by
        simp only [List.map_cons, List.mem_cons] at h
        tauto
      subst hk
      rw [assignFold_map_lookup_not_mem result itemPath canc rest
        (stepAssign result itemPath canc f st) f.source_path hr]
      exact alookup_dictInsert_self _ _ _

theorem assignFold_keys_cls (result : ClassificationResult) (itemPath : String)
    (canc : List String) : ∀ (files : List FileMeta) (st : EngState) (a : String),
    a ∈ keysOf (assignFold result itemPath canc files st).classifications ↔
      a ∈ keysOf st.classifications ∨ a ∈ files.map FileMeta.source_path
  | [], st, a => by
    rw [show assignFold result itemPath canc [] st = st from rfl]
    simp
  | f :: rest, st, a => by
    rw [assignFold_cons, assignFold_keys_cls result itemPath canc rest
      (stepAssign result itemPath canc f st) a]
    simp only [List.map_cons, List.mem_cons, stepAssign]
    rw [mem_keysOf_dictInsert]
    tauto

theorem assignFold_keys_map (result : ClassificationResult) (itemPath : String)
    (canc : List String) : ∀ (files : List FileMeta) (st : EngState) (a : String),
    a ∈ keysOf (assignFold result itemPath canc files st).mappings ↔
      a ∈ keysOf st.mappings ∨ a ∈ files.map FileMeta.source_path
  | [], st, a => by
    rw [show assignFold result itemPath canc [] st = st from rfl]
    simp
  | f :: rest, st, a => by
    rw [assignFold_cons, assignFold_keys_map result itemPath canc rest
      (stepAssign result itemPath canc f st) a]
    simp only [List.map_cons, List.mem_cons, stepAssign]
    rw [mem_keysOf_dictInsert]
    tauto

theorem assignFold_nd_cls (result : ClassificationResult) (itemPath : String)
    (canc : List String) : ∀ (files : List FileMeta) (st : EngState),
    (keysOf st.classifications).Nodup →
    (keysOf (assignFold result itemPath canc files st).classifications).Nodup
  | [], _, h => h
  | f :: rest, st, h => by
    rw [assignFold_cons]
    exact assignFold_nd_cls result itemPath canc rest _ (nodup_keysOf_dictInsert h)

theorem assignFold_nd_map (result : ClassificationResult) (itemPath : String)
    (canc : List String) : ∀ (files : List FileMeta) (st : EngState),
    (keysOf st.mappings).Nodup →
    (keysOf (assignFold result itemPath canc files st).mappings).Nodup
  | [], _, h => h
  | f :: rest, st, h => by
    rw [assignFold_cons]
    exact assignFold_nd_map result itemPath canc rest _ (nodup_keysOf_dictInsert h)

/- ----------------- step characterization lemmas ----------------- -/

theorem processFile_skip_eq {cl : Classifier} {fi : FileIndex} {f : FileMeta} {st : EngState}
    (h : (pfFR cl fi f st).category = Category.skip) :
    processFile cl fi f st =
      { st with file_calls := st.file_calls ++ [(f.source_path, pfFR cl fi f st)] } := by
  simp only [processFile, pfFR] at *
  rw [if_pos h]

theorem processFile_go_eq {cl : Classifier} {fi : FileIndex} {f : FileMeta} {st : EngState}
    (h : (pfFR cl fi f st).category ≠ Category.skip) :
    processFile cl fi f st =
      { st with
        file_calls := st.file_calls ++ [(f.source_path, pfFR cl fi f st)]
        classifications := dictInsert f.source_path
          (fileCls (pfFR cl fi f st) ((alookup st.ancestor_desc_map f.folder_path).getD [])
            f.source_path) st.classifications
        mappings := dictInsert f.source_path (fileMap (pfFR cl fi f st) f.source_path)
          st.mappings } := by
  simp only [processFile, pfFR] at *
  rw [if_neg h]
  rfl

theorem processFolder_skip_eq {cl : Classifier} {db : CourseDBModel} {t : ℚ} {fi : FileIndex}
    {n : FolderNode} {st : EngState}
    (hA : (pfR cl fi n st).category = Category.skip ∧ t ≤ (pfR cl fi n st).confidence) :
    processFolder cl db t fi n st = .ok
      { st with
        folder_decisions := dictInsert n.path (pfR cl fi n st) st.folder_decisions
        folder_calls := st.folder_calls ++ [n.path]
        skipped_folders := st.skipped_folders ++ [n.path]
        classifications := dictInsert n.path (skipCls n.path (pfR cl fi n st) (pfAnc n st))
          st.classifications } := by
  simp only [processFolder, pfR, pfAnc] at *
  rw [if_pos hA]
  rfl

theorem processFolder_descend_eq {cl : Classifier} {db : CourseDBModel} {t : ℚ} {fi : FileIndex}
    {n : FolderNode} {st : EngState}
    (hA : ¬ ((pfR cl fi n st).category = Category.skip ∧ t ≤ (pfR cl fi n st).confidence))
    (hsd : pfSd cl fi t n st = true) :
    processFolder cl db t fi n st = .ok
      { st with
        folder_decisions := dictInsert n.path (pfR cl fi n st) st.folder_decisions
        folder_calls := st.folder_calls ++ [n.path]
        skipped_folders := st.skipped_folders ++
          (if (pfR cl fi n st).category = Category.skip then [n.path] else [])
        classifications := dictInsert n.path
          (folderCls n.path (pfR cl fi n st) true (pfAnc n st)) st.classifications
        ancestor_desc_map := dictInsert n.path (pfCanc cl fi n st)
          (ancFold (pfCanc cl fi n st) n.children.nodes st.ancestor_desc_map)
        task_queue := st.task_queue ++ pushedItems n } := by
  by_cases hcat : (pfR cl fi n st).category = Category.skip
  · simp only [processFolder, pfSd, pfCanc, pfR, pfAnc, pushedItems, folderCls] at *
    rw [if_neg hA]
    simp [hcat]
  · have hsd0 : (!((pfR cl fi n st).is_confident t) || (pfR cl fi n st).is_mixed) = true := by
      rw [pfSd, if_neg hcat] at hsd
      exact hsd
    simp only [processFolder, pfSd, pfCanc, pfR, pfAnc, pushedItems, folderCls] at *
    rw [if_neg hA]
    simp [hcat, hsd0]

theorem processFolder_sd_false_cat {cl : Classifier} {fi : FileIndex} {t : ℚ}
    {n : FolderNode} {st : EngState} (hsd : pfSd cl fi t n st = false) :
    (pfR cl fi n st).category ≠ Category.skip := by
  intro hc
  rw [pfSd, if_pos hc] at hsd
  cases hsd

theorem processFolder_assign_nodb_eq {cl : Classifier} {db : CourseDBModel} {t : ℚ}
    {fi : FileIndex} {n : FolderNode} {st : EngState}
    (hA : ¬ ((pfR cl fi n st).category = Category.skip ∧ t ≤ (pfR cl fi n st).confidence))
    (hsd : pfSd cl fi t n st = false)
    (hnp : (pfR cl fi n st).folder_description = "" ∨ pfUuids db n = []) :
    processFolder cl db t fi n st = .ok
      (assignFold (pfR cl fi n st) n.path (pfCanc cl fi n st) (collect_all_files n)
        (pfCore cl fi n st)) := by
  have hcat := processFolder_sd_false_cat hsd
  have hsd0 : (!((pfR cl fi n st).is_confident t) || (pfR cl fi n st).is_mixed) = false := by
    rw [pfSd, if_neg hcat] at hsd
    exact hsd
  by_cases hd : (pfR cl fi n st).folder_description = ""
  · simp only [processFolder, pfSd, pfCanc, pfR, pfAnc, pfCore, pfUuids, folderCls] at *
    rw [if_neg hA]
    simp [hcat, hsd0, hd]
  · have hu : pfUuids db n = [] := by tauto
    simp only [processFolder, pfSd, pfCanc, pfR, pfAnc, pfCore, pfUuids, folderCls] at *
    rw [if_neg hA]
    simp [hcat, hsd0, hd, hu]

theorem processFolder_assign_db_eq {cl : Classifier} {db : CourseDBModel} {t : ℚ}
    {fi : FileIndex} {n : FolderNode} {st : EngState} {m : Nat}
    (hA : ¬ ((pfR cl fi n st).category = Category.skip ∧ t ≤ (pfR cl fi n st).confidence))
    (hsd : pfSd cl fi t n st = false)
    (hdesc : (pfR cl fi n st).folder_description ≠ "") (huu : pfUuids db n ≠ [])
    (hdb : db.update_folder_description_bulk (pfUuids db n)
      (pfR cl fi n st).folder_description = .ok m) :
    processFolder cl db t fi n st = .ok
      (assignFold (pfR cl fi n st) n.path (pfCanc cl fi n st) (collect_all_files n)
        { pfCore cl fi n st with propagation_calls := st.propagation_calls ++
            [(n.path, pfUuids db n, (pfR cl fi n st).folder_description)] }) := by
  have hcat := processFolder_sd_false_cat hsd
  have hsd0 : (!((pfR cl fi n st).is_confident t) || (pfR cl fi n st).is_mixed) = false := by
    rw [pfSd, if_neg hcat] at hsd
    exact hsd
  simp only [processFolder, pfSd, pfCanc, pfR, pfAnc, pfCore, pfUuids, folderCls] at *
  rw [if_neg hA]
  simp only [if_neg hcat, hsd0, if_pos hdesc, if_pos huu]
  rw [hdb]
  simp

theorem processFolder_db_err_eq {cl : Classifier} {db : CourseDBModel} {t : ℚ}
    {fi : FileIndex} {n : FolderNode} {st : EngState} {e : String}
    (hA : ¬ ((pfR cl fi n st).category = Category.skip ∧ t ≤ (pfR cl fi n st).confidence))
    (hsd : pfSd cl fi t n st = false)
    (hdesc : (pfR cl fi n st).folder_description ≠ "") (huu : pfUuids db n ≠ [])
    (hdb : db.update_folder_description_bulk (pfUuids db n)
      (pfR cl fi n st).folder_description = .error e) :
    processFolder cl db t fi n st = .error e := by
  have hcat := processFolder_sd_false_cat hsd
  have hsd0 : (!((pfR cl fi n st).is_confident t) || (pfR cl fi n st).is_mixed) = false := by
    rw [pfSd, if_neg hcat] at hsd
    exact hsd
  simp only [processFolder, pfSd, pfCanc, pfR, pfAnc, pfCore, pfUuids, folderCls] at *
  rw [if_neg hA]
  simp only [if_neg hcat, hsd0, if_pos hdesc, if_pos huu]
  rw [hdb]
  rfl

/- ----------------- invariant preservation: head facts ----------------- -/

theorem engInv_head {t : ℚ} {root : FolderNode} {st : EngState} {i : QItem} {rest : List QItem}
    (hq : st.task_queue = i :: rest) (hInv : EngInv t root st) :
    (∀ k, itemScope i k → k ∉ writtenKeys st) ∧
    (∀ j ∈ rest, ∀ k, itemScope i k → itemScope j k → False) := by
  constructor
  · intro k hk hw
    exact hInv.freshQ i (by rw [hq]; exact List.mem_cons_self _ _) k hw hk
  · have hp := hInv.disjQ
    rw [hq] at hp
    exact fun j hj => (List.pairwise_cons.1 hp).1 j hj

theorem engInv_seen_written {st : EngState} {k : String} (h : k ∈ st.seen) :
    k ∈ writtenKeys st := mem_writtenKeys.2 (Or.inr (Or.inr (Or.inr h)))

theorem engInv_cls_written {st : EngState} {k : String} (h : k ∈ keysOf st.classifications) :
    k ∈ writtenKeys st := mem_writtenKeys.2 (Or.inl h)

theorem engInv_dec_written {st : EngState} {k : String} (h : k ∈ keysOf st.folder_decisions) :
    k ∈ writtenKeys st := mem_writtenKeys.2 (Or.inr (Or.inl h))

theorem engInv_map_written {st : EngState} {k : String} (h : k ∈ keysOf st.mappings) :
    k ∈ writtenKeys st := mem_writtenKeys.2 (Or.inr (Or.inr (Or.inl h)))

/- ----------------- invariant preservation: file step ----------------- -/

theorem engInv_file_step {cl : Classifier} {fi : FileIndex} {t : ℚ} {root : FolderNode}
    {st : EngState} {f : FileMeta} {rest : List QItem}
    (hq : st.task_queue = QItem.file f :: rest) (hInv : EngInv t root st)
    (hfresh : f.source_path ∉ st.seen) :
    EngInv t root
      (processFile cl fi f { st with task_queue := rest, seen := st.seen ++ [f.source_path] }) := by
  have hmemi : QItem.file f ∈ st.task_queue := by
    rw [hq]
    exact List.mem_cons_self _ _
  obtain ⟨hfreshW, hdisjH⟩ := engInv_head hq hInv
  have hspW : f.source_path ∉ writtenKeys st := hfreshW _ rfl
  have hrestq : ∀ j ∈ rest, j ∈ st.task_queue := fun j hj => by
    rw [hq]
    exact List.mem_cons_of_mem _ hj
  have hdisjT : rest.Pairwise (fun i j => ∀ k, itemScope i k → itemScope j k → False) := by
    have hp := hInv.disjQ
    rw [hq] at hp
    exact (List.pairwise_cons.1 hp).2
  have hcallsNew : (st.folder_calls ++
      (st.file_calls ++ [(f.source_path, pfFR cl fi f st)]).map Prod.fst).Nodup := by
    have he : st.folder_calls ++
        ((st.file_calls ++ [(f.source_path, pfFR cl fi f st)]).map Prod.fst) =
        (st.folder_calls ++ st.file_calls.map Prod.fst) ++ [f.source_path] := by
      simp [List.map_append, List.append_assoc]
    rw [he]
    refine nodup_append_singleton hInv.callsNodup ?_
    intro hc
    exact hfresh (hInv.callsSeen _ hc)
  have hcallsSeenNew : ∀ k ∈ st.folder_calls ++
      (st.file_calls ++ [(f.source_path, pfFR cl fi f st)]).map Prod.fst,
      k ∈ st.seen ++ [f.source_path] := by
    intro k hk
    rcases List.mem_append.1 hk with hk | hk
    · exact List.mem_append.2 (Or.inl (hInv.callsSeen k (List.mem_append.2 (Or.inl hk))))
    · rw [List.map_append] at hk
      rcases List.mem_append.1 hk with hk | hk
      · exact List.mem_append.2 (Or.inl (hInv.callsSeen k (List.mem_append.2 (Or.inr hk))))
      · simp at hk
        simp [hk]
  have hseenNodup : (st.seen ++ [f.source_path]).Nodup :=
    nodup_append_singleton hInv.ndSeen hfresh
  have hqKeysNew : ∀ k, k ∈ qKeys st → k ∈ (st.seen ++ [f.source_path]) ∨ k ∈ rest.map QItem.key := by
    intro k hk
    rw [qKeys, hq] at hk
    rcases List.mem_cons.1 hk with hk | hk
    · left
      simp [hk, QItem.key]
    · right
      exact hk
  by_cases hskip :
      (pfFR cl fi f { st with task_queue := rest, seen := st.seen ++ [f.source_path] }).category
        = Category.skip
  · rw [processFile_skip_eq hskip]
    refine
      { wfQ := ?_, treeQ := ?_, fileQ := ?_, disjQ := ?_, freshQ := ?_, ndCls := ?_,
        ndDec := ?_, ndMap := ?_, ndSeen := ?_, callsSeen := ?_, callsNodup := ?_,
        decCalls := ?_, propSeen := ?_, decSeen := ?_, clsSeen := ?_, confSkip := ?_,
        noMixedParent := ?_, descMark := ?_, descChildren := ?_, skipFiles := ?_,
        mapsOk := ?_, parentSeen := ?_ }
    · intro n hn
      exact hInv.wfQ n (hrestq _ hn)
    · intro n hn
      exact hInv.treeQ n (hrestq _ hn)
    · intro g hg
      exact hInv.fileQ g (hrestq _ hg)
    · exact hdisjT
    · intro j hj k hkW hsc
      rcases mem_writtenKeys.1 hkW with h | h | h | h
      · exact hInv.freshQ j (hrestq _ hj) k (engInv_cls_written h) hsc
      · exact hInv.freshQ j (hrestq _ hj) k (engInv_dec_written h) hsc
      · exact hInv.freshQ j (hrestq _ hj) k (engInv_map_written h) hsc
      · rcases List.mem_append.1 h with h | h
        · exact hInv.freshQ j (hrestq _ hj) k (engInv_seen_written h) hsc
        · simp at h
          subst h
          exact hdisjH j hj _ rfl hsc
    · exact hInv.ndCls
    · exact hInv.ndDec
    · exact hInv.ndMap
    · exact hseenNodup
    · exact hcallsSeenNew
    · exact hcallsNew
    · exact hInv.decCalls
    · intro c hc
      exact List.mem_append.2 (Or.inl (hInv.propSeen c hc))
    · intro k hk
      exact List.mem_append.2 (Or.inl (hInv.decSeen k hk))
    · intro k hk
      rcases hInv.clsSeen k hk with h | h
      · exact Or.inl (List.mem_append.2 (Or.inl h))
      · exact Or.inr h
    · intro p r' hlook hcat hconf
      obtain ⟨⟨anc, hcls⟩, hunder, hprop⟩ := hInv.confSkip p r' hlook hcat hconf
      refine ⟨⟨anc, hcls⟩, ?_, hprop⟩
      intro k hk
      obtain ⟨hW, hQ⟩ := hunder k hk
      constructor
      · intro hc
        rcases mem_writtenKeys.1 hc with h | h | h | h
        · exact hW (engInv_cls_written h)
        · exact hW (engInv_dec_written h)
        · exact hW (engInv_map_written h)
        · rcases List.mem_append.1 h with h | h
          · exact hW (engInv_seen_written h)
          · simp at h
            subst h
            exact hQ _ hmemi rfl
      · intro j hj
        exact hQ j (hrestq _ hj)
    · intro p r' hlook hmix k c hc
      exact hInv.noMixedParent p r' hlook hmix k c hc
    · intro p r' hlook hdd
      exact hInv.descMark p r' hlook hdd
    · intro m hm r' hlook hdd
      obtain ⟨hch, hfl⟩ := hInv.descChildren m hm r' hlook hdd
      constructor
      · intro c hc
        rcases hch c hc with h | h
        · exact Or.inl (List.mem_append.2 (Or.inl h))
        · rcases hqKeysNew _ h with h | h
          · exact Or.inl h
          · exact Or.inr h
      · intro fmm hfm
        rcases hfl fmm hfm with h | h
        · exact Or.inl (List.mem_append.2 (Or.inl h))
        · rcases hqKeysNew _ h with h | h
          · exact Or.inl h
          · exact Or.inr h
    · intro pr hpr hsk
      rcases List.mem_append.1 hpr with h | h
      · exact hInv.skipFiles pr h hsk
      · have h' := List.mem_singleton.1 h
        subst h'
        constructor
        · intro hc
          exact hspW (engInv_cls_written hc)
        · intro hc
          exact hspW (engInv_map_written hc)
    · exact hInv.mapsOk
    · intro pr hpr q hq'
      exact List.mem_append.2 (Or.inl (hInv.parentSeen pr hpr q hq'))
  · rw [processFile_go_eq hskip]
    have hcatne : (pfFR cl fi f st).category ≠ Category.skip := hskip
    refine
      { wfQ := ?_, treeQ := ?_, fileQ := ?_, disjQ := ?_, freshQ := ?_, ndCls := ?_,
        ndDec := ?_, ndMap := ?_, ndSeen := ?_, callsSeen := ?_, callsNodup := ?_,
        decCalls := ?_, propSeen := ?_, decSeen := ?_, clsSeen := ?_, confSkip := ?_,
        noMixedParent := ?_, descMark := ?_, descChildren := ?_, skipFiles := ?_,
        mapsOk := ?_, parentSeen := ?_ }
    · intro n hn
      exact hInv.wfQ n (hrestq _ hn)
    · intro n hn
      exact hInv.treeQ n (hrestq _ hn)
    · intro g hg
      exact hInv.fileQ g (hrestq _ hg)
    · exact hdisjT
    · intro j hj k hkW hsc
      rcases mem_writtenKeys.1 hkW with h | h | h | h
      · rcases mem_keysOf_dictInsert.1 h with h | h
        · subst h
          exact hdisjH j hj _ rfl hsc
        · exact hInv.freshQ j (hrestq _ hj) k (engInv_cls_written h) hsc
      · exact hInv.freshQ j (hrestq _ hj) k (engInv_dec_written h) hsc
      · rcases mem_keysOf_dictInsert.1 h with h | h
        · subst h
          exact hdisjH j hj _ rfl hsc
        · exact hInv.freshQ j (hrestq _ hj) k (engInv_map_written h) hsc
      · rcases List.mem_append.1 h with h | h
        · exact hInv.freshQ j (hrestq _ hj) k (engInv_seen_written h) hsc
        · simp at h
          subst h
          exact hdisjH j hj _ rfl hsc
    · exact nodup_keysOf_dictInsert hInv.ndCls
    · exact hInv.ndDec
    · exact nodup_keysOf_dictInsert hInv.ndMap
    · exact hseenNodup
    · exact hcallsSeenNew
    · exact hcallsNew
    · exact hInv.decCalls
    · intro c hc
      exact List.mem_append.2 (Or.inl (hInv.propSeen c hc))
    · intro k hk
      exact List.mem_append.2 (Or.inl (hInv.decSeen k hk))
    · intro k hk
      rcases mem_keysOf_dictInsert.1 hk with h | h
      · subst h
        exact Or.inl (List.mem_append.2 (Or.inr (List.mem_singleton.2 rfl)))
      · rcases hInv.clsSeen k h with h | h
        · exact Or.inl (List.mem_append.2 (Or.inl h))
        · exact Or.inr h
    · intro p r' hlook hcat hconf
      obtain ⟨⟨anc, hcls⟩, hunder, hprop⟩ := hInv.confSkip p r' hlook hcat hconf
      have hpW : p ∈ writtenKeys st := engInv_dec_written (alookup_mem_keys hlook)
      have hpne : p ≠ f.source_path := by
        intro hc
        apply hspW
        rw [← hc]
        exact hpW
      refine ⟨⟨anc, ?_⟩, ?_, hprop⟩
      · rw [alookup_dictInsert_ne _ _ hpne]
        exact hcls
      · intro k hk
        obtain ⟨hW, hQ⟩ := hunder k hk
        constructor
        · intro hc
          rcases mem_writtenKeys.1 hc with h | h | h | h
          · rcases mem_keysOf_dictInsert.1 h with h | h
            · subst h
              exact hQ _ hmemi rfl
            · exact hW (engInv_cls_written h)
          · exact hW (engInv_dec_written h)
          · rcases mem_keysOf_dictInsert.1 h with h | h
            · subst h
              exact hQ _ hmemi rfl
            · exact hW (engInv_map_written h)
          · rcases List.mem_append.1 h with h | h
            · exact hW (engInv_seen_written h)
            · simp at h
              subst h
              exact hQ _ hmemi rfl
        · intro j hj
          exact hQ j (hrestq _ hj)
    · intro p r' hlook hmix k c hc
      have hpW : p ∈ writtenKeys st := engInv_dec_written (alookup_mem_keys hlook)
      have hpne : p ≠ f.source_path := by
        intro hcc
        apply hspW
        rw [← hcc]
        exact hpW
      by_cases hks : k = f.source_path
      · subst hks
        rw [alookup_dictInsert_self] at hc
        cases hc
        intro hcc
        cases hcc
      · rw [alookup_dictInsert_ne _ _ hks] at hc
        exact hInv.noMixedParent p r' hlook hmix k c hc
    · intro p r' hlook hdd
      obtain ⟨anc, hcls⟩ := hInv.descMark p r' hlook hdd
      have hpW : p ∈ writtenKeys st := engInv_dec_written (alookup_mem_keys hlook)
      have hpne : p ≠ f.source_path := by
        intro hc
        apply hspW
        rw [← hc]
        exact hpW
      refine ⟨anc, ?_⟩
      rw [alookup_dictInsert_ne _ _ hpne]
      exact hcls
    · intro m hm r' hlook hdd
      obtain ⟨hch, hfl⟩ := hInv.descChildren m hm r' hlook hdd
      constructor
      · intro c hc
        rcases hch c hc with h | h
        · exact Or.inl (List.mem_append.2 (Or.inl h))
        · rcases hqKeysNew _ h with h | h
          · exact Or.inl h
          · exact Or.inr h
      · intro fmm hfm
        rcases hfl fmm hfm with h | h
        · exact Or.inl (List.mem_append.2 (Or.inl h))
        · rcases hqKeysNew _ h with h | h
          · exact Or.inl h
          · exact Or.inr h
    · intro pr hpr hsk
      rcases List.mem_append.1 hpr with h | h
      · have hprS : pr.1 ∈ st.seen := hInv.callsSeen _ (List.mem_append.2 (Or.inr
          (List.mem_map.2 ⟨pr, h, rfl⟩)))
        have hprW : pr.1 ∈ writtenKeys st := engInv_seen_written hprS
        have hprne : pr.1 ≠ f.source_path := by
          intro hc
          apply hspW
          rw [← hc]
          exact hprW
        obtain ⟨h1, h2⟩ := hInv.skipFiles pr h hsk
        constructor
        · intro hc
          rcases mem_keysOf_dictInsert.1 hc with hc | hc
          · exact hprne hc
          · exact h1 hc
        · intro hc
          rcases mem_keysOf_dictInsert.1 hc with hc | hc
          · exact hprne hc
          · exact h2 hc
      · have h' := List.mem_singleton.1 h
        subst h'
        exact absurd hsk hcatne
    · intro pr hpr
      rcases mem_dictInsert_elim hpr with he | hm
      · subst he
        refine ⟨rfl, hInv.fileQ f hmemi, rfl, rfl, ?_⟩
        refine ⟨fileCls (pfFR cl fi f st) ((alookup st.ancestor_desc_map f.folder_path).getD [])
          f.source_path, ?_, hcatne, rfl, Or.inl rfl⟩
        exact alookup_dictInsert_self _ _ _
      · have h5 := hInv.mapsOk pr hm
        have hprW : pr.1 ∈ writtenKeys st := engInv_map_written
          (List.mem_map.2 ⟨pr, hm, rfl⟩)
        have hprne : pr.1 ≠ f.source_path := by
          intro hc
          apply hspW
          rw [← hc]
          exact hprW
        obtain ⟨ha, hb, hc', hd, c, hcl, hc1, hc2, hc3⟩ := h5
        refine ⟨ha, hb, hc', hd, c, ?_, hc1, hc2, hc3⟩
        rw [alookup_dictInsert_ne _ _ hprne]
        exact hcl
    · intro pr hpr q hq'
      rcases mem_dictInsert_elim hpr with he | hm
      · subst he
        cases hq'
      · exact List.mem_append.2 (Or.inl (hInv.parentSeen pr hm q hq'))

/- ----------------- invariant preservation: folder step ----------------- -/

theorem enq_not_parent {n : FolderNode} (h : WFnode n) :
    ∀ i ∈ pushedItems n, ¬ itemScope i n.path := by
  intro i hi hsc
  rcases List.mem_append.1 hi with hi | hi
  · obtain ⟨c, hc, rfl⟩ := List.mem_map.1 hi
    obtain ⟨nm, _, hcp, hseg, _⟩ := wf_child_facts h hc
    simp only [itemScope] at hsc
    rw [hcp] at hsc
    exact not_inScope_childPath_parent hseg hsc
  · obtain ⟨fmm, hfm, rfl⟩ := List.mem_map.1 hi
    obtain ⟨_, hpf, hseg⟩ := wf_file_facts h hfm
    simp only [itemScope] at hsc
    rw [hpf] at hsc
    exact childPath_ne_parent hseg hsc.symm

theorem folder_head_facts {t : ℚ} {root : FolderNode} {st : EngState} {n : FolderNode}
    {rest : List QItem} (hq : st.task_queue = QItem.folder n :: rest) (hInv : EngInv t root st)
    (hfresh : n.path ∉ st.seen) :
    QItem.folder n ∈ st.task_queue ∧
    (∀ k, inScope n.path k → k ∉ writtenKeys st) ∧
    (∀ j ∈ rest, ∀ k, inScope n.path k → itemScope j k → False) ∧
    (∀ j ∈ rest, j ∈ st.task_queue) ∧
    rest.Pairwise (fun i j => ∀ k, itemScope i k → itemScope j k → False) ∧
    WFnode n ∧ n.path ≠ "." ∧ n ∈ root.subNodes ∧
    n.path ∉ writtenKeys st ∧ (st.seen ++ [n.path]).Nodup := by
  have hmemi : QItem.folder n ∈ st.task_queue := by
    rw [hq]
    exact List.mem_cons_self _ _
  obtain ⟨hfreshW, hdisjH⟩ := engInv_head hq hInv
  refine ⟨hmemi, hfreshW, hdisjH, ?_, ?_, (hInv.wfQ n hmemi).1, (hInv.wfQ n hmemi).2,
    hInv.treeQ n hmemi, hfreshW n.path (inScope_self _), nodup_append_singleton hInv.ndSeen hfresh⟩
  · intro j hj
    rw [hq]
    exact List.mem_cons_of_mem _ hj
  · have hp := hInv.disjQ
    rw [hq] at hp
    exact (List.pairwise_cons.1 hp).2

theorem folder_calls_facts {t : ℚ} {root : FolderNode} {st : EngState} {n : FolderNode}
    (hInv : EngInv t root st) (hfresh : n.path ∉ st.seen) (r : ClassificationResult) :
    (st.folder_calls ++ [n.path] = keysOf (dictInsert n.path r st.folder_decisions)) ∧
    ((st.folder_calls ++ [n.path]) ++ st.file_calls.map Prod.fst).Nodup ∧
    (∀ k ∈ (st.folder_calls ++ [n.path]) ++ st.file_calls.map Prod.fst,
      k ∈ st.seen ++ [n.path]) := by
  have hnpD : n.path ∉ keysOf st.folder_decisions := by
    intro hc
    exact hfresh (hInv.decSeen _ hc)
  have hnpC : n.path ∉ st.folder_calls ++ st.file_calls.map Prod.fst := by
    intro hc
    exact hfresh (hInv.callsSeen _ hc)
  refine ⟨?_, ?_, ?_⟩
  · have hd := hInv.decCalls
    rw [keysOf] at hd
    rw [dictInsert_not_mem r hnpD, keysOf, List.map_append, ← hd]
    rfl
  · have he : (st.folder_calls ++ [n.path]) ++ st.file_calls.map Prod.fst =
        st.folder_calls ++ n.path :: st.file_calls.map Prod.fst := by
      simp
    rw [he, List.nodup_middle]
    refine List.nodup_cons.2 ⟨?_, hInv.callsNodup⟩
    exact hnpC
  · intro k hk
    rcases List.mem_append.1 hk with hk | hk
    · rcases List.mem_append.1 hk with hk | hk
      · exact List.mem_append.2 (Or.inl (hInv.callsSeen k (List.mem_append.2 (Or.inl hk))))
      · exact List.mem_append.2 (Or.inr hk)
    · exact List.mem_append.2 (Or.inl (hInv.callsSeen k (List.mem_append.2 (Or.inr hk))))

theorem engInv_folder_skip {t : ℚ} {root : FolderNode} {st : EngState} {n : FolderNode}
    {rest : List QItem} {r : ClassificationResult} {anc : List String}
    (hq : st.task_queue = QItem.folder n :: rest) (hInv : EngInv t root st)
    (hfresh : n.path ∉ st.seen)
    (hcat : r.category = Category.skip) (hconf : t ≤ r.confidence) :
    EngInv t root
      { st with
        task_queue := rest
        seen := st.seen ++ [n.path]
        folder_decisions := dictInsert n.path r st.folder_decisions
        folder_calls := st.folder_calls ++ [n.path]
        skipped_folders := st.skipped_folders ++ [n.path]
        classifications := dictInsert n.path (skipCls n.path r anc) st.classifications } := by
  obtain ⟨hmemi, hfreshW, hdisjH, hrestq, hdisjT, hwfn, hpne, htree, hnpW, hseenNodup⟩ :=
    folder_head_facts hq hInv hfresh
  obtain ⟨hdecCalls, hcallsNodup, hcallsSeen⟩ := folder_calls_facts hInv hfresh r
  have hnpS : n.path ∉ st.seen := hfresh
  have hneOf : ∀ k, k ∈ writtenKeys st → k ≠ n.path := by
    intro k hk hc
    subst hc
    exact hnpW hk
  have hqKeysNew : ∀ k, k ∈ qKeys st → k ∈ (st.seen ++ [n.path]) ∨ k ∈ rest.map QItem.key := by
    intro k hk
    rw [qKeys, hq] at hk
    rcases List.mem_cons.1 hk with hk | hk
    · left
      simp [hk, QItem.key]
    · right
      exact hk
  refine
    { wfQ := ?_, treeQ := ?_, fileQ := ?_, disjQ := ?_, freshQ := ?_, ndCls := ?_,
      ndDec := ?_, ndMap := ?_, ndSeen := ?_, callsSeen := ?_, callsNodup := ?_,
      decCalls := ?_, propSeen := ?_, decSeen := ?_, clsSeen := ?_, confSkip := ?_,
      noMixedParent := ?_, descMark := ?_, descChildren := ?_, skipFiles := ?_,
      mapsOk := ?_, parentSeen := ?_ }
  · intro m hm
    exact hInv.wfQ m (hrestq _ hm)
  · intro m hm
    exact hInv.treeQ m (hrestq _ hm)
  · intro g hg
    exact hInv.fileQ g (hrestq _ hg)
  · exact hdisjT
  · intro j hj k hkW hsc
    rcases mem_writtenKeys.1 hkW with h | h | h | h
    · rcases mem_keysOf_dictInsert.1 h with h | h
      · subst h
        exact hdisjH j hj _ (inScope_self _) hsc
      · exact hInv.freshQ j (hrestq _ hj) k (engInv_cls_written h) hsc
    · rcases mem_keysOf_dictInsert.1 h with h | h
      · subst h
        exact hdisjH j hj _ (inScope_self _) hsc
      · exact hInv.freshQ j (hrestq _ hj) k (engInv_dec_written h) hsc
    · exact hInv.freshQ j (hrestq _ hj) k (engInv_map_written h) hsc
    · rcases List.mem_append.1 h with h | h
      · exact hInv.freshQ j (hrestq _ hj) k (engInv_seen_written h) hsc
      · simp at h
        subst h
        exact hdisjH j hj _ (inScope_self _) hsc
  · exact nodup_keysOf_dictInsert hInv.ndCls
  · exact nodup_keysOf_dictInsert hInv.ndDec
  · exact hInv.ndMap
  · exact hseenNodup
  · exact hcallsSeen
  · exact hcallsNodup
  · exact hdecCalls
  · intro c hc
    exact List.mem_append.2 (Or.inl (hInv.propSeen c hc))
  · intro k hk
    rcases mem_keysOf_dictInsert.1 hk with h | h
    · subst h
      exact List.mem_append.2 (Or.inr (List.mem_singleton.2 rfl))
    · exact List.mem_append.2 (Or.inl (hInv.decSeen k h))
  · intro k hk
    rcases mem_keysOf_dictInsert.1 hk with h | h
    · subst h
      exact Or.inl (List.mem_append.2 (Or.inr (List.mem_singleton.2 rfl)))
    · rcases hInv.clsSeen k h with h | h
      · exact Or.inl (List.mem_append.2 (Or.inl h))
      · exact Or.inr h
  · intro p r' hlook hcat' hconf'
    by_cases hp : p = n.path
    · subst hp
      rw [alookup_dictInsert_self] at hlook
      cases hlook
      refine ⟨⟨anc, ?_⟩, ?_, ?_⟩
      · exact alookup_dictInsert_self _ _ _
      · intro k hk
        have hkne : k ≠ n.path := by
          intro he
          subst he
          exact not_pathUnder_self _ hk
        constructor
        · intro hc
          rcases mem_writtenKeys.1 hc with h | h | h | h
          · rcases mem_keysOf_dictInsert.1 h with h | h
            · exact hkne h
            · exact hfreshW k (Or.inr hk) (engInv_cls_written h)
          · rcases mem_keysOf_dictInsert.1 h with h | h
            · exact hkne h
            · exact hfreshW k (Or.inr hk) (engInv_dec_written h)
          · exact hfreshW k (Or.inr hk) (engInv_map_written h)
          · rcases List.mem_append.1 h with h | h
            · exact hfreshW k (Or.inr hk) (engInv_seen_written h)
            · simp at h
              exact hkne h
        · intro j hj hsc
          exact hdisjH j hj k (Or.inr hk) hsc
      · intro c hc hcc
        apply hnpS
        rw [← hcc]
        exact hInv.propSeen c hc
    · rw [alookup_dictInsert_ne _ _ hp] at hlook
      obtain ⟨⟨anc', hcls⟩, hunder, hprop⟩ := hInv.confSkip p r' hlook hcat' hconf'
      refine ⟨⟨anc', ?_⟩, ?_, hprop⟩
      · rw [alookup_dictInsert_ne _ _ hp]
        exact hcls
      · intro k hk
        obtain ⟨hW, hQ⟩ := hunder k hk
        constructor
        · intro hc
          rcases mem_writtenKeys.1 hc with h | h | h | h
          · rcases mem_keysOf_dictInsert.1 h with h | h
            · subst h
              exact hQ _ hmemi (inScope_self _)
            · exact hW (engInv_cls_written h)
          · rcases mem_keysOf_dictInsert.1 h with h | h
            · subst h
              exact hQ _ hmemi (inScope_self _)
            · exact hW (engInv_dec_written h)
          · exact hW (engInv_map_written h)
          · rcases List.mem_append.1 h with h | h
            · exact hW (engInv_seen_written h)
            · simp at h
              subst h
              exact hQ _ hmemi (inScope_self _)
        · intro j hj
          exact hQ j (hrestq _ hj)
  · intro p r' hlook hmix k c hc
    by_cases hks : k = n.path
    · subst hks
      rw [alookup_dictInsert_self] at hc
      cases hc
      intro hcc
      cases hcc
    · rw [alookup_dictInsert_ne _ _ hks] at hc
      by_cases hp : p = n.path
      · subst hp
        intro hcc
        exact hnpS (hInv.parentSeen (k, c) (alookup_mem hc) _ hcc)
      · rw [alookup_dictInsert_ne _ _ hp] at hlook
        exact hInv.noMixedParent p r' hlook hmix k c hc
  · intro p r' hlook hdd
    by_cases hp : p = n.path
    · subst hp
      rw [alookup_dictInsert_self] at hlook
      cases hlook
      exact absurd ⟨hcat, hconf⟩ hdd.2
    · rw [alookup_dictInsert_ne _ _ hp] at hlook
      obtain ⟨anc', hcls⟩ := hInv.descMark p r' hlook hdd
      refine ⟨anc', ?_⟩
      rw [alookup_dictInsert_ne _ _ hp]
      exact hcls
  · intro m hm r' hlook hdd
    by_cases hp : m.path = n.path
    · rw [hp, alookup_dictInsert_self] at hlook
      cases hlook
      exact absurd ⟨hcat, hconf⟩ hdd.2
    · rw [alookup_dictInsert_ne _ _ hp] at hlook
      obtain ⟨hch, hfl⟩ := hInv.descChildren m hm r' hlook hdd
      constructor
      · intro c hc
        rcases hch c hc with h | h
        · exact Or.inl (List.mem_append.2 (Or.inl h))
        · rcases hqKeysNew _ h with h | h
          · exact Or.inl h
          · exact Or.inr h
      · intro fmm hfm
        rcases hfl fmm hfm with h | h
        · exact Or.inl (List.mem_append.2 (Or.inl h))
        · rcases hqKeysNew _ h with h | h
          · exact Or.inl h
          · exact Or.inr h
  · intro pr hpr hsk
    obtain ⟨h1, h2⟩ := hInv.skipFiles pr hpr hsk
    have hprS : pr.1 ∈ st.seen := hInv.callsSeen _ (List.mem_append.2 (Or.inr
      (List.mem_map.2 ⟨pr, hpr, rfl⟩)))
    have hprne : pr.1 ≠ n.path := by
      intro hc
      apply hnpS
      rw [← hc]
      exact hprS
    constructor
    · intro hc
      rcases mem_keysOf_dictInsert.1 hc with hc | hc
      · exact hprne hc
      · exact h1 hc
    · exact h2
  · intro pr hpr
    obtain ⟨ha, hb, hc', hd, c, hcl, hc1, hc2, hc3⟩ := hInv.mapsOk pr hpr
    have hprW : pr.1 ∈ writtenKeys st := engInv_map_written (List.mem_map.2 ⟨pr, hpr, rfl⟩)
    have hprne : pr.1 ≠ n.path := hneOf _ hprW
    refine ⟨ha, hb, hc', hd, c, ?_, hc1, hc2, hc3⟩
    rw [alookup_dictInsert_ne _ _ hprne]
    exact hcl
  · intro pr hpr q hq'
    rcases mem_dictInsert_elim hpr with he | hm
    · subst he
      cases hq'
    · exact List.mem_append.2 (Or.inl (hInv.parentSeen pr hm q hq'))

theorem engInv_folder_descend {t : ℚ} {root : FolderNode} {st : EngState} {n : FolderNode}
    {rest : List QItem} {r : ClassificationResult} {anc canc : List String} {sk : List String}
    (hq : st.task_queue = QItem.folder n :: rest) (hInv : EngInv t root st)
    (hfresh : n.path ∉ st.seen) (hwfroot : WFnode root) (hrootp : root.path = ".")
    (hB : ¬ (r.category = Category.skip ∧ t ≤ r.confidence)) :
    EngInv t root
      { st with
        task_queue := rest ++ pushedItems n
        seen := st.seen ++ [n.path]
        folder_decisions := dictInsert n.path r st.folder_decisions
        folder_calls := st.folder_calls ++ [n.path]
        skipped_folders := st.skipped_folders ++ sk
        classifications := dictInsert n.path (folderCls n.path r true anc) st.classifications
        ancestor_desc_map := dictInsert n.path canc
          (ancFold canc n.children.nodes st.ancestor_desc_map) } := by
  obtain ⟨hmemi, hfreshW, hdisjH, hrestq, hdisjT, hwfn, hpne, htree, hnpW, hseenNodup⟩ :=
    folder_head_facts hq hInv hfresh
  obtain ⟨hdecCalls, hcallsNodup, hcallsSeen⟩ := folder_calls_facts hInv hfresh r
  have hnpS : n.path ∉ st.seen := hfresh
  have hneOf : ∀ k, k ∈ writtenKeys st → k ≠ n.path := by
    intro k hk hc
    subst hc
    exact hnpW hk
  have hqKeysNewB : ∀ k, k ∈ qKeys st →
      k ∈ (st.seen ++ [n.path]) ∨ k ∈ (rest ++ pushedItems n).map QItem.key := by
    intro k hk
    rw [qKeys, hq] at hk
    rcases List.mem_cons.1 hk with hk | hk
    · left
      simp [hk, QItem.key]
    · right
      rw [List.map_append]
      exact List.mem_append.2 (Or.inl hk)
  refine
    { wfQ := ?_, treeQ := ?_, fileQ := ?_, disjQ := ?_, freshQ := ?_, ndCls := ?_,
      ndDec := ?_, ndMap := ?_, ndSeen := ?_, callsSeen := ?_, callsNodup := ?_,
      decCalls := ?_, propSeen := ?_, decSeen := ?_, clsSeen := ?_, confSkip := ?_,
      noMixedParent := ?_, descMark := ?_, descChildren := ?_, skipFiles := ?_,
      mapsOk := ?_, parentSeen := ?_ }
  · intro m hm
    rcases List.mem_append.1 hm with h | h
    · exact hInv.wfQ m (hrestq _ h)
    · rcases List.mem_append.1 h with h | h
      · obtain ⟨c, hc, he⟩ := List.mem_map.1 h
        injection he with he'
        subst he'
        obtain ⟨nm, _, hcp, hseg, hcwf⟩ := wf_child_facts hwfn hc
        exact ⟨hcwf, child_path_ne_dot hwfn hc⟩
      · obtain ⟨fm, hfm, he⟩ := List.mem_map.1 h
        cases he
  · intro m hm
    rcases List.mem_append.1 hm with h | h
    · exact hInv.treeQ m (hrestq _ h)
    · rcases List.mem_append.1 h with h | h
      · obtain ⟨c, hc, he⟩ := List.mem_map.1 h
        injection he with he'
        subst he'
        exact subNodes_trans htree (subNodes_decomp.2 (Or.inr ⟨c, hc, self_mem_subNodes c⟩))
      · obtain ⟨fm, hfm, he⟩ := List.mem_map.1 h
        cases he
  · intro g hg
    rcases List.mem_append.1 hg with h | h
    · exact hInv.fileQ g (hrestq _ h)
    · rcases List.mem_append.1 h with h | h
      · obtain ⟨c, hc, he⟩ := List.mem_map.1 h
        cases he
      · obtain ⟨fm, hfm, he⟩ := List.mem_map.1 h
        injection he with he'
        subst he'
        exact List.mem_map.2 ⟨fm, subFiles_mono htree (subFiles_decomp.2 (Or.inl hfm)), rfl⟩
  · refine List.pairwise_append.2 ⟨hdisjT, enq_pairwise hwfn, ?_⟩
    intro a ha b hb k h1 h2
    exact hdisjH a ha k (enq_scope_sub hwfn hpne b hb k h2) h1
  · intro j hj k hkW hsc
    rcases List.mem_append.1 hj with hj | hj
    · rcases mem_writtenKeys.1 hkW with h | h | h | h
      · rcases mem_keysOf_dictInsert.1 h with h | h
        · subst h
          exact hdisjH j hj _ (inScope_self _) hsc
        · exact hInv.freshQ j (hrestq _ hj) k (engInv_cls_written h) hsc
      · rcases mem_keysOf_dictInsert.1 h with h | h
        · subst h
          exact hdisjH j hj _ (inScope_self _) hsc
        · exact hInv.freshQ j (hrestq _ hj) k (engInv_dec_written h) hsc
      · exact hInv.freshQ j (hrestq _ hj) k (engInv_map_written h) hsc
      · rcases List.mem_append.1 h with h | h
        · exact hInv.freshQ j (hrestq _ hj) k (engInv_seen_written h) hsc
        · simp at h
          subst h
          exact hdisjH j hj _ (inScope_self _) hsc
    · have hscope : inScope n.path k := enq_scope_sub hwfn hpne j hj k hsc
      rcases mem_writtenKeys.1 hkW with h | h | h | h
      · rcases mem_keysOf_dictInsert.1 h with h | h
        · subst h
          exact enq_not_parent hwfn j hj hsc
        · exact hfreshW k hscope (engInv_cls_written h)
      · rcases mem_keysOf_dictInsert.1 h with h | h
        · subst h
          exact enq_not_parent hwfn j hj hsc
        · exact hfreshW k hscope (engInv_dec_written h)
      · exact hfreshW k hscope (engInv_map_written h)
      · rcases List.mem_append.1 h with h | h
        · exact hfreshW k hscope (engInv_seen_written h)
        · simp at h
          subst h
          exact enq_not_parent hwfn j hj hsc
  · exact nodup_keysOf_dictInsert hInv.ndCls
  · exact nodup_keysOf_dictInsert hInv.ndDec
  · exact hInv.ndMap
  · exact hseenNodup
  · exact hcallsSeen
  · exact hcallsNodup
  · exact hdecCalls
  · intro c hc
    exact List.mem_append.2 (Or.inl (hInv.propSeen c hc))
  · intro k hk
    rcases mem_keysOf_dictInsert.1 hk with h | h
    · subst h
      exact List.mem_append.2 (Or.inr (List.mem_singleton.2 rfl))
    · exact List.mem_append.2 (Or.inl (hInv.decSeen k h))
  · intro k hk
    rcases mem_keysOf_dictInsert.1 hk with h | h
    · subst h
      exact Or.inl (List.mem_append.2 (Or.inr (List.mem_singleton.2 rfl)))
    · rcases hInv.clsSeen k h with h | h
      · exact Or.inl (List.mem_append.2 (Or.inl h))
      · exact Or.inr h
  · intro p r' hlook hcat' hconf'
    by_cases hp : p = n.path
    · subst hp
      rw [alookup_dictInsert_self] at hlook
      cases hlook
      exact absurd ⟨hcat', hconf'⟩ hB
    · rw [alookup_dictInsert_ne _ _ hp] at hlook
      obtain ⟨⟨anc', hcls⟩, hunder, hprop⟩ := hInv.confSkip p r' hlook hcat' hconf'
      refine ⟨⟨anc', ?_⟩, ?_, hprop⟩
      · rw [alookup_dictInsert_ne _ _ hp]
        exact hcls
      · intro k hk
        obtain ⟨hW, hQ⟩ := hunder k hk
        constructor
        · intro hc
          rcases mem_writtenKeys.1 hc with h | h | h | h
          · rcases mem_keysOf_dictInsert.1 h with h | h
            · subst h
              exact hQ _ hmemi (inScope_self _)
            · exact hW (engInv_cls_written h)
          · rcases mem_keysOf_dictInsert.1 h with h | h
            · subst h
              exact hQ _ hmemi (inScope_self _)
            · exact hW (engInv_dec_written h)
          · exact hW (engInv_map_written h)
          · rcases List.mem_append.1 h with h | h
            · exact hW (engInv_seen_written h)
            · simp at h
              subst h
              exact hQ _ hmemi (inScope_self _)
        · intro j hj
          rcases List.mem_append.1 hj with hj | hj
          · exact hQ j (hrestq _ hj)
          · intro hsc
            exact hQ _ hmemi (enq_scope_sub hwfn hpne j hj k hsc)
  · intro p r' hlook hmix k c hc
    by_cases hks : k = n.path
    · subst hks
      rw [alookup_dictInsert_self] at hc
      cases hc
      intro hcc
      cases hcc
    · rw [alookup_dictInsert_ne _ _ hks] at hc
      by_cases hp : p = n.path
      · subst hp
        intro hcc
        exact hnpS (hInv.parentSeen (k, c) (alookup_mem hc) _ hcc)
      · rw [alookup_dictInsert_ne _ _ hp] at hlook
        exact hInv.noMixedParent p r' hlook hmix k c hc
  · intro p r' hlook hdd
    by_cases hp : p = n.path
    · subst hp
      rw [alookup_dictInsert_self] at hlook
      cases hlook
      refine ⟨anc, ?_⟩
      rw [alookup_dictInsert_self]
      rfl
    · rw [alookup_dictInsert_ne _ _ hp] at hlook
      obtain ⟨anc', hcls⟩ := hInv.descMark p r' hlook hdd
      refine ⟨anc', ?_⟩
      rw [alookup_dictInsert_ne _ _ hp]
      exact hcls
  · intro m hm r' hlook hdd
    by_cases hp : m.path = n.path
    · have hmn : m = n := root_path_inj hwfroot hrootp m hm n htree hp
      subst hmn
      constructor
      · intro c hc
        right
        refine List.mem_map.2 ⟨QItem.folder c, ?_, rfl⟩
        exact List.mem_append.2 (Or.inr (List.mem_append.2 (Or.inl (List.mem_map.2 ⟨c, hc, rfl⟩))))
      · intro fm hfm
        right
        refine List.mem_map.2 ⟨QItem.file fm, ?_, rfl⟩
        exact List.mem_append.2 (Or.inr (List.mem_append.2 (Or.inr (List.mem_map.2 ⟨fm, hfm, rfl⟩))))
    · rw [alookup_dictInsert_ne _ _ hp] at hlook
      obtain ⟨hch, hfl⟩ := hInv.descChildren m hm r' hlook hdd
      constructor
      · intro c hc
        rcases hch c hc with h | h
        · exact Or.inl (List.mem_append.2 (Or.inl h))
        · rcases hqKeysNewB _ h with h | h
          · exact Or.inl h
          · exact Or.inr h
      · intro fm hfm
        rcases hfl fm hfm with h | h
        · exact Or.inl (List.mem_append.2 (Or.inl h))
        · rcases hqKeysNewB _ h with h | h
          · exact Or.inl h
          · exact Or.inr h
  · intro pr hpr hsk
    obtain ⟨h1, h2⟩ := hInv.skipFiles pr hpr hsk
    have hprS : pr.1 ∈ st.seen := hInv.callsSeen _ (List.mem_append.2 (Or.inr
      (List.mem_map.2 ⟨pr, hpr, rfl⟩)))
    have hprne : pr.1 ≠ n.path := by
      intro hc
      apply hnpS
      rw [← hc]
      exact hprS
    constructor
    · intro hc
      rcases mem_keysOf_dictInsert.1 hc with hc | hc
      · exact hprne hc
      · exact h1 hc
    · exact h2
  · intro pr hpr
    obtain ⟨ha, hb, hc', hd, c, hcl, hc1, hc2, hc3⟩ := hInv.mapsOk pr hpr
    have hprW : pr.1 ∈ writtenKeys st := engInv_map_written (List.mem_map.2 ⟨pr, hpr, rfl⟩)
    have hprne : pr.1 ≠ n.path := hneOf _ hprW
    refine ⟨ha, hb, hc', hd, c, ?_, hc1, hc2, hc3⟩
    rw [alookup_dictInsert_ne _ _ hprne]
    exact hcl
  · intro pr hpr q hq'
    rcases mem_dictInsert_elim hpr with he | hm
    · subst he
      cases hq'
    · exact List.mem_append.2 (Or.inl (hInv.parentSeen pr hm q hq'))

theorem engInv_folder_assign {t : ℚ} {root : FolderNode} {st : EngState} {n : FolderNode}
    {rest : List QItem} {r : ClassificationResult} {anc canc : List String} {stC : EngState}
    (hq : st.task_queue = QItem.folder n :: rest) (hInv : EngInv t root st)
    (hfresh : n.path ∉ st.seen)
    (hcat : r.category ≠ Category.skip) (hmix : r.is_mixed = false)
    (hce : stC.classifications =
      dictInsert n.path (folderCls n.path r false anc) st.classifications)
    (hde : stC.folder_decisions = dictInsert n.path r st.folder_decisions)
    (hse : stC.seen = st.seen ++ [n.path])
    (hqe : stC.task_queue = rest)
    (hfce : stC.folder_calls = st.folder_calls ++ [n.path])
    (hfle : stC.file_calls = st.file_calls)
    (hme : stC.mappings = st.mappings)
    (hpe : ∀ c ∈ stC.propagation_calls, c ∈ st.propagation_calls ∨ c.1 = n.path) :
    EngInv t root (assignFold r n.path canc (collect_all_files n) stC) := by
  obtain ⟨hmemi, hfreshW, hdisjH, hrestq, hdisjT, hwfn, hpne, htree, hnpW, hseenNodup⟩ :=
    folder_head_facts hq hInv hfresh
  obtain ⟨hdecCalls, hcallsNodup, hcallsSeen⟩ := folder_calls_facts hInv hfresh r
  obtain ⟨hFdec, hFsk, hFseen, hFanc, hFq, hFfc, hFfl, hFpc⟩ :=
    assignFold_fields r n.path canc (collect_all_files n) stC
  have hnpS : n.path ∉ st.seen := hfresh
  have hneOf : ∀ k, k ∈ writtenKeys st → k ≠ n.path := by
    intro k hk hc
    subst hc
    exact hnpW hk
  have hqKeysNew : ∀ k, k ∈ qKeys st → k ∈ (st.seen ++ [n.path]) ∨ k ∈ rest.map QItem.key := by
    intro k hk
    rw [qKeys, hq] at hk
    rcases List.mem_cons.1 hk with hk | hk
    · left
      simp [hk, QItem.key]
    · right
      exact hk
  have hfkS : ∀ k ∈ (collect_all_files n).map FileMeta.source_path, inScope n.path k := by
    intro k hk
    obtain ⟨fm, hfm, rfl⟩ := List.mem_map.1 hk
    exact subFiles_inScope hwfn hpne (collect_mem.1 hfm)
  have hfkR : ∀ k ∈ (collect_all_files n).map FileMeta.source_path,
      k ∈ root.subFiles.map FileMeta.source_path := by
    intro k hk
    obtain ⟨fm, hfm, rfl⟩ := List.mem_map.1 hk
    exact List.mem_map.2 ⟨fm, subFiles_mono htree (collect_mem.1 hfm), rfl⟩
  have hfkW : ∀ k ∈ (collect_all_files n).map FileMeta.source_path, k ∉ writtenKeys st := by
    intro k hk
    exact hfreshW k (hfkS k hk)
  refine
    { wfQ := ?_, treeQ := ?_, fileQ := ?_, disjQ := ?_, freshQ := ?_, ndCls := ?_,
      ndDec := ?_, ndMap := ?_, ndSeen := ?_, callsSeen := ?_, callsNodup := ?_,
      decCalls := ?_, propSeen := ?_, decSeen := ?_, clsSeen := ?_, confSkip := ?_,
      noMixedParent := ?_, descMark := ?_, descChildren := ?_, skipFiles := ?_,
      mapsOk := ?_, parentSeen := ?_ }
  · intro m hm
    rw [hFq, hqe] at hm
    exact hInv.wfQ m (hrestq _ hm)
  · intro m hm
    rw [hFq, hqe] at hm
    exact hInv.treeQ m (hrestq _ hm)
  · intro g hg
    rw [hFq, hqe] at hg
    exact hInv.fileQ g (hrestq _ hg)
  · rw [hFq, hqe]
    exact hdisjT
  · intro j hj k hkW hsc
    rw [hFq, hqe] at hj
    rcases mem_writtenKeys.1 hkW with h | h | h | h
    · rcases (assignFold_keys_cls r n.path canc (collect_all_files n) _ k).1 h with h | h
      · rw [hce] at h
        rcases mem_keysOf_dictInsert.1 h with h | h
        · subst h
          exact hdisjH j hj _ (inScope_self _) hsc
        · exact hInv.freshQ j (hrestq _ hj) k (engInv_cls_written h) hsc
      · exact hdisjH j hj k (hfkS k h) hsc
    · rw [hFdec, hde] at h
      rcases mem_keysOf_dictInsert.1 h with h | h
      · subst h
        exact hdisjH j hj _ (inScope_self _) hsc
      · exact hInv.freshQ j (hrestq _ hj) k (engInv_dec_written h) hsc
    · rcases (assignFold_keys_map r n.path canc (collect_all_files n) _ k).1 h with h | h
      · rw [hme] at h
        exact hInv.freshQ j (hrestq _ hj) k (engInv_map_written h) hsc
      · exact hdisjH j hj k (hfkS k h) hsc
    · rw [hFseen, hse] at h
      rcases List.mem_append.1 h with h | h
      · exact hInv.freshQ j (hrestq _ hj) k (engInv_seen_written h) hsc
      · simp at h
        subst h
        exact hdisjH j hj _ (inScope_self _) hsc
  · refine assignFold_nd_cls r n.path canc (collect_all_files n) _ ?_
    rw [hce]
    exact nodup_keysOf_dictInsert hInv.ndCls
  · rw [hFdec, hde]
    exact nodup_keysOf_dictInsert hInv.ndDec
  · refine assignFold_nd_map r n.path canc (collect_all_files n) _ ?_
    rw [hme]
    exact hInv.ndMap
  · rw [hFseen, hse]
    exact hseenNodup
  · rw [hFfc, hFfl, hFseen, hfce, hfle, hse]
    exact hcallsSeen
  · rw [hFfc, hFfl, hfce, hfle]
    exact hcallsNodup
  · rw [hFfc, hFdec, hfce, hde]
    exact hdecCalls
  · intro c hc
    rw [hFpc] at hc
    rw [hFseen, hse]
    rcases hpe c hc with h | h
    · exact List.mem_append.2 (Or.inl (hInv.propSeen c h))
    · rw [h]
      exact List.mem_append.2 (Or.inr (List.mem_singleton.2 rfl))
  · rw [hFdec, hFseen, hde, hse]
    intro k hk
    rcases mem_keysOf_dictInsert.1 hk with h | h
    · subst h
      exact List.mem_append.2 (Or.inr (List.mem_singleton.2 rfl))
    · exact List.mem_append.2 (Or.inl (hInv.decSeen k h))
  · intro k hk
    rcases (assignFold_keys_cls r n.path canc (collect_all_files n) _ k).1 hk with h | h
    · rw [hce] at h
      rcases mem_keysOf_dictInsert.1 h with h | h
      · subst h
        left
        rw [hFseen, hse]
        exact List.mem_append.2 (Or.inr (List.mem_singleton.2 rfl))
      · rcases hInv.clsSeen k h with h | h
        · left
          rw [hFseen, hse]
          exact List.mem_append.2 (Or.inl h)
        · exact Or.inr h
    · exact Or.inr (hfkR k h)
  · intro p r' hlook hcat' hconf'
    rw [hFdec, hde] at hlook
    by_cases hp : p = n.path
    · subst hp
      rw [alookup_dictInsert_self] at hlook
      cases hlook
      exact absurd hcat' hcat
    · rw [alookup_dictInsert_ne _ _ hp] at hlook
      obtain ⟨⟨anc', hcls⟩, hunder, hprop⟩ := hInv.confSkip p r' hlook hcat' hconf'
      have hpW : p ∈ writtenKeys st := engInv_dec_written (alookup_mem_keys hlook)
      have hpf : p ∉ (collect_all_files n).map FileMeta.source_path := fun hc => hfkW p hc hpW
      refine ⟨⟨anc', ?_⟩, ?_, ?_⟩
      · rw [assignFold_cls_lookup_not_mem r n.path canc (collect_all_files n) _ p hpf, hce,
          alookup_dictInsert_ne _ _ hp]
        exact hcls
      · intro k hk
        obtain ⟨hW, hQ⟩ := hunder k hk
        have hkn : ¬ inScope n.path k := fun hsc => hQ _ hmemi hsc
        constructor
        · intro hc
          rcases mem_writtenKeys.1 hc with h | h | h | h
          · rcases (assignFold_keys_cls r n.path canc (collect_all_files n) _ k).1 h with h | h
            · rw [hce] at h
              rcases mem_keysOf_dictInsert.1 h with h | h
              · subst h
                exact hkn (inScope_self _)
              · exact hW (engInv_cls_written h)
            · exact hkn (hfkS k h)
          · rw [hFdec, hde] at h
            rcases mem_keysOf_dictInsert.1 h with h | h
            · subst h
              exact hkn (inScope_self _)
            · exact hW (engInv_dec_written h)
          · rcases (assignFold_keys_map r n.path canc (collect_all_files n) _ k).1 h with h | h
            · rw [hme] at h
              exact hW (engInv_map_written h)
            · exact hkn (hfkS k h)
          · rw [hFseen, hse] at h
            rcases List.mem_append.1 h with h | h
            · exact hW (engInv_seen_written h)
            · simp at h
              subst h
              exact hkn (inScope_self _)
        · intro j hj
          rw [hFq, hqe] at hj
          exact hQ j (hrestq _ hj)
      · intro c hc
        rw [hFpc] at hc
        rcases hpe c hc with h | h
        · exact hprop c h
        · rw [h]
          exact fun hcc => hp hcc.symm
  · intro p r' hlook hmix' k c hc
    rw [hFdec, hde] at hlook
    by_cases hp : p = n.path
    · subst hp
      rw [alookup_dictInsert_self] at hlook
      cases hlook
      rw [hmix] at hmix'
      cases hmix'
    · rw [alookup_dictInsert_ne _ _ hp] at hlook
      by_cases hkf : k ∈ (collect_all_files n).map FileMeta.source_path
      · rw [assignFold_cls_lookup_mem r n.path canc (collect_all_files n) _ k hkf] at hc
        cases hc
        intro hcc
        injection hcc with h
        exact hp h.symm
      · rw [assignFold_cls_lookup_not_mem r n.path canc (collect_all_files n) _ k hkf, hce] at hc
        by_cases hks : k = n.path
        · subst hks
          rw [alookup_dictInsert_self] at hc
          cases hc
          intro hcc
          cases hcc
        · rw [alookup_dictInsert_ne _ _ hks] at hc
          exact hInv.noMixedParent p r' hlook hmix' k c hc
  · intro p r' hlook hdd
    rw [hFdec, hde] at hlook
    by_cases hp : p = n.path
    · subst hp
      rw [alookup_dictInsert_self] at hlook
      cases hlook
      have h1 := hdd.1
      rw [hmix] at h1
      cases h1
    · rw [alookup_dictInsert_ne _ _ hp] at hlook
      obtain ⟨anc', hcls⟩ := hInv.descMark p r' hlook hdd
      have hpW : p ∈ writtenKeys st := engInv_dec_written (alookup_mem_keys hlook)
      have hpf : p ∉ (collect_all_files n).map FileMeta.source_path := fun hc => hfkW p hc hpW
      refine ⟨anc', ?_⟩
      rw [assignFold_cls_lookup_not_mem r n.path canc (collect_all_files n) _ p hpf, hce,
        alookup_dictInsert_ne _ _ hp]
      exact hcls
  · intro m hm r' hlook hdd
    rw [hFdec, hde] at hlook
    by_cases hp : m.path = n.path
    · rw [hp, alookup_dictInsert_self] at hlook
      cases hlook
      have h1 := hdd.1
      rw [hmix] at h1
      cases h1
    · rw [alookup_dictInsert_ne _ _ hp] at hlook
      obtain ⟨hch, hfl⟩ := hInv.descChildren m hm r' hlook hdd
      constructor
      · intro c hc
        rcases hch c hc with h | h
        · left
          rw [hFseen, hse]
          exact List.mem_append.2 (Or.inl h)
        · rcases hqKeysNew _ h with h | h
          · left
            rw [hFseen, hse]
            exact h
          · right
            simp only [qKeys]
            rw [hFq, hqe]
            exact h
      · intro fm hfm
        rcases hfl fm hfm with h | h
        · left
          rw [hFseen, hse]
          exact List.mem_append.2 (Or.inl h)
        · rcases hqKeysNew _ h with h | h
          · left
            rw [hFseen, hse]
            exact h
          · right
            simp only [qKeys]
            rw [hFq, hqe]
            exact h
  · intro pr hpr hsk
    rw [hFfl, hfle] at hpr
    obtain ⟨h1, h2⟩ := hInv.skipFiles pr hpr hsk
    have hprS : pr.1 ∈ st.seen := hInv.callsSeen _ (List.mem_append.2 (Or.inr
      (List.mem_map.2 ⟨pr, hpr, rfl⟩)))
    have hprW : pr.1 ∈ writtenKeys st := engInv_seen_written hprS
    have hprne : pr.1 ≠ n.path := hneOf _ hprW
    have hprf : pr.1 ∉ (collect_all_files n).map FileMeta.source_path :=
      fun hc => hfkW _ hc hprW
    constructor
    · intro hc
      rcases (assignFold_keys_cls r n.path canc (collect_all_files n) _ pr.1).1 hc with h | h
      · rw [hce] at h
        rcases mem_keysOf_dictInsert.1 h with h | h
        · exact hprne h
        · exact h1 h
      · exact hprf h
    · intro hc
      rcases (assignFold_keys_map r n.path canc (collect_all_files n) _ pr.1).1 hc with h | h
      · rw [hme] at h
        exact h2 h
      · exact hprf h
  · intro pr hpr
    rcases assignFold_map_mem r n.path canc (collect_all_files n) _ pr hpr with h | ⟨fm, hfm, he⟩
    · rw [hme] at h
      obtain ⟨ha, hb, hc', hd, c, hcl, hc1, hc2, hc3⟩ := hInv.mapsOk pr h
      have hprW : pr.1 ∈ writtenKeys st := engInv_map_written (List.mem_map.2 ⟨pr, h, rfl⟩)
      have hprne : pr.1 ≠ n.path := hneOf _ hprW
      have hprf : pr.1 ∉ (collect_all_files n).map FileMeta.source_path :=
        fun hcc => hfkW _ hcc hprW
      refine ⟨ha, hb, hc', hd, c, ?_, hc1, hc2, hc3⟩
      rw [assignFold_cls_lookup_not_mem r n.path canc (collect_all_files n) _ pr.1 hprf, hce,
        alookup_dictInsert_ne _ _ hprne]
      exact hcl
    · subst he
      have hin : fm.source_path ∈ (collect_all_files n).map FileMeta.source_path :=
        List.mem_map.2 ⟨fm, hfm, rfl⟩
      refine ⟨rfl, hfkR _ hin, rfl, rfl, ?_⟩
      refine ⟨inheritedCls r n.path canc fm.source_path, ?_, ?_, rfl, ?_⟩
      · exact assignFold_cls_lookup_mem r n.path canc (collect_all_files n) _ fm.source_path hin
      · exact hcat
      · right
        intro hcc
        cases hcc
  · intro pr hpr q hq'
    rcases assignFold_cls_mem r n.path canc (collect_all_files n) _ pr hpr with h | ⟨fm, hfm, he⟩
    · rw [hce] at h
      rcases mem_dictInsert_elim h with he | hm
      · subst he
        cases hq'
      · rw [hFseen, hse]
        exact List.mem_append.2 (Or.inl (hInv.parentSeen pr hm q hq'))
    · subst he
      injection hq' with h
      subst h
      rw [hFseen, hse]
      exact List.mem_append.2 (Or.inr (List.mem_singleton.2 rfl))

theorem engInv_folder_step {cl : Classifier} {db : CourseDBModel} {fi : FileIndex} {t : ℚ}
    {root : FolderNode} {st st' : EngState} {n : FolderNode} {rest : List QItem}
    (hq : st.task_queue = QItem.folder n :: rest) (hInv : EngInv t root st)
    (hfresh : n.path ∉ st.seen) (hwfroot : WFnode root) (hrootp : root.path = ".")
    (h : processFolder cl db t fi n
      { st with task_queue := rest, seen := st.seen ++ [n.path] } = .ok st') :
    EngInv t root st' := by
  by_cases hA :
      (pfR cl fi n { st with task_queue := rest, seen := st.seen ++ [n.path] }).category =
        Category.skip ∧
      t ≤ (pfR cl fi n { st with task_queue := rest, seen := st.seen ++ [n.path] }).confidence
  · rw [processFolder_skip_eq hA] at h
    injection h with h'
    subst h'
    exact engInv_folder_skip hq hInv hfresh hA.1 hA.2
  · by_cases hsd : pfSd cl fi t n { st with task_queue := rest, seen := st.seen ++ [n.path] } = true
    · rw [processFolder_descend_eq hA hsd] at h
      injection h with h'
      subst h'
      exact engInv_folder_descend hq hInv hfresh hwfroot hrootp hA
    · have hsd' :
          pfSd cl fi t n { st with task_queue := rest, seen := st.seen ++ [n.path] } = false := by
        cases hx : pfSd cl fi t n { st with task_queue := rest, seen := st.seen ++ [n.path] }
        · rfl
        · exact absurd hx hsd
      have hcat :
          (pfR cl fi n { st with task_queue := rest, seen := st.seen ++ [n.path] }).category ≠
            Category.skip := processFolder_sd_false_cat hsd'
      have hmix :
          (pfR cl fi n { st with task_queue := rest, seen := st.seen ++ [n.path] }).is_mixed =
            false := by
        rw [pfSd, if_neg hcat] at hsd'
        simp only [Bool.or_eq_false_iff] at hsd'
        exact hsd'.2
      by_cases hnp :
          (pfR cl fi n
            { st with task_queue := rest, seen := st.seen ++ [n.path] }).folder_description =
            "" ∨ pfUuids db n = []
      · rw [processFolder_assign_nodb_eq hA hsd' hnp] at h
        injection h with h'
        subst h'
        refine engInv_folder_assign hq hInv hfresh hcat hmix rfl rfl rfl rfl rfl rfl rfl ?_
        intro c hc
        exact Or.inl hc
      · push_neg at hnp
        obtain ⟨hdesc, huu⟩ := hnp
        cases hdb : db.update_folder_description_bulk (pfUuids db n)
            (pfR cl fi n
              { st with task_queue := rest, seen := st.seen ++ [n.path] }).folder_description with
        | error e =>
          rw [processFolder_db_err_eq hA hsd' hdesc huu hdb] at h
          cases h
        | ok m =>
          rw [processFolder_assign_db_eq hA hsd' hdesc huu hdb] at h
          injection h with h'
          subst h'
          refine engInv_folder_assign hq hInv hfresh hcat hmix rfl rfl rfl rfl rfl rfl rfl ?_
          intro c hc
          rcases List.mem_append.1 hc with hcc | hcc
          · exact Or.inl hcc
          · right
            rw [List.mem_singleton.1 hcc]

/- ----------------- invariant preservation: loop and init ----------------- -/

theorem engInv_drop {t : ℚ} {root : FolderNode} {st : EngState} {item : QItem}
    {rest : List QItem} (hq : st.task_queue = item :: rest) (hm : item.key ∈ st.seen)
    (hInv : EngInv t root st) : EngInv t root { st with task_queue := rest } := by
  have hrestq : ∀ j ∈ rest, j ∈ st.task_queue := fun j hj => by
    rw [hq]
    exact List.mem_cons_of_mem _ hj
  have hqKeysNew : ∀ k, k ∈ qKeys st → k ∈ st.seen ∨ k ∈ rest.map QItem.key := by
    intro k hk
    rw [qKeys, hq] at hk
    rcases List.mem_cons.1 hk with hk | hk
    · left
      rw [hk]
      exact hm
    · right
      exact hk
  refine
    { wfQ := ?_, treeQ := ?_, fileQ := ?_, disjQ := ?_, freshQ := ?_, ndCls := ?_,
      ndDec := ?_, ndMap := ?_, ndSeen := ?_, callsSeen := ?_, callsNodup := ?_,
      decCalls := ?_, propSeen := ?_, decSeen := ?_, clsSeen := ?_, confSkip := ?_,
      noMixedParent := ?_, descMark := ?_, descChildren := ?_, skipFiles := ?_,
      mapsOk := ?_, parentSeen := ?_ }
  · intro m hmm
    exact hInv.wfQ m (hrestq _ hmm)
  · intro m hmm
    exact hInv.treeQ m (hrestq _ hmm)
  · intro g hg
    exact hInv.fileQ g (hrestq _ hg)
  · have hp := hInv.disjQ
    rw [hq] at hp
    exact (List.pairwise_cons.1 hp).2
  · intro j hj k hkW hsc
    exact hInv.freshQ j (hrestq _ hj) k hkW hsc
  · exact hInv.ndCls
  · exact hInv.ndDec
  · exact hInv.ndMap
  · exact hInv.ndSeen
  · exact hInv.callsSeen
  · exact hInv.callsNodup
  · exact hInv.decCalls
  · exact hInv.propSeen
  · exact hInv.decSeen
  · exact hInv.clsSeen
  · intro p r' hlook hcat hconf
    obtain ⟨⟨anc, hcls⟩, hunder, hprop⟩ := hInv.confSkip p r' hlook hcat hconf
    refine ⟨⟨anc, hcls⟩, ?_, hprop⟩
    intro k hk
    obtain ⟨hW, hQ⟩ := hunder k hk
    exact ⟨hW, fun j hj => hQ j (hrestq _ hj)⟩
  · exact hInv.noMixedParent
  · exact hInv.descMark
  · intro m hmm r' hlook hdd
    obtain ⟨hch, hfl⟩ := hInv.descChildren m hmm r' hlook hdd
    constructor
    · intro c hc
      rcases hch c hc with h | h
      · exact Or.inl h
      · exact hqKeysNew _ h
    · intro fm hfm
      rcases hfl fm hfm with h | h
      · exact Or.inl h
      · exact hqKeysNew _ h
  · exact hInv.skipFiles
  · exact hInv.mapsOk
  · exact hInv.parentSeen

theorem engInv_loop {cl : Classifier} {db : CourseDBModel} {fi : FileIndex} {t : ℚ}
    {root : FolderNode} (hwfroot : WFnode root) (hrootp : root.path = ".") :
    ∀ (fuel : Nat) (st st' : EngState), EngInv t root st →
    bfsLoop cl db t fi fuel st = .ok st' → EngInv t root st' ∧ st'.task_queue = []
  | 0, st, st', hInv, h => by cases h
  | fuel + 1, st, st', hInv, h => by
    cases hq : st.task_queue with
    | nil =>
      simp only [bfsLoop, hq] at h
      cases h
      exact ⟨hInv, hq⟩
    | cons item rest =>
      cases item with
      | folder n =>
        simp only [bfsLoop, hq] at h
        by_cases hm : (QItem.folder n).key ∈ st.seen
        · rw [if_pos hm] at h
          exact engInv_loop hwfroot hrootp fuel _ st' (engInv_drop hq hm hInv) h
        · rw [if_neg hm] at h
          cases hpf : processFolder cl db t fi n
              { st with task_queue := rest, seen := st.seen ++ [(QItem.folder n).key] } with
          | error e =>
            rw [hpf] at h
            exact Except.noConfusion h
          | ok st2 =>
            rw [hpf] at h
            exact engInv_loop hwfroot hrootp fuel st2 st'
              (engInv_folder_step hq hInv hm hwfroot hrootp hpf) h
      | file f =>
        simp only [bfsLoop, hq] at h
        by_cases hm : (QItem.file f).key ∈ st.seen
        · rw [if_pos hm] at h
          exact engInv_loop hwfroot hrootp fuel _ st' (engInv_drop hq hm hInv) h
        · rw [if_neg hm] at h
          exact engInv_loop hwfroot hrootp fuel _ st'
            (engInv_file_step hq hInv hm) h

theorem engInv_init {t : ℚ} {root : FolderNode} (hwfroot : WFnode root)
    (hrootp : root.path = ".") :
    EngInv t root
      { classifications := [], folder_decisions := [], skipped_folders := [], mappings := []
        seen := [], ancestor_desc_map := ancFold [] root.children.nodes []
        task_queue := root.children.nodes.map QItem.folder ++ root.files.map QItem.file
        folder_calls := [], file_calls := [], propagation_calls := [] } := by
  refine
    { wfQ := ?_, treeQ := ?_, fileQ := ?_, disjQ := ?_, freshQ := ?_, ndCls := ?_,
      ndDec := ?_, ndMap := ?_, ndSeen := ?_, callsSeen := ?_, callsNodup := ?_,
      decCalls := ?_, propSeen := ?_, decSeen := ?_, clsSeen := ?_, confSkip := ?_,
      noMixedParent := ?_, descMark := ?_, descChildren := ?_, skipFiles := ?_,
      mapsOk := ?_, parentSeen := ?_ }
  · intro m hm
    rcases List.mem_append.1 hm with h | h
    · obtain ⟨c, hc, he⟩ := List.mem_map.1 h
      injection he with he'
      subst he'
      obtain ⟨nm, _, hcp, hseg, hcwf⟩ := wf_child_facts hwfroot hc
      exact ⟨hcwf, child_path_ne_dot hwfroot hc⟩
    · obtain ⟨fm, hfm, he⟩ := List.mem_map.1 h
      cases he
  · intro m hm
    rcases List.mem_append.1 hm with h | h
    · obtain ⟨c, hc, he⟩ := List.mem_map.1 h
      injection he with he'
      subst he'
      exact subNodes_decomp.2 (Or.inr ⟨c, hc, self_mem_subNodes c⟩)
    · obtain ⟨fm, hfm, he⟩ := List.mem_map.1 h
      cases he
  · intro g hg
    rcases List.mem_append.1 hg with h | h
    · obtain ⟨c, hc, he⟩ := List.mem_map.1 h
      cases he
    · obtain ⟨fm, hfm, he⟩ := List.mem_map.1 h
      injection he with he'
      subst he'
      exact List.mem_map.2 ⟨fm, subFiles_decomp.2 (Or.inl hfm), rfl⟩
  · exact enq_pairwise hwfroot
  · intro j hj k hk hsc
    exact absurd hk (List.not_mem_nil k)
  · exact List.nodup_nil
  · exact List.nodup_nil
  · exact List.nodup_nil
  · exact List.nodup_nil
  · intro k hk
    exact absurd hk (List.not_mem_nil k)
  · exact List.nodup_nil
  · rfl
  · intro c hc
    exact absurd hc (List.not_mem_nil c)
  · intro k hk
    exact absurd hk (List.not_mem_nil k)
  · intro k hk
    exact absurd hk (List.not_mem_nil k)
  · intro p r hlook hcat hconf
    exact Option.noConfusion hlook
  · intro p r hlook hmix k c hc
    exact Option.noConfusion hlook
  · intro p r hlook hdd
    exact Option.noConfusion hlook
  · intro m hm r hlook hdd
    exact Option.noConfusion hlook
  · intro pr hpr hsk
    exact absurd hpr (List.not_mem_nil pr)
  · intro pr hpr
    exact absurd hpr (List.not_mem_nil pr)
  · intro pr hpr q hq'
    exact absurd hpr (List.not_mem_nil pr)

theorem bfs_run_inv {cl : Classifier} {db : CourseDBModel} {fi : FileIndex} {t : ℚ}
    {root : FolderNode} {st' : EngState} (hwfroot : WFnode root) (hrootp : root.path = ".")
    (h : bfs_run cl db t root fi = .ok st') : EngInv t root st' ∧ st'.task_queue = [] :=
  engInv_loop hwfroot hrootp _ _ st' (engInv_init hwfroot hrootp) h

/- ----------------- join/split/dirname lemmas ----------------- -/

theorem str_ne_empty_data {s : String} (h : s ≠ "") : s.data ≠ [] := by
  intro hc
  exact h (strEq_of_data hc)

theorem joinSlash_data_cons (x y : String) (rest : List String) :
    (joinSlash (x :: y :: rest)).data = x.data ++ '/' :: (joinSlash (y :: rest)).data := by
  show ((x ++ "/") ++ joinSlash (y :: rest)).data = _
  rw [strData_append, strData_append]
  simp

theorem joinSlash_append (l suf : List String) (hl : l ≠ []) (hs : suf ≠ []) :
    (joinSlash (l ++ suf)).data = (joinSlash l).data ++ '/' :: (joinSlash suf).data := by
  induction l with
  | nil => exact absurd rfl hl
  | cons x rest ih =>
    cases rest with
    | nil =>
      cases suf with
      | nil => exact absurd rfl hs
      | cons y ys =>
        show (joinSlash (x :: y :: ys)).data = _
        rw [joinSlash_data_cons]
        rfl
    | cons z zs =>
      have h1 : ((x :: z :: zs) ++ suf) = x :: ((z :: zs) ++ suf) := rfl
      rw [h1]
      have h2 : (z :: zs) ++ suf = z :: (zs ++ suf) := rfl
      have h3 : (joinSlash (x :: z :: (zs ++ suf))).data =
          x.data ++ '/' :: (joinSlash (z :: (zs ++ suf))).data := joinSlash_data_cons _ _ _
      rw [← h2] at h3
      rw [h3, ih (by simp), joinSlash_data_cons]
      simp

theorem joinSlash_head_ne_slash : ∀ (segs : List String), segs ≠ [] →
    (∀ s ∈ segs, SegOk s) →
    ∃ c rest, (joinSlash segs).data = c :: rest ∧ c ≠ '/'
  | [], h, _ => absurd rfl h
  | [x], _, hok => by
    obtain ⟨hne, _, hsl⟩ := hok x (List.mem_singleton.2 rfl)
    cases hx : x.data with
    | nil => exact absurd hx (str_ne_empty_data hne)
    | cons c rest =>
      refine ⟨c, rest, hx, ?_⟩
      intro hc
      subst hc
      exact hsl (by rw [hx]; exact List.mem_cons_self _ _)
  | x :: y :: rest, _, hok => by
    obtain ⟨hne, _, hsl⟩ := hok x (List.mem_cons_self _ _)
    rw [joinSlash_data_cons]
    cases hx : x.data with
    | nil => exact absurd hx (str_ne_empty_data hne)
    | cons c r2 =>
      refine ⟨c, r2 ++ '/' :: (joinSlash (y :: rest)).data, by simp, ?_⟩
      intro hc
      subst hc
      exact hsl (by rw [hx]; exact List.mem_cons_self _ _)

theorem joinSlash_last_ne_slash : ∀ (segs : List String), segs ≠ [] →
    (∀ s ∈ segs, SegOk s) →
    ∃ c rest, (joinSlash segs).data.reverse = c :: rest ∧ c ≠ '/'
  | [], h, _ => absurd rfl h
  | [x], _, hok => by
    obtain ⟨hne, _, hsl⟩ := hok x (List.mem_singleton.2 rfl)
    cases hx : x.data.reverse with
    | nil =>
      exact absurd (by simpa using congrArg List.reverse hx) (str_ne_empty_data hne)
    | cons c rest =>
      refine ⟨c, rest, hx, ?_⟩
      intro hc
      subst hc
      have : '/' ∈ x.data.reverse := by
        rw [hx]
        exact List.mem_cons_self _ _
      exact hsl (List.mem_reverse.1 this)
  | x :: y :: rest, _, hok => by
    obtain ⟨c, r2, hr, hc⟩ := joinSlash_last_ne_slash (y :: rest) (by simp)
      (fun s hnm => hok s (List.mem_cons_of_mem _ hnm))
    rw [joinSlash_data_cons]
    refine ⟨c, r2 ++ '/' :: x.data.reverse, ?_, hc⟩
    rw [List.reverse_append]
    simp [hr]

theorem joinSlash_ne_empty (segs : List String) (hne : segs ≠ [])
    (hok : ∀ s ∈ segs, SegOk s) : joinSlash segs ≠ "" := by
  obtain ⟨c, rest, hd, _⟩ := joinSlash_head_ne_slash segs hne hok
  intro hc
  rw [hc] at hd
  cases hd

theorem joinSlash_ne_dot (segs : List String) (hne : segs ≠ [])
    (hok : ∀ s ∈ segs, SegOk s) : joinSlash segs ≠ "." := by
  cases segs with
  | nil => exact absurd rfl hne
  | cons x rest =>
    cases rest with
    | nil =>
      show x ≠ "."
      exact (hok x (List.mem_singleton.2 rfl)).2.1
    | cons y ys =>
      intro hc
      have hd := congrArg String.data hc
      rw [joinSlash_data_cons] at hd
      have : '/' ∈ ("." : String).data := by
        rw [← hd]
        exact List.mem_append.2 (Or.inr (List.mem_cons_self _ _))
      simp at this

theorem childPath_pathOf (l : List String) (x : String) (hok : ∀ s ∈ l, SegOk s) :
    childPath (pathOf l) x = joinSlash (l ++ [x]) := by
  cases l with
  | nil => rfl
  | cons y rest =>
    have hne : (y :: rest : List String) ≠ [] := by simp
    have hnd : joinSlash (y :: rest) ≠ "." := joinSlash_ne_dot _ hne hok
    rw [pathOf, if_neg hne, childPath, if_neg hnd]
    apply strEq_of_data
    rw [joinSlash_append (y :: rest) [x] hne (by simp), strData_append, strData_append]
    simp
    rfl

theorem pathOf_under (l suf : List String) (hl : l ≠ []) (hs : suf ≠ []) :
    pathUnder (pathOf l) (joinSlash (l ++ suf)) := by
  rw [pathOf, if_neg hl, pathUnder, joinSlash_append l suf hl hs]
  exact ⟨(joinSlash suf).data, by simp⟩

theorem rfindIdx_not_mem {c : Char} : ∀ {l : List Char}, c ∉ l → rfindIdx c l = none
  | [], _ => rfl
  | x :: rest, h => by
    simp only [List.mem_cons] at h
    push_neg at h
    rw [rfindIdx, rfindIdx_not_mem h.2, if_neg (fun he => h.1 he.symm)]

theorem rfindIdx_last {B : List Char} (hB : '/' ∉ B) :
    ∀ (A : List Char), rfindIdx '/' (A ++ '/' :: B) = some A.length
  | [] => by
    show rfindIdx '/' ('/' :: B) = some 0
    rw [rfindIdx, rfindIdx_not_mem hB, if_pos rfl]
  | a :: A => by
    show rfindIdx '/' (a :: (A ++ '/' :: B)) = some (A.length + 1)
    rw [rfindIdx, rfindIdx_last hB A]

theorem pyDirname_join (L : List String) (x : String) (hL : L ≠ [])
    (hok : ∀ s ∈ L, SegOk s) (hx : '/' ∉ x.data) :
    pyDirname (joinSlash (L ++ [x])) = joinSlash L := by
  have hdata : (joinSlash (L ++ [x])).data = (joinSlash L).data ++ '/' :: x.data :=
    joinSlash_append L [x] hL (by simp)
  obtain ⟨ch, rh, hhd, hch⟩ := joinSlash_head_ne_slash L hL hok
  obtain ⟨cl, rl, hlast, hcl⟩ := joinSlash_last_ne_slash L hL hok
  have htake : ((joinSlash L).data ++ '/' :: x.data).take ((joinSlash L).data.length + 1) =
      (joinSlash L).data ++ ['/'] := by
    have he : (joinSlash L).data ++ '/' :: x.data = ((joinSlash L).data ++ ['/']) ++ x.data := by
      simp
    have hlen : ((joinSlash L).data ++ ['/']).length = (joinSlash L).data.length + 1 := by
      simp
    rw [he, ← hlen, List.take_left]
  have hcond : ((joinSlash L).data ++ ['/']) ≠ [] ∧
      ¬ ((joinSlash L).data ++ ['/']).all (fun c => c = '/') := by
    constructor
    · simp
    · rw [hhd]
      simp [hch]
  have hrd : ((((joinSlash L).data ++ ['/']).reverse).dropWhile (fun c => c = '/')).reverse =
      (joinSlash L).data := by
    rw [List.reverse_append, hlast]
    show (('/' :: cl :: rl).dropWhile (fun c => c = '/')).reverse = _
    rw [List.dropWhile_cons_of_pos (by simp), List.dropWhile_cons_of_neg (by simp [hcl])]
    rw [← hlast, List.reverse_reverse]
  simp only [pyDirname, hdata, rfindIdx_last hx]
  rw [htake, if_pos hcond]
  apply strEq_of_data
  exact hrd

theorem pyBasename_join (L : List String) (x : String) (hL : L ≠ [])
    (hx : '/' ∉ x.data) : pyBasename (joinSlash (L ++ [x])) = x := by
  have hdata : (joinSlash (L ++ [x])).data = (joinSlash L).data ++ '/' :: x.data :=
    joinSlash_append L [x] hL (by simp)
  have hdrop : ((joinSlash L).data ++ '/' :: x.data).drop ((joinSlash L).data.length + 1) =
      x.data := by
    have he : (joinSlash L).data ++ '/' :: x.data = ((joinSlash L).data ++ ['/']) ++ x.data := by
      simp
    have hlen : ((joinSlash L).data ++ ['/']).length = (joinSlash L).data.length + 1 := by
      simp
    rw [he, ← hlen, List.drop_left]
  simp only [pyBasename, hdata, rfindIdx_last hx]
  rw [hdrop]

theorem pyDirname_single {x : String} (hx : '/' ∉ x.data) : pyDirname x = "" := by
  simp only [pyDirname, rfindIdx_not_mem hx]

theorem pyBasename_single {x : String} (hx : '/' ∉ x.data) : pyBasename x = x := by
  simp only [pyBasename, rfindIdx_not_mem hx]

theorem splitSlash_ne_nil : ∀ (l : List Char), splitSlash l ≠ []
  | [] => by simp [splitSlash]
  | c :: rest => by
    rw [splitSlash]
    cases hs : splitSlash rest with
    | nil => exact absurd hs (splitSlash_ne_nil rest)
    | cons g gs =>
      by_cases hc : c = '/'
      · simp [hc]
      · simp [hc]

theorem splitSlash_no_slash : ∀ {l : List Char}, '/' ∉ l → splitSlash l = [l]
  | [], _ => rfl
  | c :: rest, h => by
    simp only [List.mem_cons] at h
    push_neg at h
    rw [splitSlash, splitSlash_no_slash h.2]
    show (if c = '/' then [[], rest] else [c :: rest]) = [c :: rest]
    rw [if_neg (fun he => h.1 he.symm)]

theorem splitSlash_step : ∀ {p : List Char}, '/' ∉ p → ∀ (l : List Char),
    splitSlash (p ++ '/' :: l) = p :: splitSlash l
  | [], _, l => by
    show splitSlash ('/' :: l) = [] :: splitSlash l
    rw [splitSlash]
    cases hs : splitSlash l with
    | nil => exact absurd hs (splitSlash_ne_nil l)
    | cons g gs =>
      show (if '/' = '/' then [] :: g :: gs else ('/' :: g) :: gs) = [] :: g :: gs
      rw [if_pos rfl]
  | c :: p, h, l => by
    simp only [List.mem_cons] at h
    push_neg at h
    show splitSlash (c :: (p ++ '/' :: l)) = (c :: p) :: splitSlash l
    rw [splitSlash, splitSlash_step h.2 l]
    show (if c = '/' then [] :: p :: splitSlash l else (c :: p) :: splitSlash l) =
      (c :: p) :: splitSlash l
    rw [if_neg (fun he => h.1 he.symm)]

theorem splitSlashStr_join : ∀ (segs : List String), segs ≠ [] →
    (∀ s ∈ segs, SegOk s) → splitSlashStr (joinSlash segs) = segs
  | [], h, _ => absurd rfl h
  | [x], _, hok => by
    rw [splitSlashStr]
    show (splitSlash x.data).map (fun l => ⟨l⟩) = [x]
    rw [splitSlash_no_slash (hok x (List.mem_singleton.2 rfl)).2.2]
    rfl
  | x :: y :: rest, _, hok => by
    rw [splitSlashStr, joinSlash_data_cons,
      splitSlash_step (hok x (List.mem_cons_self _ _)).2.2]
    have ih := splitSlashStr_join (y :: rest) (by simp)
      (fun s hs => hok s (List.mem_cons_of_mem _ hs))
    rw [splitSlashStr] at ih
    show (⟨x.data⟩ : String) :: (splitSlash (joinSlash (y :: rest)).data).map (fun l => ⟨l⟩) =
      x :: y :: rest
    rw [ih]

theorem pyReplaceChar_id {a b : Char} {s : String} (h : a ∉ s.data) :
    pyReplaceChar a b s = s := by
  apply strEq_of_data
  show s.data.map (fun c => if c = a then b else c) = s.data
  have : ∀ c ∈ s.data, (fun c => if c = a then b else c) c = c := by
    intro c hc
    simp only
    rw [if_neg]
    intro he
    subst he
    exact h hc
  rw [List.map_congr_left this]
  exact List.map_id _

theorem backslash_not_in_join : ∀ (segs : List String), segs ≠ [] →
    (∀ s ∈ segs, '\x5c' ∉ s.data) → '\x5c' ∉ (joinSlash segs).data
  | [], h, _ => absurd rfl h
  | [x], _, hok => hok x (List.mem_singleton.2 rfl)
  | x :: y :: rest, _, hok => by
    rw [joinSlash_data_cons]
    intro hc
    rcases List.mem_append.1 hc with h | h
    · exact hok x (List.mem_cons_self _ _) h
    · rcases List.mem_cons.1 h with h | h
      · cases h
      · exact backslash_not_in_join (y :: rest) (by simp)
          (fun s hs => hok s (List.mem_cons_of_mem _ hs)) h

/- ----------------- build_tree: children-dict lemmas ----------------- -/

theorem setd_toList (k : String) (v : FolderNode) : ∀ (cs : Children),
    (Children.setd k v cs).toList = dictInsert k v cs.toList
  | .nil => rfl
  | .cons k2 v2 rest => by
    show (if k2 = k then Children.cons k2 v rest
      else Children.cons k2 v2 (Children.setd k v rest)).toList =
      dictInsert k v ((k2, v2) :: rest.toList)
    rw [dictInsert_cons]
    by_cases h : k2 = k
    · rw [if_pos h, if_pos h]
      rfl
    · rw [if_neg h, if_neg h]
      show (k2, v2) :: (Children.setd k v rest).toList = (k2, v2) :: dictInsert k v rest.toList
      rw [setd_toList k v rest]

theorem children_lookup_toList (k : String) : ∀ (cs : Children),
    Children.lookup k cs = alookup cs.toList k
  | .nil => rfl
  | .cons k2 v rest => by
    show (if k2 = k then some v else Children.lookup k rest) =
      (if k2 = k then some v else alookup rest.toList k)
    by_cases h : k2 = k
    · rw [if_pos h, if_pos h]
    · rw [if_neg h, if_neg h]
      exact children_lookup_toList k rest

theorem setd_toList_mem {k : String} {v : FolderNode} {cs : Children} {pr : String × FolderNode}
    (h : pr ∈ (Children.setd k v cs).toList) : pr = (k, v) ∨ pr ∈ cs.toList := by
  rw [setd_toList] at h
  exact mem_dictInsert_elim h

theorem setd_names_mem {k : String} {v : FolderNode} {cs : Children} {nm : String}
    (h : nm ∈ (Children.setd k v cs).names) : nm = k ∨ nm ∈ cs.names := by
  rw [children_names_toList, setd_toList] at h
  rcases mem_keysOf_dictInsert.1 h with h | h
  · exact Or.inl h
  · right
    rw [children_names_toList]
    exact h

theorem setd_names_nodup {k : String} {v : FolderNode} {cs : Children}
    (h : cs.names.Nodup) : (Children.setd k v cs).names.Nodup := by
  rw [children_names_toList] at h ⊢
  rw [setd_toList]
  exact nodup_keysOf_dictInsert h

theorem setd_nodes_mem {k : String} {v c : FolderNode} {cs : Children}
    (h : c ∈ (Children.setd k v cs).nodes) : c = v ∨ c ∈ cs.nodes := by
  rw [children_nodes_toList, setd_toList] at h
  obtain ⟨pr, hm, he⟩ := List.mem_map.1 h
  rcases mem_dictInsert_elim hm with he2 | hm2
  · subst he2
    exact Or.inl he.symm
  · right
    rw [children_nodes_toList]
    exact List.mem_map.2 ⟨pr, hm2, he⟩

theorem lookup_mem_toList {k : String} {c : FolderNode} {cs : Children}
    (h : Children.lookup k cs = some c) : (k, c) ∈ cs.toList := by
  rw [children_lookup_toList] at h
  exact alookup_mem h

theorem pathUnder_ne {p k : String} (h : pathUnder p k) : p ≠ k := by
  intro he
  subst he
  exact not_pathUnder_self _ h

theorem subFiles_mk (p nm : String) (fs : List FileMeta) (cs : Children) :
    (FolderNode.mk p nm fs cs).subFiles = fs ++ Children.subFiles cs := rfl

theorem subNodes_mk (p nm : String) (fs : List FileMeta) (cs : Children) :
    (FolderNode.mk p nm fs cs).subNodes =
      FolderNode.mk p nm fs cs :: Children.subNodes cs := rfl

theorem wf_leaf (p nm : String) : WFnode (FolderNode.mk p nm [] .nil) :=
  WFnode.mk _ (fun _ h => absurd h (List.not_mem_nil _)) List.nodup_nil List.nodup_nil
    (fun _ h => absurd h (List.not_mem_nil _)) (fun _ h _ h2 => absurd h (List.not_mem_nil _))
    (fun _ h => absurd h (List.not_mem_nil _))

theorem withChildren_mk (p nm : String) (fs : List FileMeta) (cs cs2 : Children) :
    (FolderNode.mk p nm fs cs).withChildren cs2 = FolderNode.mk p nm fs cs2 := rfl

theorem withFiles_mk (p nm : String) (fs fs2 : List FileMeta) (cs : Children) :
    (FolderNode.mk p nm fs cs).withFiles fs2 = FolderNode.mk p nm fs2 cs := rfl

theorem insertIntoTree_nil_eq (node : FolderNode) (consumed : List String) (fm : FileMeta) :
    insertIntoTree node consumed [] fm = node.withFiles (node.files ++ [fm]) := rfl

theorem insertIntoTree_cons_some {node : FolderNode} {p : String} {c : FolderNode}
    (hl : node.children.lookup p = some c) (consumed parts : List String) (fm : FileMeta) :
    insertIntoTree node consumed (p :: parts) fm =
      node.withChildren (node.children.setd p
        (insertIntoTree c (consumed ++ [p]) parts fm)) := by
  simp only [insertIntoTree]
  rw [hl]

theorem insertIntoTree_cons_none {node : FolderNode} {p : String}
    (hl : node.children.lookup p = none) (consumed parts : List String) (fm : FileMeta) :
    insertIntoTree node consumed (p :: parts) fm =
      node.withChildren (node.children.setd p
        (insertIntoTree (FolderNode.mk (joinSlash (consumed ++ [p])) p [] .nil)
          (consumed ++ [p]) parts fm)) := by
  simp only [insertIntoTree]
  rw [hl]

theorem insertIntoTree_wf : ∀ (parts : List String) (node : FolderNode) (consumed : List String)
    (fm : FileMeta),
    WFnode node →
    node.path = pathOf consumed →
    (∀ s ∈ consumed, SegOk s) →
    (∀ s ∈ parts, SegOk s) →
    SegOk fm.file_name →
    fm.folder_path = pathOf (consumed ++ parts) →
    fm.source_path = joinSlash (consumed ++ parts ++ [fm.file_name]) →
    (∀ g ∈ node.subFiles, g.source_path ≠ fm.source_path ∧
      ¬ pathUnder g.source_path fm.source_path) →
    (∀ m ∈ node.subNodes, m.path ≠ fm.source_path) →
    WFnode (insertIntoTree node consumed parts fm) ∧
    (insertIntoTree node consumed parts fm).path = node.path ∧
    (insertIntoTree node consumed parts fm).name = node.name ∧
    (∀ g ∈ (insertIntoTree node consumed parts fm).subFiles, g ∈ node.subFiles ∨ g = fm) ∧
    (∀ m ∈ (insertIntoTree node consumed parts fm).subNodes,
      (∃ m0 ∈ node.subNodes, m.path = m0.path) ∨ pathUnder m.path fm.source_path)
  | [], node, consumed, fm, hwf, hpath, hokc, _, hokf, hfold, hsrc, hA, hB => by
    obtain ⟨np, nm, fs, cs⟩ := node
    simp only [folderNode_path_mk] at hpath
    have hsp : fm.source_path = childPath np fm.file_name := by
      rw [hsrc, hpath, childPath_pathOf consumed fm.file_name hokc]
      simp
    have hffold : fm.folder_path = np := by
      rw [hfold, hpath]
      simp
    cases hwf with
    | mk n hfile hfnodup hcnodup hchild hfc hrec =>
      simp only [folderNode_path_mk, folderNode_name_mk, folderNode_files_mk,
        folderNode_children_mk] at hfile hfnodup hcnodup hchild hfc hrec
      refine ⟨?_, rfl, rfl, ?_, ?_⟩
      · refine WFnode.mk _ ?_ ?_ ?_ ?_ ?_ ?_
        · intro g hg
          rcases List.mem_append.1 hg with h | h
          · exact hfile g h
          · have he := List.mem_singleton.1 h
            subst he
            exact ⟨hffold, hsp, hokf⟩
        · show ((fs ++ [fm]).map FileMeta.file_name).Nodup
          rw [List.map_append]
          refine nodup_append_singleton hfnodup ?_
          intro hc
          obtain ⟨g, hg, he⟩ := List.mem_map.1 hc
          have hgs : g.source_path = fm.source_path := by
            rw [(hfile g hg).2.1, he, ← hsp]
          exact (hA g (by rw [subFiles_mk]; exact List.mem_append.2 (Or.inl hg))).1 hgs
        · exact hcnodup
        · exact hchild
        · intro g hg nm2 hnm
          rcases List.mem_append.1 hg with h | h
          · exact hfc g h nm2 hnm
          · have he := List.mem_singleton.1 h
            subst he
            intro hgp
            rw [children_names_toList] at hnm
            obtain ⟨pr, hpr, he2⟩ := List.mem_map.1 hnm
            have hcpath := (hchild pr hpr).2.1
            rw [he2, ← hgp] at hcpath
            refine hB pr.2 ?_ ?_
            · rw [subNodes_mk]
              refine List.mem_cons_of_mem _ ?_
              rw [children_subNodes_iff]
              exact ⟨pr.2, mem_nodes_iff_toList.2 ⟨pr.1, by rw [Prod.mk.eta]; exact hpr⟩,
                self_mem_subNodes _⟩
            · rw [hcpath, ← hsp]
        · exact hrec
      · intro g hg
        rcases List.mem_append.1 hg with h | h
        · rcases List.mem_append.1 h with h | h
          · left
            rw [subFiles_mk]
            exact List.mem_append.2 (Or.inl h)
          · exact Or.inr (List.mem_singleton.1 h)
        · left
          rw [subFiles_mk]
          exact List.mem_append.2 (Or.inr h)
      · intro m hm
        rcases List.mem_cons.1 hm with h | h
        · subst h
          exact Or.inl ⟨FolderNode.mk np nm fs cs,
            by rw [subNodes_mk]; exact List.mem_cons_self _ _, rfl⟩
        · exact Or.inl ⟨m, by rw [subNodes_mk]; exact List.mem_cons_of_mem _ h, rfl⟩
  | p :: rest, node, consumed, fm, hwf, hpath, hokc, hokp, hokf, hfold, hsrc, hA, hB => by
    obtain ⟨np, nm, fs, cs⟩ := node
    simp only [folderNode_path_mk] at hpath
    have hps : SegOk p := hokp p (List.mem_cons_self _ _)
    have hokc2 : ∀ s ∈ consumed ++ [p], SegOk s := by
      intro s hs
      rcases List.mem_append.1 hs with h | h
      · exact hokc s h
      · rw [List.mem_singleton.1 h]
        exact hps
    have hcne : consumed ++ [p] ≠ [] := by simp
    have hcp : childPath np p = joinSlash (consumed ++ [p]) := by
      rw [hpath]
      exact childPath_pathOf consumed p hokc
    have hpO : pathOf (consumed ++ [p]) = joinSlash (consumed ++ [p]) := by
      rw [pathOf, if_neg hcne]
    have hfold2 : fm.folder_path = pathOf ((consumed ++ [p]) ++ rest) := by
      rw [hfold]
      simp
    have hsrc2 : fm.source_path = joinSlash ((consumed ++ [p]) ++ rest ++ [fm.file_name]) := by
      rw [hsrc]
      simp
    have hund : pathUnder (joinSlash (consumed ++ [p])) fm.source_path := by
      have h1 := pathOf_under (consumed ++ [p]) (rest ++ [fm.file_name]) hcne (by simp)
      rw [hpO] at h1
      rw [hsrc2]
      have hassoc : (consumed ++ [p]) ++ (rest ++ [fm.file_name]) =
          (consumed ++ [p]) ++ rest ++ [fm.file_name] := by simp
      rw [hassoc] at h1
      exact h1
    cases hwf with
    | mk n hfile hfnodup hcnodup hchild hfc hrec =>
      simp only [folderNode_path_mk, folderNode_name_mk, folderNode_files_mk,
        folderNode_children_mk] at hfile hfnodup hcnodup hchild hfc hrec
      cases hl : Children.lookup p cs with
      | some c =>
        have hmemc : (p, c) ∈ cs.toList := lookup_mem_toList hl
        have hcname : c.name = p := (hchild (p, c) hmemc).1
        have hcpath : c.path = childPath np p := (hchild (p, c) hmemc).2.1
        have hcnodes : c ∈ cs.nodes := mem_nodes_iff_toList.2 ⟨p, hmemc⟩
        have hcwf : WFnode c := hrec c hcnodes
        have hsubF : ∀ g ∈ c.subFiles, g ∈ (FolderNode.mk np nm fs cs).subFiles := by
          intro g hg
          rw [subFiles_mk]
          refine List.mem_append.2 (Or.inr ?_)
          rw [children_subFiles_iff]
          exact ⟨c, hcnodes, hg⟩
        have hsubN : ∀ m ∈ c.subNodes,
            m ∈ (FolderNode.mk np nm fs cs).subNodes ∨ m.path = joinSlash (consumed ++ [p]) := by
          intro m hm
          left
          rw [subNodes_mk]
          refine List.mem_cons_of_mem _ ?_
          rw [children_subNodes_iff]
          exact ⟨c, hcnodes, hm⟩
        obtain ⟨hWc, hpc, hnc, hFc, hNc⟩ := insertIntoTree_wf rest c (consumed ++ [p]) fm
          hcwf (by rw [hcpath, hcp, hpO]) hokc2
          (fun s hs => hokp s (List.mem_cons_of_mem _ hs)) hokf hfold2 hsrc2
          (fun g hg => hA g (hsubF g hg))
          (by
            intro m hm
            rcases hsubN m hm with h | h
            · exact hB m h
            · rw [h]
              exact pathUnder_ne hund)
        rw [insertIntoTree_cons_some (show (FolderNode.mk np nm fs cs).children.lookup p =
          some c from hl) consumed rest fm]
        rw [folderNode_children_mk, withChildren_mk]
        have hcpath2 : (insertIntoTree c (consumed ++ [p]) rest fm).path = childPath np p := by
          rw [hpc, hcpath]
        have hcname2 : (insertIntoTree c (consumed ++ [p]) rest fm).name = p := by
          rw [hnc, hcname]
        refine ⟨?_, rfl, rfl, ?_, ?_⟩
        · refine WFnode.mk _ ?_ ?_ ?_ ?_ ?_ ?_
          · exact hfile
          · exact hfnodup
          · exact setd_names_nodup hcnodup
          · intro pr hpr
            rcases setd_toList_mem hpr with he | hm2
            · subst he
              exact ⟨hcname2, hcpath2, hps⟩
            · exact hchild pr hm2
          · intro g hg nm2 hnm
            rcases setd_names_mem hnm with he | hold
            · intro hgp
              have hgs : g.source_path = joinSlash (consumed ++ [p]) := by
                rw [(hfile g hg).2.1, hgp, he, hcp]
              refine (hA g (by rw [subFiles_mk]; exact List.mem_append.2 (Or.inl hg))).2 ?_
              rw [hgs]
              exact hund
            · exact hfc g hg nm2 hold
          · intro c2 hc2
            rcases setd_nodes_mem hc2 with he | hold
            · subst he
              exact hWc
            · exact hrec c2 hold
        · intro g hg
          rw [subFiles_mk] at hg
          rcases List.mem_append.1 hg with h | h
          · left
            rw [subFiles_mk]
            exact List.mem_append.2 (Or.inl h)
          · rw [children_subFiles_iff] at h
            obtain ⟨cc, hcc, hgcc⟩ := h
            rcases setd_nodes_mem hcc with he | hold
            · subst he
              rcases hFc g hgcc with h2 | h2
              · exact Or.inl (hsubF g h2)
              · exact Or.inr h2
            · left
              rw [subFiles_mk]
              refine List.mem_append.2 (Or.inr ?_)
              rw [children_subFiles_iff]
              exact ⟨cc, hold, hgcc⟩
        · intro m hm
          rw [subNodes_mk] at hm
          rcases List.mem_cons.1 hm with h | h
          · subst h
            exact Or.inl ⟨FolderNode.mk np nm fs cs,
              by rw [subNodes_mk]; exact List.mem_cons_self _ _, rfl⟩
          · rw [children_subNodes_iff] at h
            obtain ⟨cc, hcc, hmcc⟩ := h
            rcases setd_nodes_mem hcc with he | hold
            · subst he
              rcases hNc m hmcc with ⟨m0, hm0, hpe⟩ | h2
              · rcases hsubN m0 hm0 with h3 | h3
                · exact Or.inl ⟨m0, h3, hpe⟩
                · right
                  rw [hpe, h3]
                  exact hund
              · exact Or.inr h2
            · refine Or.inl ⟨m, ?_, rfl⟩
              rw [subNodes_mk]
              refine List.mem_cons_of_mem _ ?_
              rw [children_subNodes_iff]
              exact ⟨cc, hold, hmcc⟩
      | none =>
        have hcwf : WFnode (FolderNode.mk (joinSlash (consumed ++ [p])) p [] .nil) := wf_leaf _ _
        have hsubF : ∀ g ∈ (FolderNode.mk (joinSlash (consumed ++ [p])) p [] .nil).subFiles,
            g ∈ (FolderNode.mk np nm fs cs).subFiles := by
          intro g hg
          rw [subFiles_mk] at hg
          exact absurd hg (List.not_mem_nil g)
        have hsubN : ∀ m ∈ (FolderNode.mk (joinSlash (consumed ++ [p])) p [] .nil).subNodes,
            m ∈ (FolderNode.mk np nm fs cs).subNodes ∨ m.path = joinSlash (consumed ++ [p]) := by
          intro m hm
          rw [subNodes_mk] at hm
          rcases List.mem_cons.1 hm with h | h
          · subst h
            exact Or.inr rfl
          · exact absurd h (List.not_mem_nil m)
        obtain ⟨hWc, hpc, hnc, hFc, hNc⟩ := insertIntoTree_wf rest
          (FolderNode.mk (joinSlash (consumed ++ [p])) p [] .nil) (consumed ++ [p]) fm
          hcwf (by rw [folderNode_path_mk, hpO]) hokc2
          (fun s hs => hokp s (List.mem_cons_of_mem _ hs)) hokf hfold2 hsrc2
          (fun g hg => hA g (hsubF g hg))
          (by
            intro m hm
            rcases hsubN m hm with h | h
            · exact hB m h
            · rw [h]
              exact pathUnder_ne hund)
        rw [insertIntoTree_cons_none (show (FolderNode.mk np nm fs cs).children.lookup p =
          none from hl) consumed rest fm]
        rw [folderNode_children_mk, withChildren_mk]
        have hcpath2 : (insertIntoTree (FolderNode.mk (joinSlash (consumed ++ [p])) p [] .nil)
            (consumed ++ [p]) rest fm).path = childPath np p := by
          rw [hpc, folderNode_path_mk, hcp]
        have hcname2 : (insertIntoTree (FolderNode.mk (joinSlash (consumed ++ [p])) p [] .nil)
            (consumed ++ [p]) rest fm).name = p := by
          rw [hnc, folderNode_name_mk]
        refine ⟨?_, rfl, rfl, ?_, ?_⟩
        · refine WFnode.mk _ ?_ ?_ ?_ ?_ ?_ ?_
          · exact hfile
          · exact hfnodup
          · exact setd_names_nodup hcnodup
          · intro pr hpr
            rcases setd_toList_mem hpr with he | hm2
            · subst he
              exact ⟨hcname2, hcpath2, hps⟩
            · exact hchild pr hm2
          · intro g hg nm2 hnm
            rcases setd_names_mem hnm with he | hold
            · intro hgp
              have hgs : g.source_path = joinSlash (consumed ++ [p]) := by
                rw [(hfile g hg).2.1, hgp, he, hcp]
              refine (hA g (by rw [subFiles_mk]; exact List.mem_append.2 (Or.inl hg))).2 ?_
              rw [hgs]
              exact hund
            · exact hfc g hg nm2 hold
          · intro c2 hc2
            rcases setd_nodes_mem hc2 with he | hold
            · subst he
              exact hWc
            · exact hrec c2 hold
        · intro g hg
          rw [subFiles_mk] at hg
          rcases List.mem_append.1 hg with h | h
          · left
            rw [subFiles_mk]
            exact List.mem_append.2 (Or.inl h)
          · rw [children_subFiles_iff] at h
            obtain ⟨cc, hcc, hgcc⟩ := h
            rcases setd_nodes_mem hcc with he | hold
            · subst he
              rcases hFc g hgcc with h2 | h2
              · exact Or.inl (hsubF g h2)
              · exact Or.inr h2
            · left
              rw [subFiles_mk]
              refine List.mem_append.2 (Or.inr ?_)
              rw [children_subFiles_iff]
              exact ⟨cc, hold, hgcc⟩
        · intro m hm
          rw [subNodes_mk] at hm
          rcases List.mem_cons.1 hm with h | h
          · subst h
            exact Or.inl ⟨FolderNode.mk np nm fs cs,
              by rw [subNodes_mk]; exact List.mem_cons_self _ _, rfl⟩
          · rw [children_subNodes_iff] at h
            obtain ⟨cc, hcc, hmcc⟩ := h
            rcases setd_nodes_mem hcc with he | hold
            · subst he
              rcases hNc m hmcc with ⟨m0, hm0, hpe⟩ | h2
              · rcases hsubN m0 hm0 with h3 | h3
                · exact Or.inl ⟨m0, h3, hpe⟩
                · right
                  rw [hpe, h3]
                  exact hund
              · exact Or.inr h2
            · refine Or.inl ⟨m, ?_, rfl⟩
              rw [subNodes_mk]
              refine List.mem_cons_of_mem _ ?_
              rw [children_subNodes_iff]
              exact ⟨cc, hold, hmcc⟩

/- ----------------- build_tree: per-file facts ----------------- -/

theorem buildFold_cons_eq (idx : FileIndex) (r : String) (rest : List String)
    (root : FolderNode) :
    buildFold idx (r :: rest) root =
      buildFold idx rest (insertIntoTree root [] (bfParts r) (bfMeta idx r)) := rfl

theorem bf_facts {L : List String} {x : String}
    (hok : ∀ s ∈ L ++ [x], SegOk s ∧ '\\' ∉ s.data) :
    bfFolder (joinSlash (L ++ [x])) = pathOf L ∧
    bfParts (joinSlash (L ++ [x])) = L ∧
    pyBasename (joinSlash (L ++ [x])) = x := by
  have hokx := hok x (List.mem_append.2 (Or.inr (List.mem_singleton.2 rfl)))
  have hxs : '/' ∉ x.data := hokx.1.2.2
  cases hL : L with
  | nil =>
    have hj : joinSlash (([] : List String) ++ [x]) = x := rfl
    have hfolder : bfFolder (joinSlash ([] ++ [x])) = "." := by
      rw [hj, bfFolder, pyDirname_single hxs]
      rfl
    refine ⟨hfolder, ?_, by rw [hj]; exact pyBasename_single hxs⟩
    rw [bfParts, hfolder, if_pos rfl]
  | cons y ys =>
    have hLne : (y :: ys : List String) ≠ [] := by simp
    have hokL : ∀ s ∈ y :: ys, SegOk s := by
      intro s hs
      exact (hok s (by rw [hL] at *; exact List.mem_append.2 (Or.inl hs))).1
    have hbsL : ∀ s ∈ y :: ys, '\\' ∉ s.data := by
      intro s hs
      exact (hok s (by rw [hL] at *; exact List.mem_append.2 (Or.inl hs))).2
    have hdir : pyDirname (joinSlash ((y :: ys) ++ [x])) = joinSlash (y :: ys) :=
      pyDirname_join _ x hLne hokL hxs
    have hrep : pyReplaceChar '\\' '/' (joinSlash (y :: ys)) = joinSlash (y :: ys) :=
      pyReplaceChar_id (backslash_not_in_join _ hLne hbsL)
    have hne : joinSlash (y :: ys) ≠ "" := joinSlash_ne_empty _ hLne hokL
    have hnd : joinSlash (y :: ys) ≠ "." := joinSlash_ne_dot _ hLne hokL
    have hfolder : bfFolder (joinSlash ((y :: ys) ++ [x])) = joinSlash (y :: ys) := by
      rw [bfFolder, hdir, hrep, if_neg hne]
    refine ⟨?_, ?_, pyBasename_join _ x hLne hxs⟩
    · rw [hfolder, pathOf, if_neg hLne]
    · rw [bfParts, hfolder, if_neg hnd]
      exact splitSlashStr_join _ hLne hokL

theorem buildFold_wf : ∀ (files : List String) (idx : FileIndex) (root : FolderNode)
    (done : List String),
    WFnode root → root.path = "." →
    (∀ g ∈ root.subFiles, g.source_path ∈ done) →
    (∀ m ∈ root.subNodes, m.path = "." ∨ ∃ q ∈ done, pathUnder m.path q) →
    (∀ r ∈ files, CleanPath r) →
    (∀ r ∈ files, r ∉ done) →
    (∀ r ∈ files, ∀ q ∈ done, ¬ pathUnder r q ∧ ¬ pathUnder q r) →
    files.Pairwise (fun a b => ¬ pathUnder a b ∧ ¬ pathUnder b a) →
    files.Nodup →
    WFnode (buildFold idx files root) ∧ (buildFold idx files root).path = "." ∧
    (∀ g ∈ (buildFold idx files root).subFiles, g.source_path ∈ done ++ files)
  | [], idx, root, done, hwf, hpath, hfiles, _, _, _, _, _, _ =>
    ⟨hwf, hpath, fun g hg => List.mem_append.2 (Or.inl (hfiles g hg))⟩
  | r :: rest, idx, root, done, hwf, hpath, hfiles, hnodes, hclean, hnew, hcross, hpw, hnd => by
    obtain ⟨segs, hsne, hsok, hr⟩ := hclean r (List.mem_cons_self _ _)
    obtain hLnil | ⟨L, x, hLx⟩ := segs.eq_nil_or_concat
    · exact absurd hLnil hsne
    rw [List.concat_eq_append] at hLx
    subst hLx
    subst hr
    have hokL : ∀ s ∈ L, SegOk s := fun s hs => (hsok s (List.mem_append.2 (Or.inl hs))).1
    have hokx : SegOk x :=
      (hsok x (List.mem_append.2 (Or.inr (List.mem_singleton.2 rfl)))).1
    have hallok : ∀ s ∈ L ++ [x], SegOk s := fun s hs => (hsok s hs).1
    obtain ⟨hfolder, hparts, hbase⟩ := bf_facts hsok
    have hfn : (bfMeta idx (joinSlash (L ++ [x]))).file_name = x := hbase
    have hrne : ∀ q ∈ done, ¬ pathUnder (joinSlash (L ++ [x])) q ∧
        ¬ pathUnder q (joinSlash (L ++ [x])) := hcross _ (List.mem_cons_self _ _)
    have hrd : joinSlash (L ++ [x]) ∉ done := hnew _ (List.mem_cons_self _ _)
    have hA : ∀ g ∈ root.subFiles,
        g.source_path ≠ (bfMeta idx (joinSlash (L ++ [x]))).source_path ∧
        ¬ pathUnder g.source_path (bfMeta idx (joinSlash (L ++ [x]))).source_path := by
      intro g hg
      have hgd := hfiles g hg
      constructor
      · intro he
        rw [he] at hgd
        exact hrd hgd
      · exact (hrne g.source_path hgd).2
    have hB : ∀ m ∈ root.subNodes,
        m.path ≠ (bfMeta idx (joinSlash (L ++ [x]))).source_path := by
      intro m hm he
      rcases hnodes m hm with h | ⟨q, hq, hpu⟩
      · rw [h] at he
        exact joinSlash_ne_dot (L ++ [x]) (by simp) hallok he.symm
      · rw [he] at hpu
        exact (hrne q hq).1 hpu
    obtain ⟨hWi, hPi, _, hFi, hMi⟩ := insertIntoTree_wf L root []
      (bfMeta idx (joinSlash (L ++ [x]))) hwf (by rw [hpath]; rfl)
      (fun s hs => absurd hs (List.not_mem_nil s)) hokL
      (by rw [hfn]; exact hokx)
      (by
        show bfFolder (joinSlash (L ++ [x])) = pathOf ([] ++ L)
        rw [hfolder]
        rfl)
      (by
        show joinSlash (L ++ [x]) =
          joinSlash ([] ++ L ++ [(bfMeta idx (joinSlash (L ++ [x]))).file_name])
        rw [hfn]
        simp)
      hA hB
    have hres := buildFold_wf rest idx
      (insertIntoTree root [] L (bfMeta idx (joinSlash (L ++ [x]))))
      (done ++ [joinSlash (L ++ [x])]) hWi (by rw [hPi, hpath])
      (by
        intro g hg
        rcases hFi g hg with h | h
        · exact List.mem_append.2 (Or.inl (hfiles g h))
        · rw [h]
          exact List.mem_append.2 (Or.inr (List.mem_singleton.2 rfl)))
      (by
        intro m hm
        rcases hMi m hm with ⟨m0, hm0, hpe⟩ | h
        · rcases hnodes m0 hm0 with h | ⟨q, hq, hpu⟩
          · left
            rw [hpe, h]
          · right
            exact ⟨q, List.mem_append.2 (Or.inl hq), by rw [hpe]; exact hpu⟩
        · right
          exact ⟨joinSlash (L ++ [x]), List.mem_append.2 (Or.inr (List.mem_singleton.2 rfl)), h⟩)
      (fun r2 h2 => hclean r2 (List.mem_cons_of_mem _ h2))
      (by
        intro r2 h2 hc
        rcases List.mem_append.1 hc with h | h
        · exact hnew r2 (List.mem_cons_of_mem _ h2) h
        · rw [List.mem_singleton.1 h] at h2
          exact (List.nodup_cons.1 hnd).1 h2)
      (by
        intro r2 h2 q hq
        rcases List.mem_append.1 hq with h | h
        · exact hcross r2 (List.mem_cons_of_mem _ h2) q h
        · obtain ⟨ha, hb⟩ := (List.pairwise_cons.1 hpw).1 r2 h2
          rw [List.mem_singleton.1 h]
          exact ⟨hb, ha⟩)
      (List.pairwise_cons.1 hpw).2
      (List.nodup_cons.1 hnd).2
    rw [buildFold_cons_eq, hparts]
    refine ⟨hres.1, hres.2.1, ?_⟩
    intro g hg
    have h2 := hres.2.2 g hg
    simp only [List.append_assoc, List.singleton_append] at h2
    exact h2

theorem build_tree_wf {dir : String} {files : List String} {idx : FileIndex}
    (hc : CleanInput files) :
    WFnode (build_tree dir files idx) ∧ (build_tree dir files idx).path = "." ∧
    (∀ g ∈ (build_tree dir files idx).subFiles, g.source_path ∈ files) := by
  obtain ⟨hnd, hcp, hpw⟩ := hc
  have hres := buildFold_wf files idx (FolderNode.mk "." "root" [] .nil) []
    (wf_leaf _ _) rfl
    (fun g hg => absurd hg (List.not_mem_nil g))
    (by
      intro m hm
      rw [subNodes_mk] at hm
      rcases List.mem_cons.1 hm with h | h
      · subst h
        exact Or.inl rfl
      · exact absurd h (List.not_mem_nil m))
    hcp
    (fun r _ h => absurd h (List.not_mem_nil r))
    (fun r _ q hq => absurd hq (List.not_mem_nil q))
    hpw hnd
  exact ⟨hres.1, hres.2.1, fun g hg => by simpa using hres.2.2 g hg⟩

/- ----------------- extension-count and dedup lemmas ----------------- -/

theorem contains_iff_mem {l : List String} {a : String} : l.contains a = true ↔ a ∈ l := by
  induction l with
  | nil => simp
  | cons x xs ih => simp [List.contains_cons, ih]

theorem bump_keys (k : String) : ∀ (l : List (String × Nat)),
    keysOf (bump k l) = if k ∈ keysOf l then keysOf l else keysOf l ++ [k]
  | [] => by simp [bump, keysOf]
  | (x, y) :: rest => by
    rw [bump_cons]
    by_cases h : x = k
    · subst h
      rw [if_pos rfl, if_pos (show x ∈ keysOf ((x, y) :: rest) from List.mem_cons_self _ _)]
      rfl
    · rw [if_neg h]
      show x :: keysOf (bump k rest) = _
      rw [bump_keys k rest]
      by_cases h2 : k ∈ keysOf rest
      · rw [if_pos h2, if_pos (show k ∈ keysOf ((x, y) :: rest) from
          List.mem_cons.2 (Or.inr h2))]
        rfl
      · rw [if_neg h2, if_neg (show k ∉ keysOf ((x, y) :: rest) from by
          intro hc
          rcases List.mem_cons.1 hc with hc | hc
          · exact h hc.symm
          · exact h2 hc)]
        rfl

theorem dedupFirstAux_cons (acc : List String) (x : String) (rest : List String) :
    dedupFirstAux acc (x :: rest) =
      if acc.contains x then dedupFirstAux acc rest
      else x :: dedupFirstAux (acc ++ [x]) rest := rfl

theorem countExts_keys : ∀ (fs : List FileMeta) (acc : List (String × Nat)),
    keysOf (countExts fs acc) =
      keysOf acc ++ dedupFirstAux (keysOf acc) (fs.map (fun f => extOf f.file_name))
  | [], acc => by simp [countExts, dedupFirstAux]
  | f :: fs, acc => by
    show keysOf (countExts fs (bump (extOf f.file_name) acc)) = _
    rw [countExts_keys fs (bump (extOf f.file_name) acc), bump_keys, List.map_cons,
      dedupFirstAux_cons]
    by_cases h : extOf f.file_name ∈ keysOf acc
    · rw [if_pos h, if_pos (contains_iff_mem.2 h)]
    · rw [if_neg h, if_neg (fun hc => h (contains_iff_mem.1 hc))]
      simp

/- ----------------- acyclicity ----------------- -/

theorem subNodes_weight_le : ∀ (w : Nat) (n : FolderNode), n.weight ≤ w →
    ∀ m ∈ n.subNodes, m.weight ≤ n.weight := by
  intro w
  induction w with
  | zero =>
    intro n hw
    have := weight_pos n
    omega
  | succ w ih =>
    intro n hw m hm
    rcases subNodes_decomp.1 hm with rfl | ⟨c, hc, hmc⟩
    · exact le_rfl
    · have h1 := child_weight_lt hc
      have h2 := ih c (by omega) m hmc
      omega

theorem tree_acyclic {n c : FolderNode} (hc : c ∈ n.children.nodes) : n ∉ c.subNodes := by
  intro hn
  have h1 := subNodes_weight_le c.weight c le_rfl n hn
  have h2 := child_weight_lt hc
  omega

/- ----------------- join_rel on plain parts ----------------- -/

theorem join_rel_plain : ∀ (parts : List String), (∀ p ∈ parts, PlainSeg p) →
    join_rel parts = joinSlash parts := by
  intro parts hp
  have h1 : parts.filter (fun p => decide (p ≠ "" ∧ pyStrip p ≠ "")) = parts := by
    induction parts with
    | nil => rfl
    | cons x rest ih =>
      obtain ⟨hne, hst, _⟩ := hp x (List.mem_cons_self _ _)
      rw [List.filter_cons_of_pos (by simp [hne, hst])]
      rw [ih (fun q hq => hp q (List.mem_cons_of_mem _ hq))]
  have h2 : parts.map (fun p => pyReplaceChar '\\' '/' (pyStrip p)) = parts := by
    have : ∀ p ∈ parts, (fun p => pyReplaceChar '\\' '/' (pyStrip p)) p = p := by
      intro p hpm
      obtain ⟨_, hst, hrep⟩ := hp p hpm
      simp only
      rw [hst, hrep]
    rw [List.map_congr_left this]
    exact List.map_id _
  show joinSlash ((parts.filter _).map _) = joinSlash parts
  rw [h1, h2]

/- ----------------- witness-instance well-formedness ----------------- -/

theorem wf_nodeSub : WFnode nodeSub := by
  refine WFnode.mk _ ?_ ?_ ?_ ?_ ?_ ?_
  · decide
  · decide
  · decide
  · decide
  · decide
  · intro c hc
    exact absurd hc (List.not_mem_nil c)

theorem wf_nodeHw : WFnode nodeHw := by
  refine WFnode.mk _ ?_ ?_ ?_ ?_ ?_ ?_
  · decide
  · decide
  · decide
  · decide
  · decide
  · intro c hc
    rcases List.mem_cons.1 hc with h | h
    · rw [h]
      exact wf_nodeSub
    · exact absurd h (List.not_mem_nil c)

theorem wf_nodeLecture : WFnode nodeLecture := by
  refine WFnode.mk _ ?_ ?_ ?_ ?_ ?_ ?_
  · decide
  · decide
  · decide
  · decide
  · decide
  · intro c hc
    exact absurd hc (List.not_mem_nil c)

theorem wf_rootW : WFnode rootW := by
  refine WFnode.mk _ ?_ ?_ ?_ ?_ ?_ ?_
  · decide
  · decide
  · decide
  · decide
  · decide
  · intro c hc
    rcases List.mem_cons.1 hc with h | h
    · rw [h]
      exact wf_nodeHw
    · rcases List.mem_cons.1 h with h2 | h2
      · rw [h2]
        exact wf_nodeLecture
      · exact absurd h2 (List.not_mem_nil c)

theorem cleanInput_filesW : CleanInput filesW := by
  refine ⟨by decide, ?_, by decide⟩
  intro p hp
  rcases List.mem_cons.1 hp with rfl | hp
  · exact ⟨["hw", "a.pdf"], by decide, by decide, by decide⟩
  rcases List.mem_cons.1 hp with rfl | hp
  · exact ⟨["hw", "b.pdf"], by decide, by decide, by decide⟩
  rcases List.mem_cons.1 hp with rfl | hp
  · exact ⟨["hw", "sub", "c.pdf"], by decide, by decide, by decide⟩
  rcases List.mem_cons.1 hp with rfl | hp
  · exact ⟨["lecture", "l1.pdf"], by decide, by decide, by decide⟩
  rcases List.mem_cons.1 hp with rfl | hp
  · exact ⟨["notes.txt"], by decide, by decide, by decide⟩
  exact absurd hp (List.not_mem_nil p)

/- ================= Claim theorems ================= -/

/-- C1: a dequeued folder whose decision is a confident Skip (category Skip,
confidence at or above the threshold) gets exactly the terminal Skip record,
and nothing below it: no strict-descendant key ever enters the
classifications, mappings or visited set, and no description propagation is
attempted for it. -/
theorem C1_confident_skip_prunes {cl : Classifier} {db : CourseDBModel} {fi : FileIndex}
    {t : ℚ} {root : FolderNode} {st' : EngState} {p : String} {r : ClassificationResult}
    (hwf : WFnode root) (hrp : root.path = ".")
    (hrun : bfs_run cl db t root fi = .ok st')
    (hdec : alookup st'.folder_decisions p = some r)
    (hcat : r.category = Category.skip) (hconf : t ≤ r.confidence) :
    (∃ anc, alookup st'.classifications p = some (skipCls p r anc)) ∧
    (∀ k, pathUnder p k →
      k ∉ keysOf st'.classifications ∧ k ∉ keysOf st'.mappings ∧ k ∉ st'.seen) ∧
    (∀ c ∈ st'.propagation_calls, c.1 ≠ p) := by
  obtain ⟨hInv, _⟩ := bfs_run_inv hwf hrp hrun
  obtain ⟨⟨anc, hcls⟩, hunder, hprop⟩ := hInv.confSkip p r hdec hcat hconf
  refine ⟨⟨anc, hcls⟩, ?_, hprop⟩
  intro k hk
  obtain ⟨hW, _⟩ := hunder k hk
  exact ⟨fun hc => hW (engInv_cls_written hc), fun hc => hW (engInv_map_written hc),
    fun hc => hW (engInv_seen_written hc)⟩

theorem C1_confident_skip_prunes_witness :
    ("hw/a.pdf" ∉ keysOf resW1.classifications ∧ "hw/a.pdf" ∉ keysOf resW1.mappings ∧
      "hw/a.pdf" ∉ resW1.seen) ∧
    (∃ anc, alookup resW1.classifications "hw" =
      some (skipCls "hw" ⟨Category.skip, mkRat 9 10, "junk", false, ""⟩ anc)) ∧
    (∀ c ∈ resW1.propagation_calls, c.1 ≠ "hw") := by
  have h := @C1_confident_skip_prunes clW1 dbNoop [] (mkRat 3 4) rootW resW1 "hw"
    ⟨Category.skip, mkRat 9 10, "junk", false, ""⟩
    wf_rootW rfl rfl rfl rfl (by decide)
  exact ⟨h.2.1 "hw/a.pdf" (by decide), h.1, h.2.2⟩

/-- C2: over any completed run, the oracle is consulted exactly once per
processed path: the call log (folder calls plus file calls) has no duplicate
key, the folder calls are exactly the decided folder paths, every call was
on a visited path, and the visited set itself is duplicate-free. -/
theorem C2_one_call_per_path {cl : Classifier} {db : CourseDBModel} {fi : FileIndex}
    {t : ℚ} {root : FolderNode} {st' : EngState}
    (hwf : WFnode root) (hrp : root.path = ".")
    (hrun : bfs_run cl db t root fi = .ok st') :
    (st'.folder_calls ++ st'.file_calls.map Prod.fst).Nodup ∧
    st'.folder_calls = keysOf st'.folder_decisions ∧
    (∀ k ∈ st'.folder_calls ++ st'.file_calls.map Prod.fst, k ∈ st'.seen) ∧
    st'.seen.Nodup := by
  obtain ⟨hInv, _⟩ := bfs_run_inv hwf hrp hrun
  exact ⟨hInv.callsNodup, hInv.decCalls, hInv.callsSeen, hInv.ndSeen⟩

theorem C2_one_call_per_path_witness :
    (resW1.folder_calls ++ resW1.file_calls.map Prod.fst).Nodup ∧
    resW1.folder_calls = keysOf resW1.folder_decisions ∧
    (∀ k ∈ resW1.folder_calls ++ resW1.file_calls.map Prod.fst, k ∈ resW1.seen) ∧
    resW1.seen.Nodup :=
  @C2_one_call_per_path clW1 dbNoop [] (mkRat 3 4) rootW resW1 wf_rootW rfl rfl

/-- C3: a mixed folder decision never hands the folder's category to a file
(no classification carries it as parent), and whenever the decision is not a
confident Skip the engine descends: the provisional folder record is marked
" [descended]" and the folder's child folders and immediate files are all
enqueued and processed (every one is in the final visited set).  The
unconditional "always descends" of the spec is refuted separately: the
confident-skip branch is checked first. -/
theorem C3_mixed_never_assigns {cl : Classifier} {db : CourseDBModel} {fi : FileIndex}
    {t : ℚ} {root : FolderNode} {st' : EngState} {p : String} {r : ClassificationResult}
    (hwf : WFnode root) (hrp : root.path = ".")
    (hrun : bfs_run cl db t root fi = .ok st')
    (hdec : alookup st'.folder_decisions p = some r)
    (hmix : r.is_mixed = true) :
    (∀ k c, alookup st'.classifications k = some c → c.parent_folder ≠ some p) ∧
    (¬ (r.category = Category.skip ∧ t ≤ r.confidence) →
      (∃ anc, alookup st'.classifications p = some
        { path := p, category := r.category, confidence := r.confidence
          reason := r.reason ++ " [descended]", classified_at_level := "folder"
          parent_folder := none, ancestor_descriptions := anc }) ∧
      (∀ m ∈ root.subNodes, m.path = p →
        (∀ c ∈ m.children.nodes, c.path ∈ st'.seen) ∧
        (∀ fm ∈ m.files, fm.source_path ∈ st'.seen))) := by
  obtain ⟨hInv, hq⟩ := bfs_run_inv hwf hrp hrun
  constructor
  · intro k c hc
    exact hInv.noMixedParent p r hdec hmix k c hc
  · intro hns
    refine ⟨hInv.descMark p r hdec ⟨hmix, hns⟩, ?_⟩
    intro m hm hmp
    obtain ⟨hch, hfl⟩ := hInv.descChildren m hm r (by rw [hmp]; exact hdec) ⟨hmix, hns⟩
    constructor
    · intro c hc
      rcases hch c hc with h | h
      · exact h
      · simp [qKeys, hq] at h
    · intro fm hfm
      rcases hfl fm hfm with h | h
      · exact h
      · simp [qKeys, hq] at h

theorem C3_mixed_never_assigns_witness :
    (∀ k c, alookup resW1.classifications k = some c → c.parent_folder ≠ some "lecture") ∧
    (∃ anc, alookup resW1.classifications "lecture" = some
      { path := "lecture", category := Category.study, confidence := mkRat 8 10
        reason := "lect" ++ " [descended]", classified_at_level := "folder"
        parent_folder := none, ancestor_descriptions := anc }) ∧
    "lecture/l1.pdf" ∈ resW1.seen := by
  have h := @C3_mixed_never_assigns clW1 dbNoop [] (mkRat 3 4) rootW resW1 "lecture"
    ⟨Category.study, mkRat 8 10, "lect", true, "lecture material"⟩
    wf_rootW rfl rfl rfl rfl
  have h2 := h.2 (by decide)
  have hmem : nodeLecture ∈ rootW.subNodes :=
    subNodes_decomp.2 (Or.inr ⟨nodeLecture,
      List.mem_cons_of_mem _ (List.mem_cons_self _ _), self_mem_subNodes _⟩)
  refine ⟨h.1, h2.1, ?_⟩
  exact (h2.2 nodeLecture hmem rfl).2 ⟨"lecture/l1.pdf", "lecture", "l1.pdf", none⟩
    (List.mem_singleton.2 rfl)

theorem C3_mixed_never_assigns_counterexample :
    alookup resW3.folder_decisions "hw" =
      some ⟨Category.skip, mkRat 9 10, "junk", true, ""⟩ ∧
    alookup resW3.classifications "hw" =
      some (skipCls "hw" ⟨Category.skip, mkRat 9 10, "junk", true, ""⟩ []) ∧
    "hw/a.pdf" ∉ resW3.seen ∧ "hw/sub" ∉ resW3.seen :=
  ⟨rfl, rfl, by decide, by decide⟩

/-- C4: the destination table of `build_dest_rel` on clean segments:
practice and support map to `<category>/<topFolder>/<tail>`, study maps to
`study/lecture/<tail>` when the top folder is already `lecture` and to
`study/lecture/<topFolder>/<tail>` otherwise; and both the file-level and
the folder-inherited mapping records compute their destination through the
same `destForSource`, a function of category and original path only. -/
theorem C4_dest_table {top tail : String} (hP : PlainSeg top) (hT : PlainSeg tail) :
    build_dest_rel "practice" top tail = "practice" ++ "/" ++ top ++ "/" ++ tail ∧
    build_dest_rel "support" top tail = "support" ++ "/" ++ top ++ "/" ++ tail ∧
    build_dest_rel "study" "lecture" tail = "study" ++ "/" ++ "lecture" ++ "/" ++ tail ∧
    (top ≠ "lecture" → build_dest_rel "study" top tail =
      "study" ++ "/" ++ "lecture" ++ "/" ++ top ++ "/" ++ tail) ∧
    (∀ (r : ClassificationResult) (sp : String),
      (fileMap r sp).dest_rel = destForSource r.category.value sp ∧
      (inheritedMap r sp).dest_rel = destForSource r.category.value sp) := by
  have hplain3 : ∀ (c : String), PlainSeg c → ∀ q ∈ [c, top, tail], PlainSeg q := by
    intro c hc q hq
    rcases List.mem_cons.1 hq with rfl | hq
    · exact hc
    rcases List.mem_cons.1 hq with rfl | hq
    · exact hP
    rcases List.mem_cons.1 hq with rfl | hq
    · exact hT
    exact absurd hq (List.not_mem_nil q)
  refine ⟨?_, ?_, ?_, ?_, fun r sp => ⟨rfl, rfl⟩⟩
  · rw [show build_dest_rel "practice" top tail = join_rel ["practice", top, tail] from by
      simp [build_dest_rel]]
    rw [join_rel_plain _ (hplain3 "practice" (by decide))]
    apply strEq_of_data
    simp [joinSlash, strData_append]
  · rw [show build_dest_rel "support" top tail = join_rel ["support", top, tail] from by
      simp [build_dest_rel]]
    rw [join_rel_plain _ (hplain3 "support" (by decide))]
    apply strEq_of_data
    simp [joinSlash, strData_append]
  · rw [show build_dest_rel "study" "lecture" tail = join_rel ["study", "lecture", tail] from by
      simp [build_dest_rel]]
    rw [join_rel_plain _ (by
      intro q hq
      rcases List.mem_cons.1 hq with rfl | hq
      · decide
      rcases List.mem_cons.1 hq with rfl | hq
      · decide
      rcases List.mem_cons.1 hq with rfl | hq
      · exact hT
      exact absurd hq (List.not_mem_nil q))]
    apply strEq_of_data
    simp [joinSlash, strData_append]
  · intro hne
    rw [show build_dest_rel "study" top tail = join_rel ["study", "lecture", top, tail] from by
      simp [build_dest_rel, hne]]
    rw [join_rel_plain _ (by
      intro q hq
      rcases List.mem_cons.1 hq with rfl | hq
      · decide
      rcases List.mem_cons.1 hq with rfl | hq
      · decide
      rcases List.mem_cons.1 hq with rfl | hq
      · exact hP
      rcases List.mem_cons.1 hq with rfl | hq
      · exact hT
      exact absurd hq (List.not_mem_nil q))]
    apply strEq_of_data
    simp [joinSlash, strData_append]

theorem C4_dest_table_witness :
    build_dest_rel "practice" "hw" "a.pdf" = "practice" ++ "/" ++ "hw" ++ "/" ++ "a.pdf" ∧
    build_dest_rel "study" "lecture" "a.pdf" = "study" ++ "/" ++ "lecture" ++ "/" ++ "a.pdf" ∧
    build_dest_rel "study" "hw" "a.pdf" =
      "study" ++ "/" ++ "lecture" ++ "/" ++ "hw" ++ "/" ++ "a.pdf" := by
  have h := @C4_dest_table "hw" "a.pdf" (by decide) (by decide)
  exact ⟨h.1, h.2.2.1, h.2.2.2.1 (by decide)⟩

/-- C5: contrary to the spec's non-fatal PersistenceError contract, a
failing bulk description update in the confident-assignment branch aborts
`_process_folder` before any per-file classification or mapping of the
subtree is written: the call sits in no try/except, so the error propagates
out of the step. -/
theorem C5_db_failure_fatal {cl : Classifier} {db : CourseDBModel} {t : ℚ} {fi : FileIndex}
    {n : FolderNode} {st : EngState} {e : String}
    (hA : ¬ ((pfR cl fi n st).category = Category.skip ∧ t ≤ (pfR cl fi n st).confidence))
    (hsd : pfSd cl fi t n st = false)
    (hdesc : (pfR cl fi n st).folder_description ≠ "")
    (huu : pfUuids db n ≠ [])
    (hdb : db.update_folder_description_bulk (pfUuids db n)
      (pfR cl fi n st).folder_description = .error e) :
    processFolder cl db t fi n st = .error e :=
  processFolder_db_err_eq hA hsd hdesc huu hdb

theorem C5_db_failure_fatal_witness :
    processFolder clW2 dbFail (mkRat 3 4) [] nodeHw emptyEng = .error "db down" :=
  C5_db_failure_fatal (by decide) (by decide) (by decide) (by decide) rfl

theorem C5_db_failure_fatal_counterexample :
    bfs_run clW2 dbFail (mkRat 3 4) rootW [] = .error "db down" := rfl

/-- C6: an individually processed file whose oracle decision is Skip is
dropped silently: its path appears neither among the classification keys
nor among the mapping keys of the final state. -/
theorem C6_file_skip_dropped {cl : Classifier} {db : CourseDBModel} {fi : FileIndex}
    {t : ℚ} {root : FolderNode} {st' : EngState}
    (hwf : WFnode root) (hrp : root.path = ".")
    (hrun : bfs_run cl db t root fi = .ok st') :
    ∀ pr ∈ st'.file_calls, pr.2.category = Category.skip →
      pr.1 ∉ keysOf st'.classifications ∧ pr.1 ∉ keysOf st'.mappings := by
  obtain ⟨hInv, _⟩ := bfs_run_inv hwf hrp hrun
  exact hInv.skipFiles

theorem C6_file_skip_dropped_witness :
    "notes.txt" ∉ keysOf resW1.classifications ∧ "notes.txt" ∉ keysOf resW1.mappings :=
  @C6_file_skip_dropped clW1 dbNoop [] (mkRat 3 4) rootW resW1 wf_rootW rfl rfl
    ("notes.txt", ⟨Category.skip, mkRat 9 10, "scratch", false, ""⟩) (by decide) rfl

/-- C7: after a completed run over the tree built from a clean scanned
input list, every mapping key equals its record's `source_rel`, is one of
the scanned input paths, occurs only once, and belongs to a file holding a
non-Skip terminal classification of the matching category. -/
theorem C7_mapping_integrity {dir : String} {files : List String} {idx fi : FileIndex}
    {cl : Classifier} {db : CourseDBModel} {t : ℚ} {st' : EngState}
    (hclean : CleanInput files)
    (hrun : bfs_run cl db t (build_tree dir files idx) fi = .ok st') :
    (keysOf st'.mappings).Nodup ∧
    ∀ pr ∈ st'.mappings, pr.2.source_rel = pr.1 ∧ pr.1 ∈ files ∧
      ∃ c, alookup st'.classifications pr.1 = some c ∧ c.category ≠ Category.skip ∧
        c.category.value = pr.2.category := by
  obtain ⟨hwf, hrp, hsub⟩ := @build_tree_wf dir files idx hclean
  obtain ⟨hInv, _⟩ := bfs_run_inv hwf hrp hrun
  refine ⟨hInv.ndMap, ?_⟩
  intro pr hpr
  obtain ⟨h1, h2, _, _, c, hcl, hc1, hc2, _⟩ := hInv.mapsOk pr hpr
  refine ⟨h1, ?_, c, hcl, hc1, hc2⟩
  obtain ⟨g, hg, he⟩ := List.mem_map.1 h2
  rw [← he]
  exact hsub g hg

theorem C7_mapping_integrity_witness :
    (keysOf resW4.mappings).Nodup ∧
    ∀ pr ∈ resW4.mappings, pr.2.source_rel = pr.1 ∧ pr.1 ∈ filesW ∧
      ∃ c, alookup resW4.classifications pr.1 = some c ∧ c.category ≠ Category.skip ∧
        c.category.value = pr.2.category :=
  @C7_mapping_integrity "course" filesW [] [] clW2 dbNoop (mkRat 3 4) resW4
    cleanInput_filesW rfl

/-- C8: on clean input `build_tree` roots the tree at `"."` and gives every
child the path `childPath parent.path name` — a plain `name` for depth-one
children (not `"./name"`, correcting the spec's uniform
`parent.path + "/" + name`), and `parent.path/name` below; sibling names
are materialized once (no duplicate keys), files sit on the folder whose
path is their directory, and no node recurs in a child's subtree. -/
theorem C8_tree_shape {dir : String} {files : List String} {idx : FileIndex}
    (hclean : CleanInput files) :
    (build_tree dir files idx).path = "." ∧
    (∀ m ∈ (build_tree dir files idx).subNodes,
      m.children.names.Nodup ∧
      ∀ c ∈ m.children.nodes,
        c.path = childPath m.path c.name ∧ c.name ≠ "" ∧ m ∉ c.subNodes) ∧
    (∀ m ∈ (build_tree dir files idx).subNodes, ∀ fm ∈ m.files,
      fm.folder_path = m.path ∧ fm.source_path = childPath m.path fm.file_name) := by
  obtain ⟨hwf, hrp, _⟩ := @build_tree_wf dir files idx hclean
  refine ⟨hrp, ?_, ?_⟩
  · intro m hm
    have hmwf := wf_subNodes hwf hm
    constructor
    · cases hmwf with
      | mk n hfile hfnodup hcnodup hchild hfc hrec => exact hcnodup
    · intro c hc
      obtain ⟨nm, hn, hcp, hseg, _⟩ := wf_child_facts hmwf hc
      refine ⟨by rw [hcp, hn], by rw [hn]; exact hseg.1, tree_acyclic hc⟩
  · intro m hm fm hfm
    have hmwf := wf_subNodes hwf hm
    obtain ⟨h1, h2, _⟩ := wf_file_facts hmwf hfm
    exact ⟨h1, h2⟩

theorem C8_tree_shape_witness :
    (build_tree "course" filesW []).path = "." ∧
    (∀ m ∈ (build_tree "course" filesW []).subNodes,
      m.children.names.Nodup ∧
      ∀ c ∈ m.children.nodes,
        c.path = childPath m.path c.name ∧ c.name ≠ "" ∧ m ∉ c.subNodes) ∧
    (∀ m ∈ (build_tree "course" filesW []).subNodes, ∀ fm ∈ m.files,
      fm.folder_path = m.path ∧ fm.source_path = childPath m.path fm.file_name) :=
  @C8_tree_shape "course" filesW [] cleanInput_filesW

theorem C8_tree_shape_counterexample :
    ((build_tree "course" ["hw/a.pdf"] []).children.nodes.map
      (fun c => (c.path, c.name))) = [("hw", "hw")] ∧
    (build_tree "course" ["hw/a.pdf"] []).path = "." ∧
    ("hw" : String) ≠ "." ++ "/" ++ "hw" :=
  ⟨by decide, rfl, by decide⟩

/-- C9: `compute_folder_stats` marks a folder homogeneous exactly when at
most one distinct non-metadata extension occurs among the subtree files —
metadata extensions are always excluded, also when they are the only
content (correcting the spec's "unless they are the only content present"
proviso). -/
theorem C9_homogeneity (n : FolderNode) :
    (compute_folder_stats n).is_homogeneous = true ↔
    ((dedupFirst ((collect_all_files n).map (fun f => extOf f.file_name))).filter
      (fun e => ¬ metadata_exts.contains e)).length ≤ 1 := by
  have h1 : (compute_folder_stats n).is_homogeneous =
      decide ((((countExts (collect_all_files n) []).map Prod.fst).filter
        (fun e => ¬ metadata_exts.contains e)).length ≤ 1) := rfl
  have h2 : (countExts (collect_all_files n) []).map Prod.fst =
      dedupFirst ((collect_all_files n).map (fun f => extOf f.file_name)) :=
    countExts_keys (collect_all_files n) []
  rw [h1, h2]
  exact decide_eq_true_iff

theorem C9_homogeneity_counterexample :
    (compute_folder_stats mdW).is_homogeneous = true ∧
    spec_is_homogeneous (collect_all_files mdW) = false :=
  ⟨by decide, by decide⟩

/-- C10: `top_level_folder` returns the first path segment only for paths
that contain a separator; a bare file name yields `""` (correcting the
spec's unconditional "first path segment"), and both mapping constructors
use it as the `top_folder` namespace root. -/
theorem C10_top_level {p : String} (hc : CleanPath p) :
    (('/' ∈ p.data → top_level_folder p = spec_first_segment p) ∧
     ('/' ∉ p.data → top_level_folder p = "")) ∧
    (∀ (r : ClassificationResult) (sp : String),
      (fileMap r sp).top_folder = top_level_folder sp ∧
      (inheritedMap r sp).top_folder = top_level_folder sp) := by
  refine ⟨?_, fun r sp => ⟨rfl, rfl⟩⟩
  obtain ⟨segs, hsne, hsok, hr⟩ := hc
  subst hr
  have hbs : '\\' ∉ (joinSlash segs).data :=
    backslash_not_in_join segs hsne (fun s hs => (hsok s hs).2)
  have hrep : pyReplaceChar '\\' '/' (joinSlash segs) = joinSlash segs := pyReplaceChar_id hbs
  have hsplit : splitSlashStr (joinSlash segs) = segs :=
    splitSlashStr_join segs hsne (fun s hs => (hsok s hs).1)
  cases segs with
  | nil => exact absurd rfl hsne
  | cons y ys =>
    cases ys with
    | nil =>
      refine ⟨?_, ?_⟩
      · intro h
        exact absurd h (hsok y (List.mem_singleton.2 rfl)).1.2.2
      · intro _
        show top_level_folder (joinSlash [y]) = ""
        simp only [top_level_folder]
        rw [hrep, hsplit]
    | cons z zs =>
      refine ⟨?_, ?_⟩
      · intro _
        show top_level_folder (joinSlash (y :: z :: zs)) =
          spec_first_segment (joinSlash (y :: z :: zs))
        simp only [top_level_folder, spec_first_segment]
        rw [hrep, hsplit]
      · intro h
        exfalso
        apply h
        rw [joinSlash_data_cons]
        exact List.mem_append.2 (Or.inr (List.mem_cons_self _ _))

theorem C10_top_level_witness :
    top_level_folder "hw/a.pdf" = spec_first_segment "hw/a.pdf" ∧
    (fileMap ⟨Category.study, mkRat 8 10, "r", false, ""⟩ "hw/a.pdf").top_folder =
      top_level_folder "hw/a.pdf" := by
  have h := @C10_top_level "hw/a.pdf" ⟨["hw", "a.pdf"], by decide, by decide, by decide⟩
  exact ⟨h.1.1 (by decide), (h.2 ⟨Category.study, mkRat 8 10, "r", false, ""⟩ "hw/a.pdf").1⟩

theorem C10_top_level_counterexample :
    top_level_folder "notes.txt" = "" ∧ spec_first_segment "notes.txt" = "notes.txt" ∧
    ("" : String) ≠ "notes.txt" :=
  ⟨rfl, rfl, by decide⟩
